import Mathlib

/-!
# TheBuilder: the script parser and the incremental-build engine of `builder.cpp`

A shallow embedding of `ScriptParser::parse`, `trim`, `split` (`src/builder.cpp`,
lines 18-95) and of `BuildSystem::needs_build` and `BuildSystem::build`
(lines 97-189), together with the data they work on.

* `parser.targets` (a `std::map<std::string, Target>`) is an association list
  with at most one entry per key; `targets_index` is `operator[]`, which
  inserts a default-constructed `Target` when the key is absent.
* The script is the list of lines that `getline` delivers; a line is read as
  its list of characters. Every test the parser makes is on an ASCII
  character (`#`, `:`, space, tab, the `isspace` class).
* The filesystem and the shell are an `Oracle` over an abstract world `σ`:
  `fs::exists`, `fs::last_write_time` read the world, `std::system` returns an
  exit status and a new world.
* `exit(1)` is an explicit outcome; unbounded recursion is the outcome `loop`
  of a fuel-indexed function (the fuel bounds the depth of the call stack).
* The executed commands are recorded in a ghost trace that mirrors the
  `Needs build, executing commands` / `Executing: cmd` output lines.
-/

namespace Builder

/-! ## Definitions -/

/-- The record `struct Target` (lines 12-16), with its default member values. -/
structure Target where
  dependencies : List String := []
  commands : List String := []
  is_phony : Bool := false
deriving DecidableEq, Repr

/-- The type of `parser.targets`: `std::map<std::string, Target>`. -/
abbrev TargetMap := List (String × Target)

/-- The call `targets.count(k)`, read as a truth value (lines 126, 164, 208). -/
def targets_count (m : TargetMap) (k : String) : Bool :=
  m.any (fun p => p.1 == k)

/-- The record stored under `k`, when there is one. -/
def targets_find (m : TargetMap) (k : String) : Option Target :=
  (m.find? (fun p => p.1 == k)).map Prod.snd

/-- The call `targets[k]` (`std::map::operator[]`): the record under `k`; when
the key is absent a default-constructed `Target` is inserted first. The map
after the call is returned with the record. The map is only ever looked up by
key, so the position of the new entry does not matter. -/
def targets_index (m : TargetMap) (k : String) : TargetMap × Target :=
  match targets_find m k with
  | some t => (m, t)
  | none => (m ++ [(k, {})], {})

/-- The external capabilities: `fs::exists`, `fs::last_write_time` and
`std::system`, over an abstract world state. -/
structure Oracle (σ : Type) where
  file_exists : σ → String → Bool
  last_write_time : σ → String → Int
  system : σ → String → Int × σ

/-- The two places where the program calls `exit(1)`: line 143 (a dependency
that is neither a target nor an existing file) and line 179 (a command with a
non-zero status). -/
inductive Error where
  | MissingDependency (dep : String)
  | CommandFailed (cmd : String)
deriving DecidableEq, Repr

/-- Ghost trace entries: `start t` is the point where `build(t)` enters its
command loop (line 173), `exec t cmd status` one `std::system(cmd)` call made
for target `t` and the status it returned (lines 175-176). -/
inductive Event where
  | start (target : String)
  | exec (target : String) (cmd : String) (status : Int)
deriving DecidableEq, Repr

/-- The target an event belongs to. -/
def Event.target : Event → String
  | .start t => t
  | .exec t _ _ => t

/-- How a call of `needs_build` ends: it returns a boolean (with the map as
`operator[]` left it), the process exits at line 143, or the recursion does
not end within the fuel. -/
inductive Check where
  | ret (targets : TargetMap) (stale : Bool)
  | exit (dep : String)
  | loop
deriving DecidableEq, Repr

/-- The loop of lines 123-145 over the dependencies of a target whose
modification time is `target_time`; `recur` is the recursive call
`needs_build(dep)`. -/
def needs_build_deps {σ : Type} (o : Oracle σ) (w : σ) (recur : TargetMap → String → Check)
    (target_time : Int) : List String → TargetMap → Check
  | [], m => .ret m false
  | dep :: rest, m =>
    if targets_count m dep then
      match recur m dep with
      | .ret m1 true => .ret m1 true
      | .ret m1 false => needs_build_deps o w recur target_time rest m1
      | .exit d => .exit d
      | .loop => .loop
    else if o.file_exists w dep then
      if o.last_write_time w dep > target_time then .ret m true
      else needs_build_deps o w recur target_time rest m
    else .exit dep

/-- The method `BuildSystem::needs_build` (lines 107-148). The first argument
bounds the recursion depth. -/
def needs_build {σ : Type} (o : Oracle σ) (w : σ) : Nat → TargetMap → String → Check
  | 0, _, _ => .loop
  | fuel + 1, m, target =>
    if !o.file_exists w target then .ret m true
    else
      let (m1, t1) := targets_index m target
      if t1.is_phony then .ret m1 true
      else
        let target_time := o.last_write_time w target
        let (m2, t2) := targets_index m1 target
        needs_build_deps o w (needs_build o w fuel) target_time t2.dependencies m2

/-- The engine state: `parser.targets`, `built_targets`, the world the
oracle acts on, and the ghost trace. -/
structure State (σ : Type) where
  targets : TargetMap
  built_targets : List String
  world : σ
  trace : List Event

/-- How a call of `build` ends: it returns, the process exits (the state at
that moment is kept), or the recursion does not end within the fuel. -/
inductive Run (σ : Type) where
  | ret (s : State σ)
  | exit (e : Error) (s : State σ)
  | loop

/-- The command loop of lines 174-181 for target `target`. -/
def run_commands {σ : Type} (o : Oracle σ) (target : String) : List String → State σ → Run σ
  | [], s => .ret s
  | cmd :: rest, s =>
    let r := o.system s.world cmd
    let s1 : State σ := { s with world := r.2, trace := s.trace ++ [Event.exec target cmd r.1] }
    if r.1 != 0 then .exit (.CommandFailed cmd) s1
    else run_commands o target rest s1

/-- The dependency loop of lines 162-170; `recur` is the recursive call
`build(dep)`. -/
def build_deps {σ : Type} (recur : String → State σ → Run σ) : List String → State σ → Run σ
  | [], s => .ret s
  | dep :: rest, s =>
    if targets_count s.targets dep then
      match recur dep s with
      | .ret s1 => build_deps recur rest s1
      | .exit e s1 => .exit e s1
      | .loop => .loop
    else build_deps recur rest s

/-- The method `BuildSystem::build` (lines 150-188). The first argument bounds
the recursion depth (of `build` and of the `needs_build` call it makes).
`target` is the record bound at line 158; no call changes a record that is
in the map, so its dependencies and commands are those read at lines 162 and
174. -/
def build {σ : Type} (o : Oracle σ) : Nat → String → State σ → Run σ
  | 0, _, _ => .loop
  | fuel + 1, target_name, s =>
    if target_name ∈ s.built_targets then .ret s
    else
      let (m1, target) := targets_index s.targets target_name
      match build_deps (build o fuel) target.dependencies { s with targets := m1 } with
      | .ret s2 =>
        match needs_build o s2.world fuel s2.targets target_name with
        | .ret m2 true =>
          match run_commands o target_name target.commands
              { s2 with targets := m2, trace := s2.trace ++ [Event.start target_name] } with
          | .ret s3 => .ret { s3 with built_targets := s3.built_targets ++ [target_name] }
          | .exit e s3 => .exit e s3
          | .loop => .loop
        | .ret m2 false =>
          .ret { s2 with targets := m2, built_targets := s2.built_targets ++ [target_name] }
        | .exit d => .exit (.MissingDependency d) s2
        | .loop => .loop
      | .exit e s2 => .exit e s2
      | .loop => .loop

/-! ### The dependency relation, derivations and invariants -/

/-- The edge `t → d`: `d` is listed in the record of `t` and is itself a graph
target. These are the dependencies both recursions descend into. -/
def DepEdge (g : TargetMap) (t d : String) : Prop :=
  ∃ tgt, targets_find g t = some tgt ∧ d ∈ tgt.dependencies ∧ targets_count g d = true

/-- A graph is acyclic when no target is reachable from itself through one or
more dependency edges. -/
def Acyclic (g : TargetMap) : Prop :=
  ∀ t, ¬ Relation.TransGen (DepEdge g) t t

/-- The completed set is closed: every graph-target dependency of a completed
target is completed too. -/
def DepsClosed (g : TargetMap) (built : List String) : Prop :=
  ∀ t ∈ built, ∀ d, DepEdge g t d → d ∈ built

/-- The state a run starts from: nothing built yet, nothing executed yet. -/
def fresh {σ : Type} (g : TargetMap) (w : σ) : State σ :=
  { targets := g, built_targets := [], world := w, trace := [] }

/-- The final state of a finished call of `build`, if it finished. -/
def Run.final {σ : Type} : Run σ → Option (State σ)
  | .ret s => some s
  | .exit _ s => some s
  | .loop => none

/-- What a derivation is about: one call `build(t)`, or the dependency loop
over a list. -/
inductive Task where
  | one (t : String)
  | many (ds : List String)

/-- The finished calls of `build` and of its dependency loop, one rule per
path through the code. `Exec o task s r`: started in `s`, the task ends with
outcome `r`. -/
inductive Exec {σ : Type} (o : Oracle σ) : Task → State σ → Run σ → Prop where
  | skip (t : String) (s : State σ) :
      t ∈ s.built_targets → Exec o (.one t) s (.ret s)
  | nil (s : State σ) : Exec o (.many []) s (.ret s)
  | file (d : String) (rest : List String) (s : State σ) (r : Run σ) :
      targets_count s.targets d = false → Exec o (.many rest) s r →
      Exec o (.many (d :: rest)) s r
  | dep_ret (d : String) (rest : List String) (s s1 : State σ) (r : Run σ) :
      targets_count s.targets d = true → Exec o (.one d) s (.ret s1) →
      Exec o (.many rest) s1 r → Exec o (.many (d :: rest)) s r
  | dep_exit (d : String) (rest : List String) (s s1 : State σ) (e : Error) :
      targets_count s.targets d = true → Exec o (.one d) s (.exit e s1) →
      Exec o (.many (d :: rest)) s (.exit e s1)
  | deps_exit (t : String) (s s2 : State σ) (tgt : Target) (e : Error) :
      t ∉ s.built_targets → targets_find s.targets t = some tgt →
      Exec o (.many tgt.dependencies) s (.exit e s2) → Exec o (.one t) s (.exit e s2)
  | missing (t : String) (s s2 : State σ) (tgt : Target) (n : Nat) (d : String) :
      t ∉ s.built_targets → targets_find s.targets t = some tgt →
      Exec o (.many tgt.dependencies) s (.ret s2) →
      needs_build o s2.world n s2.targets t = Check.exit d →
      Exec o (.one t) s (.exit (.MissingDependency d) s2)
  | uptodate (t : String) (s s2 : State σ) (tgt : Target) (n : Nat) (m2 : TargetMap) :
      t ∉ s.built_targets → targets_find s.targets t = some tgt →
      Exec o (.many tgt.dependencies) s (.ret s2) →
      needs_build o s2.world n s2.targets t = Check.ret m2 false →
      Exec o (.one t) s
        (.ret { s2 with targets := m2, built_targets := s2.built_targets ++ [t] })
  | ran (t : String) (s s2 s3 : State σ) (tgt : Target) (n : Nat) (m2 : TargetMap) :
      t ∉ s.built_targets → targets_find s.targets t = some tgt →
      Exec o (.many tgt.dependencies) s (.ret s2) →
      needs_build o s2.world n s2.targets t = Check.ret m2 true →
      run_commands o t tgt.commands
        { s2 with targets := m2, trace := s2.trace ++ [Event.start t] } = Run.ret s3 →
      Exec o (.one t) s (.ret { s3 with built_targets := s3.built_targets ++ [t] })
  | failed (t : String) (s s2 s3 : State σ) (tgt : Target) (n : Nat) (m2 : TargetMap)
      (e : Error) :
      t ∉ s.built_targets → targets_find s.targets t = some tgt →
      Exec o (.many tgt.dependencies) s (.ret s2) →
      needs_build o s2.world n s2.targets t = Check.ret m2 true →
      run_commands o t tgt.commands
        { s2 with targets := m2, trace := s2.trace ++ [Event.start t] } = Run.exit e s3 →
      Exec o (.one t) s (.exit e s3)

/-- What a returned task has put in the completed set: the target itself, or
every graph target of the list. -/
def Task.done (g : TargetMap) : Task → List String → Prop
  | .one t, built => t ∈ built
  | .many ds, built => ∀ d ∈ ds, targets_count g d = true → d ∈ built

/-- Each member of `V` has an edge into `V` or to (one of) the target(s) of
the task. -/
def Trapped (g : TargetMap) (V : String → Prop) : Task → Prop
  | .one t => ∀ v, V v → ∃ d, DepEdge g v d ∧ (V d ∨ d = t)
  | .many ds => ∀ d ∈ ds, targets_count g d = true →
      ∀ v, V v → ∃ d1, DepEdge g v d1 ∧ (V d1 ∨ d1 = d)

/-- The graph targets of the task are outside `V`. -/
def Outside (g : TargetMap) (V : String → Prop) : Task → Prop
  | .one t => ¬ V t
  | .many ds => ∀ d ∈ ds, targets_count g d = true → ¬ V d

/-- The target of an unfinished call is not completed. -/
def Task.pending : Task → List String → Prop
  | .one t, built => t ∉ built
  | .many _, _ => True

/-- No event is followed by an event of a target that the first event's
target transitively depends on. -/
def Ordered (g : TargetMap) (tr : List Event) : Prop :=
  ∀ pre ev post, tr = pre ++ ev :: post →
    ∀ ev1 ∈ post, ¬ Relation.TransGen (DepEdge g) ev.target ev1.target

/-- The events of target `X` in a trace, in order. -/
def events_of (X : String) (tr : List Event) : List Event :=
  tr.filter (fun ev => ev.target == X)

/-- The events of one complete, successful command loop of target `X` with
record `tgt`: the start, then every command in declaration order. -/
def full_batch (X : String) (tgt : Target) : List Event :=
  Event.start X :: tgt.commands.map (fun c => Event.exec X c 0)

/-- The invariant that holds whenever a call of `build` is entered or has
returned, in a run on graph `g`. -/
structure Good {σ : Type} (g : TargetMap) (s : State σ) : Prop where
  targets_eq : s.targets = g
  closed : DepsClosed g s.built_targets
  events_built : ∀ ev ∈ s.trace, ev.target ∈ s.built_targets
  ordered : Ordered g s.trace
  once : ∀ X, s.trace.count (Event.start X) ≤ 1
  status_ok : ∀ t c st, Event.exec t c st ∈ s.trace → st = 0
  batch : ∀ X, events_of X s.trace = [] ∨
    ∃ tgt, targets_find g X = some tgt ∧ events_of X s.trace = full_batch X tgt

/-- What the state looks like at an `exit(1)`: after a failed command that
command is the last event, its status is not zero, every earlier status is
zero and its target is not completed; at a missing dependency the state is
good (the exit happens before any command of the target is run). -/
def Failing {σ : Type} (g : TargetMap) (e : Error) (s : State σ) : Prop :=
  match e with
  | .CommandFailed c => ∃ pre t st, s.trace = pre ++ [Event.exec t c st] ∧ st ≠ 0 ∧
      t ∉ s.built_targets ∧ ∀ t1 c1 st1, Event.exec t1 c1 st1 ∈ pre → st1 = 0
  | .MissingDependency _ => Good g s

/-- What holds of the state in which the process exits. -/
structure Halted {σ : Type} (g : TargetMap) (e : Error) (s : State σ) : Prop where
  ordered : Ordered g s.trace
  once : ∀ X, s.trace.count (Event.start X) ≤ 1
  failing : Failing g e s
  batch : ∀ X, events_of X s.trace = [] ∨
    ∃ tgt, targets_find g X = some tgt ∧
      (events_of X s.trace = full_batch X tgt ∨
        ∃ pre c rest st, tgt.commands = pre ++ c :: rest ∧ e = Error.CommandFailed c ∧
          st ≠ 0 ∧ events_of X s.trace =
            Event.start X :: (pre.map (fun c => Event.exec X c 0) ++ [Event.exec X c st]))

/-- The outcome of a task started in a good state: a good state when it
returns, a halted one when the process exits. -/
def GoodRun {σ : Type} (g : TargetMap) : Run σ → Prop
  | .ret s => Good g s
  | .exit e s => Halted g e s
  | .loop => True

/-- The body of `build` for a graph target that is not completed. -/
def build_body {σ : Type} (o : Oracle σ) (fuel : Nat) (t : String) (tgt : Target)
    (s : State σ) : Run σ :=
  match build_deps (build o fuel) tgt.dependencies s with
  | .ret s2 =>
    match needs_build o s2.world fuel s2.targets t with
    | .ret m2 true =>
      match run_commands o t tgt.commands
          { s2 with targets := m2, trace := s2.trace ++ [Event.start t] } with
      | .ret s3 => .ret { s3 with built_targets := s3.built_targets ++ [t] }
      | .exit e s3 => .exit e s3
      | .loop => .loop
    | .ret m2 false =>
      .ret { s2 with targets := m2, built_targets := s2.built_targets ++ [t] }
    | .exit d => .exit (.MissingDependency d) s2
    | .loop => .loop
  | .exit e s2 => .exit e s2
  | .loop => .loop

/-! ### Concrete graphs and oracles -/

/-- A world is the list of existing files, oldest first: the modification
time of a file is its position. The command `false` fails with status 1,
every other command succeeds; no command changes the files. -/
def demo_oracle : Oracle (List String) where
  file_exists := fun w p => w.contains p
  last_write_time := fun w p => (w.indexOf p : Int)
  system := fun w cmd => if cmd = "false" then (1, w) else (0, w)

/-- The graph `app: main.o util.o`, `main.o: main.c`, `util.o: util.c`. -/
def demo_graph : TargetMap :=
  [("app", { dependencies := ["main.o", "util.o"], commands := ["g++ -o app main.o util.o"] }),
   ("main.o", { dependencies := ["main.c"], commands := ["g++ -c main.c -o main.o"] }),
   ("util.o", { dependencies := ["util.c"], commands := ["g++ -c util.c -o util.o"] })]

/-- A boolean test for acyclicity: `rank` decreases strictly along every edge
of the graph. -/
def rank_ok (g : TargetMap) (rank : String → Nat) : Bool :=
  g.all (fun p => p.2.dependencies.all (fun d => !targets_count g d || decide (rank d < rank p.1)))

/-- A rank for `demo_graph`. -/
def demo_rank (t : String) : Nat := if t = "app" then 1 else 0

/-- A diamond with a doubled entry: `top` lists `left`, `right` and `left`
again, and both `left` and `right` depend on `base`. -/
def diamond_graph : TargetMap :=
  [("top", { dependencies := ["left", "right", "left"], commands := ["link"] }),
   ("left", { dependencies := ["base"], commands := ["cc left"] }),
   ("right", { dependencies := ["base"], commands := ["cc right"] }),
   ("base", { dependencies := [], commands := ["gen"] })]

/-- A rank for `diamond_graph`. -/
def diamond_rank (t : String) : Nat :=
  if t = "top" then 2 else if t = "base" then 0 else 1

/-- Sequencing: what follows a call that returned; an exit or a missing
result ends everything. -/
def Run.andThen {σ : Type} (r : Run σ) (k : State σ → Run σ) : Run σ :=
  match r with
  | .ret s => k s
  | .exit e s => .exit e s
  | .loop => .loop

/-- No command recorded in the trace has failed. -/
def Clean (tr : List Event) : Prop :=
  ∀ t c st, Event.exec t c st ∈ tr → st = 0

/-- The outcome of a task started with a clean trace: a clean trace when it
returns; when the process exits, either a clean trace and a missing
dependency, or the failed command as the last event, after a clean trace, its
target not completed. -/
def CleanRun {σ : Type} : Run σ → Prop
  | .ret s => Clean s.trace
  | .exit (.MissingDependency _) s => Clean s.trace
  | .exit (.CommandFailed c) s => ∃ pre t st, s.trace = pre ++ [Event.exec t c st] ∧
      st ≠ 0 ∧ Clean pre ∧ t ∉ s.built_targets
  | .loop => True

/-- The graph `all: a b` where the first command of `a` fails. -/
def failing_graph : TargetMap :=
  [("all", { dependencies := ["a", "b"], commands := ["echo done"] }),
   ("a", { dependencies := [], commands := ["false", "echo never"] }),
   ("b", { dependencies := [], commands := ["echo b"] })]

/-- Every dependency that is not a graph target exists as a file. -/
def FilesPresent {σ : Type} (o : Oracle σ) (w : σ) (g : TargetMap) : Prop :=
  ∀ t tg d, targets_find g t = some tg → d ∈ tg.dependencies →
    targets_count g d = false → o.file_exists w d = true

/-- A boolean test for `FilesPresent`. -/
def files_ok {σ : Type} (o : Oracle σ) (w : σ) (g : TargetMap) : Bool :=
  g.all (fun p => p.2.dependencies.all (fun d => targets_count g d || o.file_exists w d))

/-- The chain `A: B`, `B: C`, `C: c.src`, each target producing its file. -/
def chain_graph : TargetMap :=
  [("A", { dependencies := ["B"], commands := ["cc -o A B"] }),
   ("B", { dependencies := ["C"], commands := ["cc -o B C"] }),
   ("C", { dependencies := ["c.src"], commands := ["cc -o C c.src"] })]

/-- A rank for `chain_graph`. -/
def chain_rank (t : String) : Nat :=
  if t = "A" then 2 else if t = "B" then 1 else 0

/-- The graph `main.o: main.c defs.h`, neither dependency a target. -/
def object_graph : TargetMap :=
  [("main.o",
    { dependencies := ["main.c", "defs.h"], commands := ["cc -c main.c -o main.o"] })]

/-- The state a call returned with, if it returned. -/
def Run.returned {σ : Type} : Run σ → Option (State σ)
  | .ret s => some s
  | _ => none

/-- The error a call exited with, if it exited. -/
def Run.error {σ : Type} : Run σ → Option Error
  | .exit e _ => some e
  | _ => none

/-- An oracle like `demo_oracle` in which every command succeeds. -/
def ok_oracle : Oracle (List String) where
  file_exists := fun w p => w.contains p
  last_write_time := fun w p => (w.indexOf p : Int)
  system := fun w _ => (0, w)

/-- The phony target `all` depends on `lib`, which produces its file from
`lib.src`. -/
def phony_graph : TargetMap :=
  [("all", { dependencies := ["lib"], commands := ["echo all"], is_phony := true }),
   ("lib", { dependencies := ["lib.src"], commands := ["cc -o lib lib.src"] })]

/-- A rank for `phony_graph`. -/
def phony_rank (t : String) : Nat := if t = "all" then 1 else 0

/-! ### The script parser -/

/-- The class `ScriptParser` (lines 18-22): the parsed graph and the default
target. -/
structure ScriptParser where
  targets : TargetMap := []
  default_target : String := ""
deriving DecidableEq, Repr

/-- The C function `isspace` in the default locale: space, tab, newline,
vertical tab, form feed, carriage return. -/
def isspace (c : Char) : Bool :=
  c == ' ' || c == '\t' || c == '\n' || c == '\x0b' || c == '\x0c' || c == '\r'

/-- The function `ScriptParser::trim` (lines 75-82) on the characters of a
string: the leading whitespace is erased, then the trailing whitespace. -/
def trim (s : List Char) : List Char :=
  ((s.dropWhile isspace).reverse.dropWhile isspace).reverse

/-- The loop of `ScriptParser::split` (lines 86-93); the list is the part of
`s` from `pos` on. One round: `end` is the position of the next space (or the
length), the characters before it are pushed when there are any, and `pos`
moves behind the space. The first argument bounds the number of rounds. -/
def split_loop : Nat → List Char → List (List Char)
  | 0, _ => []
  | n + 1, s =>
    if s = [] then []
    else
      let tok := s.takeWhile (fun c => c != ' ')
      let rest := (s.dropWhile (fun c => c != ' ')).drop 1
      if tok = [] then split_loop n rest else tok :: split_loop n rest

/-- The function `ScriptParser::split` (lines 84-94): every round consumes at
least one character, so `s.length` rounds are enough. -/
def split (s : List Char) : List (List Char) :=
  split_loop s.length s

/-- The test `line.find(pat) != npos`: `pat` occurs in `line`. -/
def has_substr (pat : List Char) : List Char → Bool
  | [] => pat.isEmpty
  | c :: rest => pat.isPrefixOf (c :: rest) || has_substr pat rest

/-- An assignment `targets[k].field = ...`: `operator[]` (which inserts a
default record when `k` is absent), then the change `f` applied to the record
under `k`. -/
def targets_modify (m : TargetMap) (k : String) (f : Target → Target) : TargetMap :=
  (targets_index m k).1.map (fun p => if p.1 == k then (p.1, f p.2) else p)

/-- The variables of the loop in `ScriptParser::parse`: the two members of
the parser and the local `current_target`. -/
structure ParseState where
  targets : TargetMap := []
  default_target : String := ""
  current_target : String := ""
deriving DecidableEq, Repr

/-- The line is skipped at line 32: it is empty or its first character is
`#`. -/
def is_skipped (line : List Char) : Bool :=
  decide (line = [] ∨ line.head? = some '#')

/-- The line starts a target: it is not skipped at line 32 and contains a
colon (line 37). -/
def is_header (line : List Char) : Bool :=
  !is_skipped line && decide (':' ∈ line)

/-- The name a header line declares: the text before the first colon,
trimmed (lines 38-40). -/
def header_name (line : List Char) : String :=
  String.mk (trim (line.takeWhile (fun c => c != ':')))

/-- The dependencies a header line declares: the text after the first colon,
split (lines 43-45). -/
def header_deps (line : List Char) : List String :=
  (split ((line.dropWhile (fun c => c != ':')).drop 1)).map String.mk

/-- The line is taken as a command of `current_target` (line 59): it is
neither skipped nor a header, `current_target` is not empty and the first
character is a tab or a space. -/
def is_command (current_target : String) (line : List Char) : Bool :=
  !is_skipped line && !decide (':' ∈ line) && decide (current_target ≠ "") &&
    decide (line.head? = some '\t' ∨ line.head? = some ' ')

/-- Lines 39-58: what a header line does to the state. -/
def header_step (st : ParseState) (line : List Char) : ParseState :=
  let current_target := header_name line
  let dependencies := header_deps line
  let default_target :=
    if st.default_target = "" then current_target else st.default_target
  let targets1 := targets_modify st.targets current_target
    (fun t => { t with dependencies := dependencies })
  let targets2 := targets_modify targets1 current_target
    (fun t => { t with is_phony := true })
  { targets := targets2, default_target := default_target,
    current_target := current_target }

/-- Lines 60-68: what a command line does to the state. -/
def command_step (st : ParseState) (line : List Char) : ParseState :=
  let cmd := trim line
  let targets1 := targets_modify st.targets st.current_target
    (fun t => { t with commands := t.commands ++ [String.mk cmd] })
  let targets2 :=
    if has_substr ("-o ".data ++ st.current_target.data) cmd then
      targets_modify targets1 st.current_target (fun t => { t with is_phony := false })
    else targets1
  { st with targets := targets2 }

/-- One round of the loop of `ScriptParser::parse` (lines 29-70) on the line
that `getline` delivered: the line is skipped, or it contains a colon and
starts a target, or it is a command of the current target, or nothing
happens. -/
def parse_line (st : ParseState) (line : List Char) : ParseState :=
  if line = [] ∨ line.head? = some '#' then st
  else if ':' ∈ line then header_step st line
  else if st.current_target ≠ "" ∧ (line.head? = some '\t' ∨ line.head? = some ' ') then
    command_step st line
  else st

/-- The loop of `ScriptParser::parse` from state `st` over the lines. -/
def parse_from (st : ParseState) (lines : List String) : ParseState :=
  lines.foldl (fun st line => parse_line st line.data) st

/-- The loop of `ScriptParser::parse` over the lines of the script, from the
state of a new parser. -/
def parse_lines (lines : List String) : ParseState :=
  parse_from {} lines

/-- The method `ScriptParser::parse` (lines 23-72), on the lines of the
script file in order: what it leaves in the two members of the parser. -/
def parse (lines : List String) : ScriptParser :=
  { targets := (parse_lines lines).targets,
    default_target := (parse_lines lines).default_target }

/-- The header lines of a script, in order: its target declarations. -/
def declarations (lines : List String) : List (List Char) :=
  (lines.map String.data).filter is_header

/-- The names the script declares, in order, repetitions kept. -/
def declared_names (lines : List String) : List String :=
  (declarations lines).map header_name

/-- The text made of the tokens in order, each followed by one or more
spaces (the number given plus one). -/
def spaced_tokens : List (List Char × Nat) → List Char
  | [] => []
  | p :: rest => p.1 ++ List.replicate (p.2 + 1) ' ' ++ spaced_tokens rest

/-- The state `s1` differs from `s` by nothing but new entries of the
completed list, all in `R`: the graph is `g`, the world is `w`, no event was
added. -/
def Quiet {σ : Type} (g : TargetMap) (w : σ) (R : String → Prop) (s s1 : State σ) : Prop :=
  s1.targets = g ∧ s1.world = w ∧ s1.trace = s.trace ∧
  ∃ new, s1.built_targets = s.built_targets ++ new ∧ ∀ x ∈ new, R x

/-- The world after the commands of the list have been run in order from
world `w`. -/
def world_after {σ : Type} (o : Oracle σ) (w : σ) (cmds : List String) : σ :=
  cmds.foldl (fun w1 c => (o.system w1 c).2) w

/-- The run of `build(T)` started in state `s` with recursion depth `fuel`
gets to the command loop of target `t` (record `tgt`), entered in state `s2`:
either `t` is `T` itself, whose dependency loop has returned and for which
`needs_build` answered true (line 172), or the dependency loop of `T` has
done the entries listed before a graph target `d` and the call `build(d)`
it makes next gets there. -/
inductive Reaches {σ : Type} (o : Oracle σ) :
    Nat → String → State σ → String → Target → State σ → Prop where
  | here (fuel : Nat) (T : String) (s s2 : State σ) (tgt : Target) (m2 : TargetMap) :
      T ∉ s.built_targets → targets_find s.targets T = some tgt →
      build_deps (build o fuel) tgt.dependencies s = Run.ret s2 →
      needs_build o s2.world fuel s2.targets T = Check.ret m2 true →
      Reaches o (fuel + 1) T s T tgt
        { s2 with targets := m2, trace := s2.trace ++ [Event.start T] }
  | inside (fuel : Nat) (T : String) (s s1 s2 : State σ) (tgt : Target)
      (l1 : List String) (d : String) (l2 : List String) (t : String) (tgt1 : Target) :
      T ∉ s.built_targets → targets_find s.targets T = some tgt →
      tgt.dependencies = l1 ++ d :: l2 →
      build_deps (build o fuel) l1 s = Run.ret s1 → targets_count s1.targets d = true →
      Reaches o fuel d s1 t tgt1 s2 → Reaches o (fuel + 1) T s t tgt1 s2

/-- A dependency edge into a graph target that is not in `built`. -/
def FreshEdge (g : TargetMap) (built : List String) (t d : String) : Prop :=
  DepEdge g t d ∧ d ∉ built

/-- The target(s) a task starts from: the target itself, or the graph targets
of the dependency list. -/
def Task.heads (g : TargetMap) : Task → String → Prop
  | .one t, x => x = t
  | .many ds, x => x ∈ ds ∧ targets_count g x = true

/-! ## Lemmas on the map -/

theorem targets_count_iff_find (m : TargetMap) (k : String) :
    targets_count m k = true ↔ ∃ t, targets_find m k = some t := by
  induction m with
  | nil => simp [targets_count, targets_find]
  | cons p m ih =>
    by_cases h : p.1 = k
    · simp [targets_count, targets_find, List.find?, h]
    · have hb : (p.1 == k) = false := by simpa using h
      simp only [targets_count, targets_find] at ih
      simp [targets_count, targets_find, List.find?, hb, ih]

theorem targets_index_of_find {m : TargetMap} {k : String} {t : Target}
    (h : targets_find m k = some t) : targets_index m k = (m, t) := by
  simp [targets_index, h]

theorem targets_index_of_count {m : TargetMap} {k : String}
    (h : targets_count m k = true) :
    ∃ t, targets_find m k = some t ∧ targets_index m k = (m, t) := by
  obtain ⟨t, ht⟩ := (targets_count_iff_find m k).1 h
  exact ⟨t, ht, targets_index_of_find ht⟩

/-! ## Lemmas on `needs_build` -/

theorem needs_build_succ {σ : Type} (o : Oracle σ) (w : σ) (fuel : Nat) {m : TargetMap}
    {t : String} {tgt : Target} (h : targets_find m t = some tgt) :
    needs_build o w (fuel + 1) m t =
      if o.file_exists w t = false then Check.ret m true
      else if tgt.is_phony = true then Check.ret m true
      else needs_build_deps o w (needs_build o w fuel) (o.last_write_time w t)
        tgt.dependencies m := by
  simp only [needs_build, targets_index_of_find h]
  cases o.file_exists w t <;> simp

theorem needs_build_deps_targets {σ : Type} (o : Oracle σ) (w : σ)
    (recur : TargetMap → String → Check) (tt : Int)
    (hrec : ∀ m d m1 b, targets_count m d = true → recur m d = Check.ret m1 b → m1 = m) :
    ∀ (deps : List String) (m m1 : TargetMap) (b : Bool),
      needs_build_deps o w recur tt deps m = Check.ret m1 b → m1 = m := by
  intro deps
  induction deps with
  | nil => intro m m1 b h; simp [needs_build_deps] at h; exact h.1.symm
  | cons d rest ih =>
    intro m m1 b h
    simp only [needs_build_deps] at h
    split at h
    · rename_i hc
      split at h
      · rename_i m2 heq
        cases h; exact hrec m d _ _ hc heq
      · rename_i m2 heq
        have := hrec m d _ _ hc heq
        subst this
        exact ih _ _ _ h
      · cases h
      · cases h
    · split at h
      · split at h
        · cases h; rfl
        · exact ih _ _ _ h
      · cases h

theorem needs_build_targets {σ : Type} (o : Oracle σ) (w : σ) :
    ∀ (fuel : Nat) (m : TargetMap) (t : String) (m1 : TargetMap) (b : Bool),
      targets_count m t = true → needs_build o w fuel m t = Check.ret m1 b → m1 = m := by
  intro fuel
  induction fuel with
  | zero => intro m t m1 b _ h; simp [needs_build] at h
  | succ fuel ih =>
    intro m t m1 b hc h
    obtain ⟨tgt, hf, _⟩ := targets_index_of_count hc
    rw [needs_build_succ o w fuel hf] at h
    split at h
    · cases h; rfl
    · split at h
      · cases h; rfl
      · exact needs_build_deps_targets o w _ _ ih _ _ _ _ h

theorem needs_build_deps_mono {σ : Type} (o : Oracle σ) (w : σ)
    (r1 r2 : TargetMap → String → Check) (tt : Int)
    (hrec : ∀ m d, r1 m d ≠ Check.loop → r2 m d = r1 m d) :
    ∀ (deps : List String) (m : TargetMap),
      needs_build_deps o w r1 tt deps m ≠ Check.loop →
      needs_build_deps o w r2 tt deps m = needs_build_deps o w r1 tt deps m := by
  intro deps
  induction deps with
  | nil => intro m _; simp [needs_build_deps]
  | cons d rest ih =>
    intro m h
    simp only [needs_build_deps] at h ⊢
    cases hc : targets_count m d with
    | true =>
      simp only [hc, if_true] at h ⊢
      have h1 : r1 m d ≠ Check.loop := by
        intro hl; rw [hl] at h; exact h rfl
      rw [hrec m d h1]
      cases hr : r1 m d with
      | ret m1 b =>
        rw [hr] at h
        cases b
        · exact ih m1 h
        · rfl
      | exit e => rfl
      | loop => exact absurd hr h1
    | false =>
      simp only [hc, Bool.false_eq_true, if_false] at h ⊢
      cases he : o.file_exists w d with
      | true =>
        simp only [he, if_true] at h ⊢
        by_cases hn : o.last_write_time w d > tt
        · simp [hn]
        · simp only [hn, if_false] at h ⊢
          exact ih m h
      | false => simp

theorem needs_build_mono_succ {σ : Type} (o : Oracle σ) (w : σ) :
    ∀ (fuel : Nat) (m : TargetMap) (t : String),
      needs_build o w fuel m t ≠ Check.loop →
      needs_build o w (fuel + 1) m t = needs_build o w fuel m t := by
  intro fuel
  induction fuel with
  | zero => intro m t h; simp [needs_build] at h
  | succ fuel ih =>
    intro m t h
    unfold needs_build at h ⊢
    by_cases he : o.file_exists w t = true
    · simp only [he, Bool.not_true] at h ⊢
      by_cases hp : (targets_index m t).2.is_phony = true
      · simp [hp]
      · simp only [hp] at h ⊢
        exact needs_build_deps_mono o w _ _ _ ih _ _ h
    · simp [he]

theorem needs_build_mono {σ : Type} (o : Oracle σ) (w : σ) (fuel k : Nat) (m : TargetMap)
    (t : String) (h : needs_build o w fuel m t ≠ Check.loop) :
    needs_build o w (fuel + k) m t = needs_build o w fuel m t := by
  induction k with
  | zero => rfl
  | succ k ih =>
    rw [← Nat.add_assoc, needs_build_mono_succ o w (fuel + k) m t (by rw [ih]; exact h), ih]

theorem needs_build_mono_le {σ : Type} (o : Oracle σ) (w : σ) {fuel fuel2 : Nat}
    (hle : fuel ≤ fuel2) (m : TargetMap) (t : String)
    (h : needs_build o w fuel m t ≠ Check.loop) :
    needs_build o w fuel2 m t = needs_build o w fuel m t := by
  obtain ⟨k, rfl⟩ := Nat.exists_eq_add_of_le hle
  exact needs_build_mono o w fuel k m t h

/-! ## Lemmas on the command loop -/

theorem run_commands_ne_loop {σ : Type} (o : Oracle σ) (t : String) :
    ∀ (cmds : List String) (s : State σ), run_commands o t cmds s ≠ Run.loop := by
  intro cmds
  induction cmds with
  | nil => intro s h; simp [run_commands] at h
  | cons c rest ih =>
    intro s h
    simp only [run_commands] at h
    split at h
    · cases h
    · exact ih _ h

theorem run_commands_ret {σ : Type} (o : Oracle σ) (t : String) :
    ∀ (cmds : List String) (s s1 : State σ), run_commands o t cmds s = Run.ret s1 →
      s1.targets = s.targets ∧ s1.built_targets = s.built_targets ∧
      s1.trace = s.trace ++ cmds.map (fun c => Event.exec t c 0) := by
  intro cmds
  induction cmds with
  | nil => intro s s1 h; simp [run_commands] at h; subst h; simp
  | cons c rest ih =>
    intro s s1 h
    simp only [run_commands] at h
    split at h
    · cases h
    · rename_i hz
      have hz0 : (o.system s.world c).1 = 0 := by simpa using hz
      obtain ⟨h1, h2, h3⟩ := ih _ _ h
      refine ⟨h1, h2, ?_⟩
      rw [h3]
      simp [hz0]

theorem run_commands_exit {σ : Type} (o : Oracle σ) (t : String) :
    ∀ (cmds : List String) (s s1 : State σ) (e : Error),
      run_commands o t cmds s = Run.exit e s1 →
      s1.targets = s.targets ∧ s1.built_targets = s.built_targets ∧
      ∃ pre c rest st, cmds = pre ++ c :: rest ∧ e = Error.CommandFailed c ∧ st ≠ 0 ∧
        s1.trace = s.trace ++ pre.map (fun c => Event.exec t c 0) ++ [Event.exec t c st] := by
  intro cmds
  induction cmds with
  | nil => intro s s1 e h; simp [run_commands] at h
  | cons c rest ih =>
    intro s s1 e h
    simp only [run_commands] at h
    split at h
    · rename_i hz
      have hz0 : (o.system s.world c).1 ≠ 0 := by simpa using hz
      cases h
      exact ⟨rfl, rfl, [], c, rest, (o.system s.world c).1, rfl, rfl, hz0, by simp⟩
    · rename_i hz
      have hz0 : (o.system s.world c).1 = 0 := by simpa using hz
      obtain ⟨h1, h2, pre, c1, rest1, st, hc, he, hst, htr⟩ := ih _ _ _ h
      refine ⟨h1, h2, c :: pre, c1, rest1, st, by simp [hc], he, hst, ?_⟩
      rw [htr]
      simp [hz0]

theorem run_commands_all_ok {σ : Type} (o : Oracle σ) (t : String)
    (hok : ∀ w c, (o.system w c).1 = 0) :
    ∀ (cmds : List String) (s : State σ), ∃ s1, run_commands o t cmds s = Run.ret s1 := by
  intro cmds
  induction cmds with
  | nil => intro s; exact ⟨s, rfl⟩
  | cons c rest ih =>
    intro s
    simp only [run_commands, hok, bne_self_eq_false, Bool.false_eq_true, if_false]
    exact ih _

theorem build_deps_exec {σ : Type} (o : Oracle σ) (recur : String → State σ → Run σ)
    (hrec : ∀ d s, targets_count s.targets d = true → recur d s ≠ Run.loop →
      Exec o (.one d) s (recur d s)) :
    ∀ (deps : List String) (s : State σ), build_deps recur deps s ≠ Run.loop →
      Exec o (.many deps) s (build_deps recur deps s) := by
  intro deps
  induction deps with
  | nil => intro s _; exact Exec.nil s
  | cons d rest ih =>
    intro s h
    simp only [build_deps] at h ⊢
    cases hc : targets_count s.targets d with
    | false =>
      simp only [hc, Bool.false_eq_true, if_false] at h ⊢
      exact Exec.file d rest s _ hc (ih s h)
    | true =>
      simp only [hc, if_true] at h ⊢
      cases hr : recur d s with
      | ret s1 =>
        simp only [hr] at h ⊢
        have h1 := hrec d s hc (by rw [hr]; exact fun x => Run.noConfusion x)
        rw [hr] at h1
        exact Exec.dep_ret d rest s s1 _ hc h1 (ih s1 h)
      | exit e s1 =>
        simp only [hr]
        have h1 := hrec d s hc (by rw [hr]; exact fun x => Run.noConfusion x)
        rw [hr] at h1
        exact Exec.dep_exit d rest s s1 e hc h1
      | loop => simp [hr] at h

/-- Every finished call of `build` on a graph target is a derivation. -/
theorem build_exec {σ : Type} (o : Oracle σ) :
    ∀ (fuel : Nat) (t : String) (s : State σ), targets_count s.targets t = true →
      build o fuel t s ≠ Run.loop → Exec o (.one t) s (build o fuel t s) := by
  intro fuel
  induction fuel with
  | zero => intro t s _ h; simp [build] at h
  | succ fuel ih =>
    intro t s hc h
    obtain ⟨tgt, hf, hi⟩ := targets_index_of_count hc
    simp only [build, hi] at h ⊢
    by_cases hb : t ∈ s.built_targets
    · simp only [hb, if_true]
      exact Exec.skip t s hb
    · simp only [hb, if_false] at h ⊢
      have hs : ({ s with targets := s.targets } : State σ) = s := rfl
      rw [hs] at h ⊢
      cases hd : build_deps (build o fuel) tgt.dependencies s with
      | loop => simp [hd] at h
      | exit e s2 =>
        simp only [hd]
        have h1 := build_deps_exec o (build o fuel) ih tgt.dependencies s
          (by rw [hd]; exact fun x => Run.noConfusion x)
        rw [hd] at h1
        exact Exec.deps_exit t s s2 tgt e hb hf h1
      | ret s2 =>
        simp only [hd] at h ⊢
        have h1 := build_deps_exec o (build o fuel) ih tgt.dependencies s
          (by rw [hd]; exact fun x => Run.noConfusion x)
        rw [hd] at h1
        cases hn : needs_build o s2.world fuel s2.targets t with
        | loop => simp [hn] at h
        | exit d =>
          simp only [hn]
          exact Exec.missing t s s2 tgt fuel d hb hf h1 hn
        | ret m2 b =>
          cases b with
          | false =>
            simp only [hn]
            exact Exec.uptodate t s s2 tgt fuel m2 hb hf h1 hn
          | true =>
            simp only [hn] at h ⊢
            cases hr : run_commands o t tgt.commands
                { s2 with targets := m2, trace := s2.trace ++ [Event.start t] } with
            | loop => exact absurd hr (run_commands_ne_loop o t _ _)
            | ret s3 =>
              simp only [hr]
              exact Exec.ran t s s2 s3 tgt fuel m2 hb hf h1 hn hr
            | exit e s3 =>
              simp only [hr]
              exact Exec.failed t s s2 s3 tgt fuel m2 e hb hf h1 hn hr

/-! ## What every finished call preserves -/

theorem count_of_find {g : TargetMap} {t : String} {tgt : Target}
    (h : targets_find g t = some tgt) : targets_count g t = true :=
  (targets_count_iff_find g t).2 ⟨tgt, h⟩

theorem exec_basic {σ : Type} {o : Oracle σ} {task : Task} {s : State σ} {r : Run σ}
    (h : Exec o task s r) :
    ∀ s1, r.final = some s1 →
      s1.targets = s.targets ∧ (∀ x ∈ s.built_targets, x ∈ s1.built_targets) ∧
      (r = Run.ret s1 → task.done s.targets s1.built_targets) := by
  induction h with
  | skip t s hb =>
    intro s1 h1
    simp only [Run.final, Option.some.injEq] at h1
    subst h1
    exact ⟨rfl, fun _ hx => hx, fun _ => hb⟩
  | nil s =>
    intro s1 h1
    simp only [Run.final, Option.some.injEq] at h1
    subst h1
    exact ⟨rfl, fun _ hx => hx, fun _ d hd => by simp at hd⟩
  | file d rest s r hc _ ih =>
    intro s1 h1
    obtain ⟨a, b, c⟩ := ih s1 h1
    refine ⟨a, b, fun hr x hx hcx => ?_⟩
    rcases List.mem_cons.1 hx with rfl | hx
    · rw [hc] at hcx; cases hcx
    · exact c hr x hx hcx
  | dep_ret d rest s s1 r hc _ _ ih1 ih2 =>
    intro s2 h2
    obtain ⟨a1, b1, c1⟩ := ih1 s1 rfl
    obtain ⟨a2, b2, c2⟩ := ih2 s2 h2
    refine ⟨a2.trans a1, fun x hx => b2 x (b1 x hx), fun hr x hx hcx => ?_⟩
    rcases List.mem_cons.1 hx with rfl | hx
    · exact b2 _ (c1 rfl)
    · exact c2 hr x hx (by rw [a1]; exact hcx)
  | dep_exit d rest s s1 e hc _ ih =>
    intro s2 h2
    simp only [Run.final, Option.some.injEq] at h2
    subst h2
    obtain ⟨a, b, _⟩ := ih s1 rfl
    exact ⟨a, b, fun hr => by cases hr⟩
  | deps_exit t s s2 tgt e hb hf _ ih =>
    intro s3 h3
    simp only [Run.final, Option.some.injEq] at h3
    subst h3
    obtain ⟨a, b, _⟩ := ih s2 rfl
    exact ⟨a, b, fun hr => by cases hr⟩
  | missing t s s2 tgt n d hb hf _ hn ih =>
    intro s3 h3
    simp only [Run.final, Option.some.injEq] at h3
    subst h3
    obtain ⟨a, b, _⟩ := ih s2 rfl
    exact ⟨a, b, fun hr => by cases hr⟩
  | uptodate t s s2 tgt n m2 hb hf _ hn ih =>
    intro s3 h3
    simp only [Run.final, Option.some.injEq] at h3
    subst h3
    obtain ⟨a, b, _⟩ := ih s2 rfl
    have hm : m2 = s2.targets :=
      needs_build_targets o _ n _ t _ _ (by rw [a]; exact count_of_find hf) hn
    refine ⟨by simp [hm, a], fun x hx => ?_, fun _ => ?_⟩
    · simp [b x hx]
    · simp [Task.done]
  | ran t s s2 s3 tgt n m2 hb hf _ hn hr ih =>
    intro s4 h4
    simp only [Run.final, Option.some.injEq] at h4
    subst h4
    obtain ⟨a, b, _⟩ := ih s2 rfl
    have hm : m2 = s2.targets :=
      needs_build_targets o _ n _ t _ _ (by rw [a]; exact count_of_find hf) hn
    obtain ⟨r1, r2, _⟩ := run_commands_ret o t _ _ _ hr
    refine ⟨by simp [r1, hm, a], fun x hx => ?_, fun _ => ?_⟩
    · simp [r2, b x hx]
    · simp [Task.done]
  | failed t s s2 s3 tgt n m2 e hb hf _ hn hr ih =>
    intro s4 h4
    simp only [Run.final, Option.some.injEq] at h4
    subst h4
    obtain ⟨a, b, _⟩ := ih s2 rfl
    have hm : m2 = s2.targets :=
      needs_build_targets o _ n _ t _ _ (by rw [a]; exact count_of_find hf) hn
    obtain ⟨r1, r2, _⟩ := run_commands_exit o t _ _ _ _ hr
    refine ⟨by simp [r1, hm, a], fun x hx => ?_, fun hr => by cases hr⟩
    simp [r2, b x hx]

/-! ## Targets in progress are not completed by deeper calls

`V` is a set of targets none of which is completed, each with a dependency
edge into `V` or to the target being built. No call that returns completes
a member of `V`, and a call on a member of `V` does not return. -/

theorem exec_trap {σ : Type} {o : Oracle σ} {task : Task} {s : State σ} {r : Run σ}
    (h : Exec o task s r) :
    ∀ (V : String → Prop), (∀ v, V v → v ∉ s.built_targets) → Trapped s.targets V task →
      ∀ s1, r = Run.ret s1 →
        (∀ v, V v → v ∉ s1.built_targets) ∧ Outside s.targets V task := by
  induction h with
  | skip t s hb =>
    intro V hV _ s1 h1
    cases h1
    exact ⟨hV, fun hv => hV t hv hb⟩
  | nil s =>
    intro V hV _ s1 h1
    cases h1
    exact ⟨hV, fun d hd => by simp at hd⟩
  | file d rest s r hc _ ih =>
    intro V hV hT s1 h1
    obtain ⟨a, b⟩ := ih V hV (fun x hx => hT x (List.mem_cons_of_mem _ hx)) s1 h1
    refine ⟨a, fun x hx hcx => ?_⟩
    rcases List.mem_cons.1 hx with rfl | hx
    · rw [hc] at hcx; cases hcx
    · exact b x hx hcx
  | dep_ret d rest s s1 r hc h1 _ ih1 ih2 =>
    intro V hV hT s2 h2
    obtain ⟨a1, b1⟩ := ih1 V hV (hT d (List.mem_cons_self _ _) hc) s1 rfl
    have ht := (exec_basic h1 s1 rfl).1
    obtain ⟨a2, b2⟩ := ih2 V a1
      (by rw [ht]; exact fun x hx => hT x (List.mem_cons_of_mem _ hx)) s2 h2
    refine ⟨a2, fun x hx hcx => ?_⟩
    rcases List.mem_cons.1 hx with rfl | hx
    · exact b1
    · exact b2 x hx (by rw [ht]; exact hcx)
  | dep_exit d rest s s1 e hc _ ih => intro V _ _ s2 h2; cases h2
  | deps_exit t s s2 tgt e hb hf _ ih => intro V _ _ s3 h3; cases h3
  | missing t s s2 tgt n d hb hf _ hn ih => intro V _ _ s3 h3; cases h3
  | failed t s s2 s3 tgt n m2 e hb hf _ hn hr ih => intro V _ _ s4 h4; cases h4
  | uptodate t s s2 tgt n m2 hb hf _ hn ih =>
    intro V hV hT s3 h3
    cases h3
    obtain ⟨a, b⟩ := ih (fun v => V v ∨ v = t)
      (by rintro v (hv | rfl); exacts [hV v hv, hb])
      (by
        rintro d hd hcd v (hv | rfl)
        · obtain ⟨d1, e1, e2⟩ := hT v hv
          exact ⟨d1, e1, Or.inl e2⟩
        · exact ⟨d, ⟨tgt, hf, hd, hcd⟩, Or.inr rfl⟩) s2 rfl
    have hnot : ¬ V t := by
      intro hv
      obtain ⟨d1, ⟨tgt1, hf1, hd1, hc1⟩, e2⟩ := hT t hv
      rw [hf] at hf1
      cases hf1
      exact b d1 hd1 hc1 (e2.elim Or.inl Or.inr)
    refine ⟨fun v hv => ?_, hnot⟩
    simp only [List.mem_append, List.mem_singleton, not_or]
    exact ⟨a v (Or.inl hv), fun hvt => hnot (hvt ▸ hv)⟩
  | ran t s s2 s3 tgt n m2 hb hf _ hn hr ih =>
    intro V hV hT s4 h4
    cases h4
    obtain ⟨_, r2, _⟩ := run_commands_ret o t _ _ _ hr
    obtain ⟨a, b⟩ := ih (fun v => V v ∨ v = t)
      (by rintro v (hv | rfl); exacts [hV v hv, hb])
      (by
        rintro d hd hcd v (hv | rfl)
        · obtain ⟨d1, e1, e2⟩ := hT v hv
          exact ⟨d1, e1, Or.inl e2⟩
        · exact ⟨d, ⟨tgt, hf, hd, hcd⟩, Or.inr rfl⟩) s2 rfl
    have hnot : ¬ V t := by
      intro hv
      obtain ⟨d1, ⟨tgt1, hf1, hd1, hc1⟩, e2⟩ := hT t hv
      rw [hf] at hf1
      cases hf1
      exact b d1 hd1 hc1 (e2.elim Or.inl Or.inr)
    refine ⟨fun v hv => ?_, hnot⟩
    simp only [r2, List.mem_append, List.mem_singleton, not_or]
    exact ⟨a v (Or.inl hv), fun hvt => hnot (hvt ▸ hv)⟩

theorem exec_trap_exit {σ : Type} {o : Oracle σ} {task : Task} {s : State σ} {r : Run σ}
    (h : Exec o task s r) :
    ∀ (V : String → Prop), (∀ v, V v → v ∉ s.built_targets) → Trapped s.targets V task →
      ∀ e s1, r = Run.exit e s1 →
        (∀ v, V v → v ∉ s1.built_targets) ∧ task.pending s1.built_targets := by
  induction h with
  | skip t s hb => intro V _ _ e s1 h1; cases h1
  | nil s => intro V _ _ e s1 h1; cases h1
  | uptodate t s s2 tgt n m2 hb hf _ hn ih => intro V _ _ e s1 h1; cases h1
  | ran t s s2 s3 tgt n m2 hb hf _ hn hr ih => intro V _ _ e s1 h1; cases h1
  | file d rest s r hc _ ih =>
    intro V hV hT e s1 h1
    exact ⟨(ih V hV (fun x hx => hT x (List.mem_cons_of_mem _ hx)) e s1 h1).1, trivial⟩
  | dep_ret d rest s s1 r hc h1 _ ih1 ih2 =>
    intro V hV hT e s2 h2
    have a1 := (exec_trap h1 V hV (hT d (List.mem_cons_self _ _) hc) s1 rfl).1
    have ht := (exec_basic h1 s1 rfl).1
    exact ⟨(ih2 V a1 (by rw [ht]; exact fun x hx => hT x (List.mem_cons_of_mem _ hx))
      e s2 h2).1, trivial⟩
  | dep_exit d rest s s1 e hc _ ih =>
    intro V hV hT e1 s2 h2
    cases h2
    exact ⟨(ih V hV (hT d (List.mem_cons_self _ _) hc) e s1 rfl).1, trivial⟩
  | deps_exit t s s2 tgt e hb hf _ ih =>
    intro V hV hT e1 s3 h3
    cases h3
    have a := (ih (fun v => V v ∨ v = t)
      (by rintro v (hv | rfl); exacts [hV v hv, hb])
      (by
        rintro d hd hcd v (hv | rfl)
        · obtain ⟨d1, e1, e2⟩ := hT v hv
          exact ⟨d1, e1, Or.inl e2⟩
        · exact ⟨d, ⟨tgt, hf, hd, hcd⟩, Or.inr rfl⟩) e s2 rfl).1
    exact ⟨fun v hv => a v (Or.inl hv), a t (Or.inr rfl)⟩
  | missing t s s2 tgt n d hb hf hdeps hn ih =>
    intro V hV hT e1 s3 h3
    cases h3
    have a := (exec_trap hdeps (fun v => V v ∨ v = t)
      (by rintro v (hv | rfl); exacts [hV v hv, hb])
      (by
        rintro d hd hcd v (hv | rfl)
        · obtain ⟨d1, e1, e2⟩ := hT v hv
          exact ⟨d1, e1, Or.inl e2⟩
        · exact ⟨d, ⟨tgt, hf, hd, hcd⟩, Or.inr rfl⟩) s2 rfl).1
    exact ⟨fun v hv => a v (Or.inl hv), a t (Or.inr rfl)⟩
  | failed t s s2 s3 tgt n m2 e hb hf hdeps hn hr ih =>
    intro V hV hT e1 s4 h4
    cases h4
    obtain ⟨_, r2, _⟩ := run_commands_exit o t _ _ _ _ hr
    have a := (exec_trap hdeps (fun v => V v ∨ v = t)
      (by rintro v (hv | rfl); exacts [hV v hv, hb])
      (by
        rintro d hd hcd v (hv | rfl)
        · obtain ⟨d1, e1, e2⟩ := hT v hv
          exact ⟨d1, e1, Or.inl e2⟩
        · exact ⟨d, ⟨tgt, hf, hd, hcd⟩, Or.inr rfl⟩) s2 rfl).1
    simp only [Task.pending, r2]
    exact ⟨fun v hv => a v (Or.inl hv), a t (Or.inr rfl)⟩

/-- After the dependency loop of a target that was not completed, the target
is still not completed. -/
theorem exec_deps_not_built {σ : Type} {o : Oracle σ} {t : String} {tgt : Target}
    {s s2 : State σ} (hb : t ∉ s.built_targets) (hf : targets_find s.targets t = some tgt)
    (h : Exec o (.many tgt.dependencies) s (.ret s2)) : t ∉ s2.built_targets := by
  have := (exec_trap h (fun v => v = t) (by rintro v rfl; exact hb)
    (by
      rintro d hd hcd v rfl
      exact ⟨d, ⟨tgt, hf, hd, hcd⟩, Or.inr rfl⟩) s2 rfl).1
  exact this t rfl

/-! ## The invariant of a run -/

theorem fresh_good {σ : Type} (g : TargetMap) (w : σ) : Good g (fresh g w) where
  targets_eq := rfl
  closed := by intro t ht; simp [fresh] at ht
  events_built := by intro ev hev; simp [fresh] at hev
  ordered := by
    intro pre ev post h
    simp [fresh] at h
  once := by intro X; simp [fresh]
  status_ok := by intro t c st h; simp [fresh] at h
  batch := by intro X; left; simp [fresh, events_of]

theorem closed_trans {g : TargetMap} {B : List String} (hB : DepsClosed g B) {x y : String}
    (hx : x ∈ B) (h : Relation.TransGen (DepEdge g) x y) : y ∈ B := by
  induction h with
  | single e => exact hB x hx _ e
  | tail _ e ih => exact hB _ ih _ e

theorem closed_trans_of_deps {g : TargetMap} {B : List String} (hB : DepsClosed g B)
    {t y : String} (ht : ∀ d, DepEdge g t d → d ∈ B)
    (h : Relation.TransGen (DepEdge g) t y) : y ∈ B := by
  induction h with
  | single e => exact ht _ e
  | tail _ e ih => exact hB _ ih _ e

theorem ordered_append {g : TargetMap} {B : List String} {tr evs : List Event} {t : String}
    (ho : Ordered g tr) (hev : ∀ ev ∈ tr, ev.target ∈ B) (hB : DepsClosed g B)
    (ht : t ∉ B) (hd : ∀ d, DepEdge g t d → d ∈ B) (hn : ∀ ev ∈ evs, ev.target = t) :
    Ordered g (tr ++ evs) := by
  intro pre ev post h ev1 h1 hreach
  have both_new : ∀ l, evs = l ++ ev :: post → False := by
    intro l hl
    have e1 : ev.target = t := hn ev (by rw [hl]; simp)
    have e2 : ev1.target = t := hn ev1 (by rw [hl]; simp [h1])
    rw [e1, e2] at hreach
    exact ht (closed_trans_of_deps hB hd hreach)
  rcases List.append_eq_append_iff.1 h with ⟨a, _, hb⟩ | ⟨c, hc, hd1⟩
  · exact both_new a hb
  · cases c with
    | nil => exact both_new [] (by simpa using hd1.symm)
    | cons x c =>
      simp only [List.cons_append, List.cons.injEq] at hd1
      obtain ⟨rfl, hd1⟩ := hd1
      rw [hd1] at h1
      rcases List.mem_append.1 h1 with hm | hm
      · exact ho pre ev c hc ev1 hm hreach
      · have hin : ev.target ∈ B := hev ev (by rw [hc]; simp)
        have e2 : ev1.target = t := hn ev1 hm
        rw [e2] at hreach
        exact ht (closed_trans hB hin hreach)

theorem once_append {σ : Type} {g : TargetMap} {s2 : State σ} {evs : List Event} {t : String}
    (hg : Good g s2) (ht : t ∉ s2.built_targets) (hn : ∀ ev ∈ evs, ev.target = t)
    (hc : evs.count (Event.start t) ≤ 1) :
    ∀ X, (s2.trace ++ evs).count (Event.start X) ≤ 1 := by
  intro X
  rw [List.count_append]
  by_cases hX : X = t
  · subst hX
    have h0 : s2.trace.count (Event.start X) = 0 :=
      List.count_eq_zero.2 (fun hm => ht (hg.events_built _ hm))
    omega
  · have h0 : evs.count (Event.start X) = 0 :=
      List.count_eq_zero.2 (fun hm => hX (hn _ hm))
    have := hg.once X
    omega

theorem deps_built_of_done {g : TargetMap} {t : String} {tgt : Target} {B : List String}
    (hf : targets_find g t = some tgt) (hdone : Task.done g (.many tgt.dependencies) B) :
    ∀ d, DepEdge g t d → d ∈ B := by
  rintro d ⟨tgt1, hf1, hd1, hc1⟩
  rw [hf] at hf1
  cases hf1
  exact hdone d hd1 hc1

theorem events_of_append_own {σ : Type} {g : TargetMap} {s2 : State σ} {evs : List Event}
    {t : String} (hg : Good g s2) (ht : t ∉ s2.built_targets)
    (hn : ∀ ev ∈ evs, ev.target = t) (X : String) :
    events_of X (s2.trace ++ evs) = if X = t then evs else events_of X s2.trace := by
  simp only [events_of, List.filter_append]
  by_cases hX : X = t
  · subst hX
    have h0 : s2.trace.filter (fun ev => ev.target == X) = [] := by
      apply List.filter_eq_nil_iff.2
      intro ev hev
      simp only [beq_iff_eq]
      intro he
      exact ht (he ▸ hg.events_built ev hev)
    have h1 : evs.filter (fun ev => ev.target == X) = evs := by
      apply List.filter_eq_self.2
      intro ev hev
      simp [hn ev hev]
    simp [h0, h1]
  · have h1 : evs.filter (fun ev => ev.target == X) = [] := by
      apply List.filter_eq_nil_iff.2
      intro ev hev
      simp only [beq_iff_eq]
      intro he
      exact hX (he ▸ (hn ev hev).symm).symm
    simp [h1, hX]

/-- The events of the command loop of `t` when status of the last is `st`. -/
theorem batch_events (t : String) (pre : List String) (tail : List Event)
    (htail : ∀ ev ∈ tail, ev.target = t ∧ ev ≠ Event.start t) :
    (∀ ev ∈ Event.start t :: (pre.map (fun c => Event.exec t c 0) ++ tail), ev.target = t) ∧
    (Event.start t :: (pre.map (fun c => Event.exec t c 0) ++ tail)).count (Event.start t)
      ≤ 1 := by
  constructor
  · intro ev hev
    simp only [List.mem_cons, List.mem_append, List.mem_map] at hev
    rcases hev with rfl | ⟨c, _, rfl⟩ | hev
    · rfl
    · rfl
    · exact (htail ev hev).1
  · rw [List.count_cons_self, List.count_append]
    have h1 : (pre.map (fun c => Event.exec t c 0)).count (Event.start t) = 0 := by
      apply List.count_eq_zero.2
      simp
    have h2 : tail.count (Event.start t) = 0 :=
      List.count_eq_zero.2 (fun hm => (htail _ hm).2 rfl)
    omega

theorem exec_good {σ : Type} {o : Oracle σ} {g : TargetMap} {task : Task} {s : State σ}
    {r : Run σ} (h : Exec o task s r) : Good g s → GoodRun g r := by
  induction h with
  | skip t s hb => exact fun hg => hg
  | nil s => exact fun hg => hg
  | file d rest s r hc _ ih => exact ih
  | dep_ret d rest s s1 r hc _ _ ih1 ih2 => exact fun hg => ih2 (ih1 hg)
  | dep_exit d rest s s1 e hc _ ih => exact ih
  | deps_exit t s s2 tgt e hb hf _ ih => exact ih
  | missing t s s2 tgt n d hb hf _ hn ih =>
    intro hg
    have g2 : Good g s2 := ih hg
    refine ⟨g2.ordered, g2.once, g2, fun X => ?_⟩
    rcases g2.batch X with h0 | ⟨tg, h1, h2⟩
    · exact Or.inl h0
    · exact Or.inr ⟨tg, h1, Or.inl h2⟩
  | uptodate t s s2 tgt n m2 hb hf hdeps hn ih =>
    intro hg
    have g2 : Good g s2 := ih hg
    obtain ⟨a, _, c⟩ := exec_basic hdeps s2 rfl
    have hm : m2 = s2.targets :=
      needs_build_targets o _ n _ t _ _ (by rw [a]; exact count_of_find hf) hn
    have hd := deps_built_of_done (hg.targets_eq ▸ hf) (hg.targets_eq ▸ c rfl)
    refine ⟨by simp [hm, g2.targets_eq], ?_, ?_, g2.ordered, g2.once, g2.status_ok,
      g2.batch⟩
    · intro x hx d hxd
      simp only [List.mem_append, List.mem_singleton] at hx ⊢
      rcases hx with hx | rfl
      · exact Or.inl (g2.closed x hx d hxd)
      · exact Or.inl (hd d hxd)
    · intro ev hev
      simp [g2.events_built ev hev]
  | ran t s s2 s3 tgt n m2 hb hf hdeps hn hr ih =>
    intro hg
    have g2 : Good g s2 := ih hg
    obtain ⟨a, _, c⟩ := exec_basic hdeps s2 rfl
    have hm : m2 = s2.targets :=
      needs_build_targets o _ n _ t _ _ (by rw [a]; exact count_of_find hf) hn
    have hd := deps_built_of_done (hg.targets_eq ▸ hf) (hg.targets_eq ▸ c rfl)
    have hnb := exec_deps_not_built hb hf hdeps
    obtain ⟨r1, r2, r3⟩ := run_commands_ret o t _ _ _ hr
    simp only [List.append_assoc, List.singleton_append] at r3
    obtain ⟨b1, b2⟩ := batch_events t tgt.commands [] (by simp)
    simp only [List.append_nil] at b1 b2
    refine ⟨by simp [r1, hm, g2.targets_eq], ?_, ?_, ?_, ?_, ?_, ?_⟩
    rotate_right
    · intro X
      simp only [r3]
      rw [events_of_append_own g2 hnb b1 X]
      by_cases hX : X = t
      · subst hX
        simp only [if_true]
        exact Or.inr ⟨tgt, hg.targets_eq ▸ hf, rfl⟩
      · simp only [hX, if_false]
        exact g2.batch X
    · intro x hx d hxd
      simp only [r2, List.mem_append, List.mem_singleton] at hx ⊢
      rcases hx with hx | rfl
      · exact Or.inl (g2.closed x hx d hxd)
      · exact Or.inl (hd d hxd)
    · intro ev hev
      simp only [r3, r2, List.mem_append, List.mem_singleton] at hev ⊢
      rcases hev with hev | hev
      · exact Or.inl (g2.events_built ev hev)
      · exact Or.inr (b1 ev hev)
    · simp only [r3]
      exact ordered_append g2.ordered g2.events_built g2.closed hnb hd b1
    · simp only [r3]
      exact once_append g2 hnb b1 b2
    · intro t1 c1 st1 hm1
      simp only [r3, List.mem_append, List.mem_cons, List.mem_map] at hm1
      rcases hm1 with hm1 | hm1 | ⟨c2, _, hm1⟩
      · exact g2.status_ok _ _ _ hm1
      · cases hm1
      · cases hm1; rfl
  | failed t s s2 s3 tgt n m2 e hb hf hdeps hn hr ih =>
    intro hg
    have g2 : Good g s2 := ih hg
    obtain ⟨a, _, c⟩ := exec_basic hdeps s2 rfl
    have hd := deps_built_of_done (hg.targets_eq ▸ hf) (hg.targets_eq ▸ c rfl)
    have hnb := exec_deps_not_built hb hf hdeps
    obtain ⟨_, r2, pre, c1, rest, st, hcmds, rfl, hst, r3⟩ :=
      run_commands_exit o t _ _ _ _ hr
    simp only [List.append_assoc, List.singleton_append, List.cons_append,
      List.nil_append] at r3
    obtain ⟨b1, b2⟩ := batch_events t pre [Event.exec t c1 st] (by simp [Event.target])
    refine ⟨?_, ?_, ?_, ?_⟩
    rotate_right
    · intro X
      simp only [r3]
      rw [events_of_append_own g2 hnb b1 X]
      by_cases hX : X = t
      · subst hX
        simp only [if_true]
        exact Or.inr ⟨tgt, hg.targets_eq ▸ hf, Or.inr ⟨pre, c1, rest, st, hcmds, rfl, hst, rfl⟩⟩
      · simp only [hX, if_false]
        rcases g2.batch X with h0 | ⟨tg, h1, h2⟩
        · exact Or.inl h0
        · exact Or.inr ⟨tg, h1, Or.inl h2⟩
    · simp only [r3]
      exact ordered_append g2.ordered g2.events_built g2.closed hnb hd b1
    · simp only [r3]
      exact once_append g2 hnb b1 b2
    · refine ⟨s2.trace ++ Event.start t :: pre.map (fun c => Event.exec t c 0), t, st,
        by simp [r3], hst, by simpa [r2] using hnb, ?_⟩
      intro t1 c2 st1 hm1
      simp only [List.mem_append, List.mem_cons, List.mem_map] at hm1
      rcases hm1 with hm1 | hm1 | ⟨c3, _, hm1⟩
      · exact g2.status_ok _ _ _ hm1
      · cases hm1
      · cases hm1; rfl

/-! ## Termination on acyclic graphs -/

theorem depEdge_count {g : TargetMap} {t d : String} (h : DepEdge g t d) :
    targets_count g t = true ∧ targets_count g d = true := by
  obtain ⟨tgt, hf, _, hc⟩ := h
  exact ⟨count_of_find hf, hc⟩

theorem targets_count_mem {g : TargetMap} {t : String} (h : targets_count g t = true) :
    t ∈ g.map Prod.fst := by
  simp only [targets_count, List.any_eq_true, beq_iff_eq] at h
  obtain ⟨p, hp, rfl⟩ := h
  exact List.mem_map_of_mem _ hp

/-- On an acyclic graph the relation "is a graph-target dependency of" is
well-founded: the graph is finite. -/
theorem acyclic_wf {g : TargetMap} (hac : Acyclic g) :
    WellFounded (fun d t => DepEdge g t d) := by
  haveI : IsStrictOrder String (Relation.TransGen (fun d t => DepEdge g t d)) :=
    { irrefl := fun a ha => hac a (Relation.transGen_swap.1 ha)
      trans := fun _ _ _ h1 h2 => h1.trans h2 }
  have hfin : {x : String | x ∈ g.map Prod.fst}.Finite := List.finite_toSet _
  have hwf := Set.wellFoundedOn_iff.1
    (hfin.wellFoundedOn (r := Relation.TransGen (fun d t => DepEdge g t d)))
  refine Subrelation.wf ?_ hwf
  intro d t hdt
  exact ⟨Relation.TransGen.single hdt, targets_count_mem (depEdge_count hdt).2,
    targets_count_mem (depEdge_count hdt).1⟩

theorem exists_uniform_bound {α : Type} (l : List α) (P : α → Prop) (Q : α → Nat → Prop)
    (h : ∀ d ∈ l, P d → ∃ N, ∀ n, N ≤ n → Q d n) :
    ∃ N, ∀ d ∈ l, P d → ∀ n, N ≤ n → Q d n := by
  induction l with
  | nil => exact ⟨0, fun d hd => by simp at hd⟩
  | cons a l ih =>
    obtain ⟨N1, h1⟩ := ih (fun d hd => h d (List.mem_cons_of_mem _ hd))
    by_cases hP : P a
    · obtain ⟨N2, h2⟩ := h a (List.mem_cons_self _ _) hP
      refine ⟨max N1 N2, fun d hd hPd n hn => ?_⟩
      rcases List.mem_cons.1 hd with rfl | hd
      · exact h2 n (le_trans (le_max_right _ _) hn)
      · exact h1 d hd hPd n (le_trans (le_max_left _ _) hn)
    · refine ⟨N1, fun d hd hPd n hn => ?_⟩
      rcases List.mem_cons.1 hd with rfl | hd
      · exact absurd hPd hP
      · exact h1 d hd hPd n hn

theorem needs_build_deps_ne_loop {σ : Type} (o : Oracle σ) (w : σ)
    (recur : TargetMap → String → Check) (tt : Int) (g : TargetMap) :
    ∀ (deps : List String),
      (∀ d ∈ deps, targets_count g d = true → recur g d ≠ Check.loop) →
      (∀ d m1 b, targets_count g d = true → recur g d = Check.ret m1 b → m1 = g) →
      needs_build_deps o w recur tt deps g ≠ Check.loop := by
  intro deps
  induction deps with
  | nil => intro _ _ h; simp [needs_build_deps] at h
  | cons d rest ih =>
    intro h1 h2
    have ih1 := ih (fun x hx => h1 x (List.mem_cons_of_mem _ hx)) h2
    simp only [needs_build_deps]
    cases hc : targets_count g d with
    | true =>
      simp only [if_true]
      cases hr : recur g d with
      | loop => exact absurd hr (h1 d (List.mem_cons_self _ _) hc)
      | exit e => simp
      | ret m1 b =>
        have := h2 d m1 b hc hr
        subst this
        cases b
        · exact ih1
        · simp
    | false =>
      simp only [Bool.false_eq_true, if_false]
      split
      · split
        · simp
        · exact ih1
      · simp

/-- On an acyclic graph `needs_build` ends on every graph target: from some
recursion depth on the outcome is never `loop`, whatever the filesystem. -/
theorem needs_build_terminates {σ : Type} (o : Oracle σ) {g : TargetMap} (hac : Acyclic g) :
    ∀ t, targets_count g t = true →
      ∃ N, ∀ (w : σ) (fuel : Nat), N ≤ fuel → needs_build o w fuel g t ≠ Check.loop := by
  intro t
  induction t using (acyclic_wf hac).induction with
  | _ t ih =>
    intro hc
    obtain ⟨tgt, hf, _⟩ := targets_index_of_count hc
    obtain ⟨N, hN⟩ := exists_uniform_bound tgt.dependencies
      (fun d => targets_count g d = true)
      (fun d n => ∀ w : σ, needs_build o w n g d ≠ Check.loop)
      (fun d hd hcd => by
        obtain ⟨N, hN⟩ := ih d ⟨tgt, hf, hd, hcd⟩ hcd
        exact ⟨N, fun n hn w => hN w n hn⟩)
    refine ⟨N + 1, fun w fuel hfuel => ?_⟩
    obtain ⟨k, rfl⟩ : ∃ k, fuel = k + 1 := ⟨fuel - 1, by omega⟩
    rw [needs_build_succ o w k hf]
    split
    · simp
    · split
      · simp
      · exact needs_build_deps_ne_loop o w _ _ g _
          (fun d hd hcd => hN d hd hcd k (by omega) w)
          (fun d m1 b hcd h => needs_build_targets o w k g d m1 b hcd h)

theorem build_succ {σ : Type} (o : Oracle σ) (fuel : Nat) {t : String} {tgt : Target}
    {s : State σ} (hf : targets_find s.targets t = some tgt) (hb : t ∉ s.built_targets) :
    build o (fuel + 1) t s = build_body o fuel t tgt s := by
  simp only [build, targets_index_of_find hf, hb, if_false]
  rfl

theorem build_skip {σ : Type} (o : Oracle σ) (fuel : Nat) {t : String} {s : State σ}
    (hb : t ∈ s.built_targets) : build o (fuel + 1) t s = Run.ret s := by
  simp [build, hb]

theorem build_final_targets {σ : Type} (o : Oracle σ) {fuel : Nat} {t : String}
    {s s1 : State σ} (hc : targets_count s.targets t = true)
    (h : (build o fuel t s).final = some s1) : s1.targets = s.targets := by
  have hne : build o fuel t s ≠ Run.loop := by
    intro hl; rw [hl] at h; cases h
  exact (exec_basic (build_exec o fuel t s hc hne) s1 h).1

theorem build_deps_ne_loop {σ : Type} (recur : String → State σ → Run σ) (g : TargetMap)
    (hpres : ∀ d s s1, targets_count g d = true → s.targets = g → recur d s = Run.ret s1 →
      s1.targets = g) :
    ∀ (deps : List String) (s : State σ), s.targets = g →
      (∀ d ∈ deps, targets_count g d = true → ∀ s, s.targets = g → recur d s ≠ Run.loop) →
      build_deps recur deps s ≠ Run.loop := by
  intro deps
  induction deps with
  | nil => intro s _ _ h; simp [build_deps] at h
  | cons d rest ih =>
    intro s hs h1
    simp only [build_deps, hs]
    cases hc : targets_count g d with
    | true =>
      simp only [if_true]
      cases hr : recur d s with
      | loop => exact absurd hr (h1 d (List.mem_cons_self _ _) hc s hs)
      | exit e s1 => simp
      | ret s1 =>
        exact ih s1 (hpres d s s1 hc hs hr) (fun x hx => h1 x (List.mem_cons_of_mem _ hx))
    | false =>
      simp only [Bool.false_eq_true, if_false]
      exact ih s hs (fun x hx => h1 x (List.mem_cons_of_mem _ hx))

/-- On an acyclic graph `build` ends on every graph target: from some
recursion depth on the outcome is never `loop`, whatever the state of the
run, the filesystem and the commands. -/
theorem build_terminates {σ : Type} (o : Oracle σ) {g : TargetMap} (hac : Acyclic g) :
    ∀ t, targets_count g t = true →
      ∃ N, ∀ (fuel : Nat), N ≤ fuel → ∀ s : State σ, s.targets = g →
        build o fuel t s ≠ Run.loop := by
  intro t
  induction t using (acyclic_wf hac).induction with
  | _ t ih =>
    intro hc
    obtain ⟨tgt, hf, _⟩ := targets_index_of_count hc
    obtain ⟨N1, hN1⟩ := exists_uniform_bound tgt.dependencies
      (fun d => targets_count g d = true)
      (fun d n => ∀ s : State σ, s.targets = g → build o n d s ≠ Run.loop)
      (fun d hd hcd => ih d ⟨tgt, hf, hd, hcd⟩ hcd)
    obtain ⟨N2, hN2⟩ := needs_build_terminates o hac t hc
    refine ⟨max N1 N2 + 1, fun fuel hfuel s hs => ?_⟩
    obtain ⟨k, rfl⟩ : ∃ k, fuel = k + 1 := ⟨fuel - 1, by omega⟩
    have hk1 : N1 ≤ k := by have := le_max_left N1 N2; omega
    have hk2 : N2 ≤ k := by have := le_max_right N1 N2; omega
    by_cases hb : t ∈ s.built_targets
    · rw [build_skip o k hb]; simp
    · subst hs
      rw [build_succ o k hf hb]
      have hpres : ∀ d (s0 s1 : State σ), targets_count s.targets d = true →
          s0.targets = s.targets → build o k d s0 = Run.ret s1 → s1.targets = s.targets := by
        intro d s0 s1 hcd h0 hr
        rw [← h0] at hcd ⊢
        exact build_final_targets o hcd (by rw [hr]; rfl)
      have hd := build_deps_ne_loop (build o k) s.targets hpres tgt.dependencies s rfl
        (fun d hd hcd s0 hs0 => hN1 d hd hcd k hk1 s0 hs0)
      unfold build_body
      cases hdeps : build_deps (build o k) tgt.dependencies s with
      | loop => exact absurd hdeps hd
      | exit e s2 => simp
      | ret s2 =>
        have h2 : s2.targets = s.targets :=
          (exec_basic (build_deps_exec o (build o k)
            (fun d s0 hcd hne => build_exec o k d s0 hcd hne) _ s hd) s2
            (by rw [hdeps]; rfl)).1
        simp only
        rw [h2]
        cases hn : needs_build o s2.world k s.targets t with
        | loop => exact absurd hn (hN2 s2.world k hk2)
        | exit d => simp
        | ret m2 b =>
          cases b with
          | false => simp
          | true =>
            simp only
            cases hr : run_commands o t tgt.commands
                { s2 with targets := m2, trace := s2.trace ++ [Event.start t] } with
            | loop => exact absurd hr (run_commands_ne_loop o t _ _)
            | ret s3 => simp
            | exit e s3 => simp

theorem targets_find_mem {g : TargetMap} {t : String} {tgt : Target}
    (h : targets_find g t = some tgt) : (t, tgt) ∈ g := by
  simp only [targets_find, Option.map_eq_some'] at h
  obtain ⟨p, hp, rfl⟩ := h
  have h1 := List.find?_some hp
  have h2 := List.mem_of_find?_eq_some hp
  simp only [beq_iff_eq] at h1
  subst h1
  exact h2

theorem acyclic_of_rank_ok {g : TargetMap} (rank : String → Nat)
    (h : rank_ok g rank = true) : Acyclic g := by
  have step : ∀ t d, DepEdge g t d → rank d < rank t := by
    rintro t d ⟨tgt, hf, hd, hc⟩
    simp only [rank_ok, List.all_eq_true, Bool.or_eq_true, Bool.not_eq_true',
      decide_eq_true_eq] at h
    rcases h (t, tgt) (targets_find_mem hf) d hd with h1 | h1
    · rw [hc] at h1; cases h1
    · exact h1
  have trans : ∀ t d, Relation.TransGen (DepEdge g) t d → rank d < rank t := by
    intro t d htd
    induction htd with
    | single e => exact step _ _ e
    | tail _ e ih => exact lt_trans (step _ _ e) ih
  intro t ht
  exact lt_irrefl _ (trans t t ht)

/-- A finished call of `build` on a graph target, entered in a good state,
ends in a good state or in a halted one. -/
theorem build_good {σ : Type} (o : Oracle σ) {g : TargetMap} (fuel : Nat) {t : String}
    {s : State σ} (hg : Good g s) (hc : targets_count g t = true) :
    GoodRun g (build o fuel t s) := by
  by_cases hl : build o fuel t s = Run.loop
  · rw [hl]; trivial
  · exact exec_good (build_exec o fuel t s (by rw [hg.targets_eq]; exact hc) hl) hg

theorem final_good_cases {σ : Type} {g : TargetMap} {r : Run σ} {s1 : State σ}
    (hg : GoodRun g r) (h : r.final = some s1) :
    Good g s1 ∨ ∃ e, Halted g e s1 := by
  cases r with
  | ret s => cases h; exact Or.inl hg
  | exit e s => cases h; exact Or.inr ⟨e, hg⟩
  | loop => cases h

theorem build_finishes {σ : Type} (o : Oracle σ) {g : TargetMap} (hac : Acyclic g)
    {t : String} (hc : targets_count g t = true) (s : State σ) (hs : s.targets = g) :
    ∃ fuel s1, (build o fuel t s).final = some s1 := by
  obtain ⟨N, hN⟩ := build_terminates o hac t hc
  have := hN N (le_refl N) s hs
  cases hr : build o N t s with
  | loop => exact absurd hr this
  | ret s1 => exact ⟨N, s1, by rw [hr]; rfl⟩
  | exit e s1 => exact ⟨N, s1, by rw [hr]; rfl⟩

theorem batch_length {g : TargetMap} {X : String} {tr : List Event} {e : Error}
    (h : events_of X tr = [] ∨
      ∃ tgt, targets_find g X = some tgt ∧
        (events_of X tr = full_batch X tgt ∨
          ∃ pre c rest st, tgt.commands = pre ++ c :: rest ∧ e = Error.CommandFailed c ∧
            st ≠ 0 ∧ events_of X tr =
              Event.start X :: (pre.map (fun c => Event.exec X c 0) ++ [Event.exec X c st])))
    (tgt : Target) (hf : targets_find g X = some tgt) :
    (events_of X tr).length ≤ tgt.commands.length + 1 := by
  rcases h with h | ⟨tgt1, hf1, h | ⟨pre, c, rest, st, hc, _, _, h⟩⟩
  · simp [h]
  · rw [hf] at hf1; cases hf1
    simp [h, full_batch]
  · rw [hf] at hf1; cases hf1
    simp [h, hc]

/-! ## The claims -/

/-- C1: on an acyclic graph, a run of `build(T)` that starts with an empty
completed set finishes, and in the trace of the finished run (returned or
exited) the command loop of every target `X` is entered at most once; the
events of `X` are at most one pass over the commands of `X`. -/
theorem build_runs_each_batch_at_most_once {σ : Type} (o : Oracle σ) (g : TargetMap)
    (w : σ) (T : String) (hac : Acyclic g) (hT : targets_count g T = true) :
    (∃ fuel s1, (build o fuel T (fresh g w)).final = some s1) ∧
    ∀ fuel s1, (build o fuel T (fresh g w)).final = some s1 →
      ∀ X, s1.trace.count (Event.start X) ≤ 1 ∧
        ∀ tgt, targets_find g X = some tgt →
          (events_of X s1.trace).length ≤ tgt.commands.length + 1 := by
  refine ⟨build_finishes o hac hT _ rfl, fun fuel s1 h X => ?_⟩
  rcases final_good_cases (build_good o fuel (fresh_good g w) hT) h with hg | ⟨e, hh⟩
  · refine ⟨hg.once X, fun tgt hf => ?_⟩
    refine batch_length (e := Error.CommandFailed "") ?_ tgt hf
    rcases hg.batch X with h0 | ⟨tg, h1, h2⟩
    · exact Or.inl h0
    · exact Or.inr ⟨tg, h1, Or.inl h2⟩
  · exact ⟨hh.once X, fun tgt hf => batch_length (hh.batch X) tgt hf⟩

/-- C1 at the diamond `top: left right left`, `left: base`, `right: base`. -/
theorem build_runs_each_batch_at_most_once_witness :
    Acyclic diamond_graph ∧ targets_count diamond_graph "top" = true ∧
    ((∃ fuel s1, (build demo_oracle fuel "top" (fresh diamond_graph [])).final = some s1) ∧
    ∀ fuel s1, (build demo_oracle fuel "top" (fresh diamond_graph [])).final = some s1 →
      ∀ X, s1.trace.count (Event.start X) ≤ 1 ∧
        ∀ tgt, targets_find diamond_graph X = some tgt →
          (events_of X s1.trace).length ≤ tgt.commands.length + 1) :=
  ⟨acyclic_of_rank_ok diamond_rank (by decide), by decide,
    build_runs_each_batch_at_most_once demo_oracle diamond_graph [] "top"
      (acyclic_of_rank_ok diamond_rank (by decide)) (by decide)⟩

theorem build_deps_append {σ : Type} (recur : String → State σ → Run σ) :
    ∀ (l1 l2 : List String) (s : State σ),
      build_deps recur (l1 ++ l2) s =
        (build_deps recur l1 s).andThen (build_deps recur l2) := by
  intro l1
  induction l1 with
  | nil => intro l2 s; simp [build_deps, Run.andThen]
  | cons d rest ih =>
    intro l2 s
    simp only [List.cons_append, build_deps]
    split
    · cases hr : recur d s with
      | ret s1 => exact ih l2 s1
      | exit e s1 => rfl
      | loop => rfl
    · exact ih l2 s

theorem exec_extends {σ : Type} {o : Oracle σ} {task : Task} {s : State σ} {r : Run σ}
    (h : Exec o task s r) :
    ∀ s1, r.final = some s1 →
      (∃ new, s1.built_targets = s.built_targets ++ new) ∧
      (∃ evs, s1.trace = s.trace ++ evs) := by
  induction h with
  | skip t s hb =>
    intro s1 h1
    simp only [Run.final, Option.some.injEq] at h1
    subst h1
    exact ⟨⟨[], by simp⟩, ⟨[], by simp⟩⟩
  | nil s =>
    intro s1 h1
    simp only [Run.final, Option.some.injEq] at h1
    subst h1
    exact ⟨⟨[], by simp⟩, ⟨[], by simp⟩⟩
  | file d rest s r hc _ ih => exact ih
  | dep_ret d rest s s1 r hc _ _ ih1 ih2 =>
    intro s2 h2
    obtain ⟨⟨n1, a1⟩, ⟨e1, b1⟩⟩ := ih1 s1 rfl
    obtain ⟨⟨n2, a2⟩, ⟨e2, b2⟩⟩ := ih2 s2 h2
    exact ⟨⟨n1 ++ n2, by rw [a2, a1, List.append_assoc]⟩,
      ⟨e1 ++ e2, by rw [b2, b1, List.append_assoc]⟩⟩
  | dep_exit d rest s s1 e hc _ ih =>
    intro s2 h2
    simp only [Run.final, Option.some.injEq] at h2
    subst h2
    exact ih s1 rfl
  | deps_exit t s s2 tgt e hb hf _ ih =>
    intro s3 h3
    simp only [Run.final, Option.some.injEq] at h3
    subst h3
    exact ih s2 rfl
  | missing t s s2 tgt n d hb hf _ hn ih =>
    intro s3 h3
    simp only [Run.final, Option.some.injEq] at h3
    subst h3
    exact ih s2 rfl
  | uptodate t s s2 tgt n m2 hb hf _ hn ih =>
    intro s3 h3
    simp only [Run.final, Option.some.injEq] at h3
    subst h3
    obtain ⟨⟨n1, a1⟩, ⟨e1, b1⟩⟩ := ih s2 rfl
    exact ⟨⟨n1 ++ [t], by simp [a1]⟩, ⟨e1, b1⟩⟩
  | ran t s s2 s3 tgt n m2 hb hf _ hn hr ih =>
    intro s4 h4
    simp only [Run.final, Option.some.injEq] at h4
    subst h4
    obtain ⟨⟨n1, a1⟩, ⟨e1, b1⟩⟩ := ih s2 rfl
    obtain ⟨_, r2, r3⟩ := run_commands_ret o t _ _ _ hr
    exact ⟨⟨n1 ++ [t], by simp [r2, a1]⟩,
      ⟨e1 ++ full_batch t tgt, by simp [r3, b1, full_batch]⟩⟩
  | failed t s s2 s3 tgt n m2 e hb hf _ hn hr ih =>
    intro s4 h4
    simp only [Run.final, Option.some.injEq] at h4
    subst h4
    obtain ⟨⟨n1, a1⟩, ⟨e1, b1⟩⟩ := ih s2 rfl
    obtain ⟨_, r2, pre, c, rest, st, _, _, _, r3⟩ := run_commands_exit o t _ _ _ _ hr
    exact ⟨⟨n1, by simp [r2, a1]⟩,
      ⟨e1 ++ (Event.start t :: (pre.map (fun c => Event.exec t c 0) ++ [Event.exec t c st])),
        by simp [r3, b1]⟩⟩

/-- C2: on an acyclic graph, in the trace of a finished run of `build(T)`
from the empty completed set, no event of a target `X` is followed by an event
of a target `D` that `X` transitively depends on: everything executed for `D`
comes before the first command of `X`. And the dependency loop of `build(X)`
goes through the list of `X` in order: when the entries listed before a
graph target `d` are done (state `s1`), it calls `build(d)` in that state and
goes on with the entries listed after `d` when that call has returned; what
that call executes and completes is appended to the trace and to the
completed list left by the entries before `d`. -/
theorem build_runs_dependencies_first {σ : Type} (o : Oracle σ) (g : TargetMap)
    (w : σ) (T : String) (hac : Acyclic g) (hT : targets_count g T = true) :
    (∃ fuel s1, (build o fuel T (fresh g w)).final = some s1) ∧
    (∀ fuel s1, (build o fuel T (fresh g w)).final = some s1 →
      ∀ X D, Relation.TransGen (DepEdge g) X D →
        ∀ pre ev post, s1.trace = pre ++ ev :: post → ev.target = X →
          ∀ ev1 ∈ post, ev1.target ≠ D) ∧
    (∀ fuel (s s1 : State σ) X tgt l1 d l2,
      targets_find s.targets X = some tgt → X ∉ s.built_targets →
      tgt.dependencies = l1 ++ d :: l2 →
      build_deps (build o fuel) l1 s = Run.ret s1 → targets_count s1.targets d = true →
        build o (fuel + 1) X s = build_body o fuel X tgt s ∧
        build_deps (build o fuel) tgt.dependencies s =
          (build o fuel d s1).andThen (build_deps (build o fuel) l2) ∧
        ∀ s2, (build o fuel d s1).final = some s2 →
          (∃ new, s2.built_targets = s1.built_targets ++ new) ∧
          (∃ evs, s2.trace = s1.trace ++ evs)) := by
  refine ⟨build_finishes o hac hT _ rfl, fun fuel s1 h X D hXD pre ev post htr hev ev1 h1 hD => ?_,
    fun fuel s s1 X tgt l1 d l2 hf hb hdeps hl1 hcd => ⟨build_succ o fuel hf hb, ?_,
      fun s2 h2 => exec_extends (build_exec o fuel d s1 hcd
        (by intro hl; rw [hl] at h2; cases h2)) s2 h2⟩⟩
  · have hord : Ordered g s1.trace := by
      rcases final_good_cases (build_good o fuel (fresh_good g w) hT) h with hg | ⟨e, hh⟩
      · exact hg.ordered
      · exact hh.ordered
    exact hord pre ev post htr ev1 h1 (by rw [hev, hD]; exact hXD)
  · rw [hdeps, build_deps_append, hl1]
    simp only [Run.andThen, build_deps, hcd, if_true]

/-- C2 at the graph `app: main.o util.o` with both object files absent. -/
theorem build_runs_dependencies_first_witness :
    Acyclic demo_graph ∧ targets_count demo_graph "app" = true ∧
    ((∃ fuel s1, (build demo_oracle fuel "app"
        (fresh demo_graph ["main.c", "util.c"])).final = some s1) ∧
    (∀ fuel s1, (build demo_oracle fuel "app"
        (fresh demo_graph ["main.c", "util.c"])).final = some s1 →
      ∀ X D, Relation.TransGen (DepEdge demo_graph) X D →
        ∀ pre ev post, s1.trace = pre ++ ev :: post → ev.target = X →
          ∀ ev1 ∈ post, ev1.target ≠ D) ∧
    (∀ fuel (s s1 : State (List String)) X tgt l1 d l2,
      targets_find s.targets X = some tgt → X ∉ s.built_targets →
      tgt.dependencies = l1 ++ d :: l2 →
      build_deps (build demo_oracle fuel) l1 s = Run.ret s1 →
      targets_count s1.targets d = true →
        build demo_oracle (fuel + 1) X s = build_body demo_oracle fuel X tgt s ∧
        build_deps (build demo_oracle fuel) tgt.dependencies s =
          (build demo_oracle fuel d s1).andThen (build_deps (build demo_oracle fuel) l2) ∧
        ∀ s2, (build demo_oracle fuel d s1).final = some s2 →
          (∃ new, s2.built_targets = s1.built_targets ++ new) ∧
          (∃ evs, s2.trace = s1.trace ++ evs))) :=
  ⟨acyclic_of_rank_ok demo_rank (by decide), by decide,
    build_runs_dependencies_first demo_oracle demo_graph ["main.c", "util.c"] "app"
      (acyclic_of_rank_ok demo_rank (by decide)) (by decide)⟩

theorem exec_clean {σ : Type} {o : Oracle σ} {task : Task} {s : State σ} {r : Run σ}
    (h : Exec o task s r) : Clean s.trace → CleanRun r := by
  induction h with
  | skip t s hb => exact fun hc => hc
  | nil s => exact fun hc => hc
  | file d rest s r hc _ ih => exact ih
  | dep_ret d rest s s1 r hc _ _ ih1 ih2 => exact fun hc => ih2 (ih1 hc)
  | dep_exit d rest s s1 e hc _ ih => exact ih
  | deps_exit t s s2 tgt e hb hf _ ih => exact ih
  | missing t s s2 tgt n d hb hf _ hn ih => exact ih
  | uptodate t s s2 tgt n m2 hb hf hdeps hn ih => exact ih
  | ran t s s2 s3 tgt n m2 hb hf hdeps hn hr ih =>
    intro hc
    have c2 : Clean s2.trace := ih hc
    obtain ⟨_, _, r3⟩ := run_commands_ret o t _ _ _ hr
    intro t1 c1 st1 hm1
    simp only [r3, List.mem_append, List.mem_singleton, List.mem_map] at hm1
    rcases hm1 with (hm1 | hm1) | ⟨c3, _, hm1⟩
    · exact c2 _ _ _ hm1
    · cases hm1
    · cases hm1; rfl
  | failed t s s2 s3 tgt n m2 e hb hf hdeps hn hr ih =>
    intro hc
    have c2 : Clean s2.trace := ih hc
    have hnb := exec_deps_not_built hb hf hdeps
    obtain ⟨_, r2, pre, c1, rest, st, _, rfl, hst, r3⟩ := run_commands_exit o t _ _ _ _ hr
    refine ⟨s2.trace ++ [Event.start t] ++ pre.map (fun c => Event.exec t c 0), t, st,
      r3, hst, ?_, by simpa [r2] using hnb⟩
    intro t1 c4 st1 hm1
    simp only [List.mem_append, List.mem_singleton, List.mem_map] at hm1
    rcases hm1 with (hm1 | hm1) | ⟨c3, _, hm1⟩
    · exact c2 _ _ _ hm1
    · cases hm1
    · cases hm1; rfl

theorem world_after_cons {σ : Type} (o : Oracle σ) (w : σ) (b : String) (a : List String) :
    world_after o w (b :: a) = world_after o (o.system w b).2 a := rfl

/-- The command loop stops at the first command with a non-zero status: the
commands before it have run, those after it have not. -/
theorem run_commands_fails {σ : Type} (o : Oracle σ) (t c : String) (rest : List String) :
    ∀ (pre : List String) (s0 : State σ),
      (∀ a b r, pre = a ++ b :: r → (o.system (world_after o s0.world a) b).1 = 0) →
      (o.system (world_after o s0.world pre) c).1 ≠ 0 →
      run_commands o t (pre ++ c :: rest) s0 =
        Run.exit (Error.CommandFailed c)
          { s0 with
            world := (o.system (world_after o s0.world pre) c).2,
            trace := s0.trace ++ (pre.map (fun c => Event.exec t c 0) ++
              [Event.exec t c (o.system (world_after o s0.world pre) c).1]) } := by
  intro pre
  induction pre with
  | nil =>
    intro s0 _ hc
    have hc1 : (o.system s0.world c).1 ≠ 0 := hc
    simp [run_commands, world_after, hc1]
  | cons b pre ih =>
    intro s0 hpre hc
    have hb : (o.system s0.world b).1 = 0 := hpre [] b pre rfl
    have := ih (State.mk s0.targets s0.built_targets (o.system s0.world b).2
        (s0.trace ++ [Event.exec t b (o.system s0.world b).1]))
      (fun a b1 r e => hpre (b :: a) b1 r (by rw [e]; rfl)) hc
    have hstep : run_commands o t (b :: pre ++ c :: rest) s0 =
        run_commands o t (pre ++ c :: rest)
          (State.mk s0.targets s0.built_targets (o.system s0.world b).2
            (s0.trace ++ [Event.exec t b (o.system s0.world b).1])) := by
      simp [run_commands, hb]
    refine (hstep.trans this).trans ?_
    simp [world_after_cons, hb]

/-- When the run gets to the command loop of a target and that loop exits,
the whole run exits there, with the same error and state: no caller goes
on. -/
theorem reaches_exit {σ : Type} (o : Oracle σ) {fuel : Nat} {T t : String}
    {s s2 s3 : State σ} {tgt : Target} {e : Error} (h : Reaches o fuel T s t tgt s2)
    (hr : run_commands o t tgt.commands s2 = Run.exit e s3) :
    build o fuel T s = Run.exit e s3 := by
  induction h with
  | here fuel T s s2 tgt m2 hb hf hl hn =>
    rw [build_succ o fuel hf hb]
    simp only [build_body, hl, hn, hr]
  | inside fuel T s s1 s2 tgt l1 d l2 t tgt1 hb hf hdeps hl1 hc _ ih =>
    have hd := ih hr
    rw [build_succ o fuel hf hb]
    have : build_deps (build o fuel) tgt.dependencies s = Run.exit e s3 := by
      rw [hdeps, build_deps_append, hl1]
      simp only [Run.andThen, build_deps, hc, if_true, hd]
    simp only [build_body, this]

/-- C4: in a run of `build` on a graph target, entered when no command has
failed yet, a command that returns a non-zero status ends the run: a call
that returns has run only commands with status zero; a call that ends in
`exit(1)` with a failed command `c` has that command as the last event of
the trace, with a non-zero status, every command before it has status zero,
and the target of `c` is not in the completed set; an exit for a missing
dependency comes after successful commands only. And the exit is produced:
whenever the run gets to the command loop of a target `t` and a command `c`
of `t` returns a non-zero status after the commands before it returned zero,
the whole run is the exit with `CommandFailed c`, in the state right after
`c`: `c` is the last event, the commands after `c` and every other target
are not run, `t` is not completed. -/
theorem build_stops_at_failed_command {σ : Type} (o : Oracle σ) (s : State σ) (T : String)
    (fuel : Nat) (hT : targets_count s.targets T = true) (hclean : Clean s.trace) :
    (∀ s1, build o fuel T s = Run.ret s1 → Clean s1.trace) ∧
    (∀ d s1, build o fuel T s = Run.exit (Error.MissingDependency d) s1 → Clean s1.trace) ∧
    (∀ c s1, build o fuel T s = Run.exit (Error.CommandFailed c) s1 →
      ∃ pre t st, s1.trace = pre ++ [Event.exec t c st] ∧ st ≠ 0 ∧ Clean pre ∧
        t ∉ s1.built_targets) ∧
    (∀ t tgt s2 pre c rest, Reaches o fuel T s t tgt s2 → tgt.commands = pre ++ c :: rest →
      (∀ a b r, pre = a ++ b :: r → (o.system (world_after o s2.world a) b).1 = 0) →
      (o.system (world_after o s2.world pre) c).1 ≠ 0 →
      ∃ s3, build o fuel T s = Run.exit (Error.CommandFailed c) s3 ∧
        s3.trace = s2.trace ++ (pre.map (fun c => Event.exec t c 0) ++
          [Event.exec t c (o.system (world_after o s2.world pre) c).1]) ∧
        s3.built_targets = s2.built_targets ∧ t ∉ s3.built_targets) := by
  have key : CleanRun (build o fuel T s) := by
    by_cases hl : build o fuel T s = Run.loop
    · rw [hl]; trivial
    · exact exec_clean (build_exec o fuel T s hT hl) hclean
  have h3 : ∀ c s1, build o fuel T s = Run.exit (Error.CommandFailed c) s1 →
      ∃ pre t st, s1.trace = pre ++ [Event.exec t c st] ∧ st ≠ 0 ∧ Clean pre ∧
        t ∉ s1.built_targets := by
    intro c s1 h
    rw [h] at key
    exact key
  refine ⟨fun s1 h => ?_, fun d s1 h => ?_, h3, ?_⟩
  · rw [h] at key; exact key
  · rw [h] at key; exact key
  · intro t tgt s2 pre c rest hreach hcmds hpre hc
    have hr := run_commands_fails o t c rest pre s2 hpre hc
    rw [← hcmds] at hr
    have hb := reaches_exit o hreach hr
    refine ⟨_, hb, rfl, rfl, ?_⟩
    obtain ⟨pre1, t1, st1, htr, _, _, hnb⟩ := h3 c _ hb
    have htr2 : (s2.trace ++ pre.map (fun c => Event.exec t c 0)) ++
        [Event.exec t c (o.system (world_after o s2.world pre) c).1] =
        pre1 ++ [Event.exec t1 c st1] := by
      rw [← htr, List.append_assoc]
    have hlast := (List.append_inj' htr2 rfl).2
    simp only [List.cons.injEq, Event.exec.injEq, and_true] at hlast
    rw [hlast.1]
    exact hnb

/-- C4 at `all: a b` where the first command of `a` fails: the run gets to
the command loop of `a`, `false` returns 1, and the run stops there;
`echo never`, the commands of `b` and of `all` are not run. -/
theorem build_stops_at_failed_command_witness :
    targets_count (fresh failing_graph ([] : List String)).targets "all" = true ∧
    Clean (fresh failing_graph ([] : List String)).trace ∧
    (build demo_oracle 3 "all" (fresh failing_graph [])).final.map (fun s => s.trace) =
      some [Event.start "a", Event.exec "a" "false" 1] ∧
    (build demo_oracle 3 "all" (fresh failing_graph [])).error =
      some (Error.CommandFailed "false") ∧
    Reaches demo_oracle 3 "all" (fresh failing_graph []) "a"
      { dependencies := [], commands := ["false", "echo never"] }
      (State.mk failing_graph [] [] [Event.start "a"]) ∧
    (demo_oracle.system (world_after demo_oracle ([] : List String) []) "false").1 ≠ 0 ∧
    ((∀ s1, build demo_oracle 3 "all" (fresh failing_graph []) = Run.ret s1 →
      Clean s1.trace) ∧
    (∀ d s1, build demo_oracle 3 "all" (fresh failing_graph []) =
      Run.exit (Error.MissingDependency d) s1 → Clean s1.trace) ∧
    (∀ c s1, build demo_oracle 3 "all" (fresh failing_graph []) =
        Run.exit (Error.CommandFailed c) s1 →
      ∃ pre t st, s1.trace = pre ++ [Event.exec t c st] ∧ st ≠ 0 ∧ Clean pre ∧
        t ∉ s1.built_targets) ∧
    (∀ t tgt s2 pre c rest, Reaches demo_oracle 3 "all" (fresh failing_graph []) t tgt s2 →
      tgt.commands = pre ++ c :: rest →
      (∀ a b r, pre = a ++ b :: r →
        (demo_oracle.system (world_after demo_oracle s2.world a) b).1 = 0) →
      (demo_oracle.system (world_after demo_oracle s2.world pre) c).1 ≠ 0 →
      ∃ s3, build demo_oracle 3 "all" (fresh failing_graph []) =
          Run.exit (Error.CommandFailed c) s3 ∧
        s3.trace = s2.trace ++ (pre.map (fun c => Event.exec t c 0) ++
          [Event.exec t c (demo_oracle.system (world_after demo_oracle s2.world pre) c).1]) ∧
        s3.built_targets = s2.built_targets ∧ t ∉ s3.built_targets)) :=
  ⟨by decide, by intro t c st h; simp [fresh] at h, by decide, by decide,
    Reaches.inside 2 "all" (fresh failing_graph []) (fresh failing_graph []) _
      { dependencies := ["a", "b"], commands := ["echo done"] } [] "a" ["b"] "a" _
      (by simp [fresh]) (by decide) rfl rfl (by decide)
      (Reaches.here 1 "a" (fresh failing_graph []) (fresh failing_graph [])
        { dependencies := [], commands := ["false", "echo never"] } failing_graph
        (by simp [fresh]) (by decide) rfl (by decide)),
    by decide,
    build_stops_at_failed_command demo_oracle (fresh failing_graph []) "all" 3 (by decide)
      (by intro t c st h; simp [fresh] at h)⟩

theorem no_events_of_pending {σ : Type} {g : TargetMap} {s : State σ} {t : String}
    (hg : Good g s) (ht : t ∉ s.built_targets) : events_of t s.trace = [] := by
  apply List.filter_eq_nil_iff.2
  intro ev hev
  simp only [beq_iff_eq]
  intro he
  exact ht (he ▸ hg.events_built ev hev)

theorem files_ok_sound {σ : Type} {o : Oracle σ} {w : σ} {g : TargetMap}
    (h : files_ok o w g = true) : FilesPresent o w g := by
  intro t tg d hf hd hc
  simp only [files_ok, List.all_eq_true, Bool.or_eq_true] at h
  rcases h (t, tg) (targets_find_mem hf) d hd with h1 | h1
  · rw [hc] at h1; cases h1
  · exact h1

theorem needs_build_deps_no_exit {σ : Type} (o : Oracle σ) (w : σ)
    (recur : TargetMap → String → Check) (tt : Int) (g : TargetMap)
    (hpres : ∀ d m1 b, targets_count g d = true → recur g d = Check.ret m1 b → m1 = g) :
    ∀ (deps : List String),
      (∀ d ∈ deps, targets_count g d = true → ∀ x, recur g d ≠ Check.exit x) →
      (∀ d ∈ deps, targets_count g d = false → o.file_exists w d = true) →
      ∀ x, needs_build_deps o w recur tt deps g ≠ Check.exit x := by
  intro deps
  induction deps with
  | nil => intro _ _ x h; simp [needs_build_deps] at h
  | cons d rest ih =>
    intro h1 h2 x
    have ih1 := ih (fun y hy => h1 y (List.mem_cons_of_mem _ hy))
      (fun y hy => h2 y (List.mem_cons_of_mem _ hy)) x
    simp only [needs_build_deps]
    cases hc : targets_count g d with
    | true =>
      simp only [if_true]
      cases hr : recur g d with
      | loop => simp
      | exit e => exact absurd hr (h1 d (List.mem_cons_self _ _) hc e)
      | ret m1 b =>
        have := hpres d m1 b hc hr
        subst this
        cases b
        · exact ih1
        · simp
    | false =>
      simp only [Bool.false_eq_true, if_false, h2 d (List.mem_cons_self _ _) hc, if_true]
      split
      · simp
      · exact ih1

theorem needs_build_no_exit {σ : Type} (o : Oracle σ) (w : σ) (g : TargetMap)
    (hfiles : FilesPresent o w g) :
    ∀ (n : Nat) (t : String), targets_count g t = true →
      ∀ x, needs_build o w n g t ≠ Check.exit x := by
  intro n
  induction n with
  | zero => intro t _ x h; simp [needs_build] at h
  | succ n ih =>
    intro t hc x
    obtain ⟨tgt, hf, _⟩ := targets_index_of_count hc
    rw [needs_build_succ o w n hf]
    split
    · simp
    · split
      · simp
      · exact needs_build_deps_no_exit o w _ _ g
          (fun d m1 b hcd h => needs_build_targets o w n g d m1 b hcd h) _
          (fun d _ hcd => ih d hcd) (fun d hd hcd => hfiles t tgt d hf hd hcd) x

theorem needs_build_deps_false {σ : Type} (o : Oracle σ) (w : σ)
    (recur : TargetMap → String → Check) (tt : Int) (g : TargetMap)
    (hpres : ∀ d m1 b, targets_count g d = true → recur g d = Check.ret m1 b → m1 = g) :
    ∀ (deps : List String) (m : TargetMap),
      needs_build_deps o w recur tt deps g = Check.ret m false →
      ∀ d ∈ deps, targets_count g d = true → recur g d = Check.ret g false := by
  intro deps
  induction deps with
  | nil => intro m _ d hd; simp at hd
  | cons d rest ih =>
    intro m h y hy hcy
    simp only [needs_build_deps] at h
    cases hc : targets_count g d with
    | true =>
      simp only [hc, if_true] at h
      cases hr : recur g d with
      | loop => simp [hr] at h
      | exit e => simp [hr] at h
      | ret m1 b =>
        have := hpres d m1 b hc hr
        subst this
        cases b with
        | true => simp [hr] at h
        | false =>
          simp only [hr] at h
          rcases List.mem_cons.1 hy with rfl | hy
          · exact hr
          · exact ih m h y hy hcy
    | false =>
      simp only [hc, Bool.false_eq_true, if_false] at h
      have hyd : y ≠ d := by
        rintro rfl
        rw [hc] at hcy; cases hcy
      have hy1 : y ∈ rest := by
        rcases List.mem_cons.1 hy with rfl | hy
        · exact absurd rfl hyd
        · exact hy
      split at h
      · split at h
        · cases h
        · exact ih m h y hy1 hcy
      · cases h

theorem needs_build_stale_of_dep {σ : Type} (o : Oracle σ) (w : σ) (g : TargetMap)
    (hac : Acyclic g) (hfiles : FilesPresent o w g) (T : String) (tgt : Target) (D : String)
    (hf : targets_find g T = some tgt) (hD : D ∈ tgt.dependencies)
    (hDc : targets_count g D = true)
    (hstale : ∃ n, needs_build o w n g D = Check.ret g true) :
    ∃ N, ∀ n, N ≤ n → needs_build o w n g T = Check.ret g true := by
  obtain ⟨nD, hnD⟩ := hstale
  obtain ⟨N, hN⟩ := needs_build_terminates o hac T (count_of_find hf)
  refine ⟨max N nD + 1, fun n hn => ?_⟩
  obtain ⟨k, rfl⟩ : ∃ k, n = k + 1 := ⟨n - 1, by omega⟩
  have hk1 : N ≤ k + 1 := by have := le_max_left N nD; omega
  have hk2 : nD ≤ k := by have := le_max_right N nD; omega
  have hDk : needs_build o w k g D = Check.ret g true := by
    rw [needs_build_mono_le o w hk2 g D (by rw [hnD]; exact fun x => Check.noConfusion x), hnD]
  have hne := hN w (k + 1) hk1
  have hnx := needs_build_no_exit o w g hfiles (k + 1) T (count_of_find hf)
  rw [needs_build_succ o w k hf] at hne hnx ⊢
  split
  · rfl
  · split
    · rfl
    · rename_i h1 h2
      simp only [h1, h2, if_false] at hne hnx
      have hpres : ∀ d m1 b, targets_count g d = true →
          needs_build o w k g d = Check.ret m1 b → m1 = g :=
        fun d m1 b hcd h => needs_build_targets o w k g d m1 b hcd h
      cases hr : needs_build_deps o w (needs_build o w k) (o.last_write_time w T)
          tgt.dependencies g with
      | loop => exact absurd hr hne
      | exit x => exact absurd hr (hnx x)
      | ret m b =>
        have hm := needs_build_deps_targets o w _ _
          (fun m0 d m1 b hcd h => needs_build_targets o w k m0 d m1 b hcd h) _ _ _ _ hr
        subst hm
        cases b with
        | true => rfl
        | false =>
          have := needs_build_deps_false o w _ _ m hpres _ _ hr D hD hDc
          rw [hDk] at this
          cases this

/-- C6: on an acyclic graph whose non-target dependencies all exist, a target
`T` with a dependency `D` that is a graph target and for which `needs_build`
answers true gets the answer true itself, at every sufficient recursion
depth and whatever the modification times; so in a chain `A` depends on `B`
depends on `C` with `C` stale, both `B` and `A` are stale. -/
theorem needs_build_propagates_staleness {σ : Type} (o : Oracle σ) (w : σ) (g : TargetMap)
    (hac : Acyclic g) (hfiles : FilesPresent o w g) :
    (∀ T tgt D, targets_find g T = some tgt → D ∈ tgt.dependencies →
      targets_count g D = true → (∃ n, needs_build o w n g D = Check.ret g true) →
      ∃ N, ∀ n, N ≤ n → needs_build o w n g T = Check.ret g true) ∧
    (∀ A B C tA tB, targets_find g A = some tA → B ∈ tA.dependencies →
      targets_find g B = some tB → C ∈ tB.dependencies → targets_count g C = true →
      (∃ n, needs_build o w n g C = Check.ret g true) →
      (∃ N, ∀ n, N ≤ n → needs_build o w n g B = Check.ret g true) ∧
      (∃ N, ∀ n, N ≤ n → needs_build o w n g A = Check.ret g true)) := by
  refine ⟨fun T tgt D hf hD hDc hst =>
    needs_build_stale_of_dep o w g hac hfiles T tgt D hf hD hDc hst,
    fun A B C tA tB hfA hB hfB hC hCc hst => ?_⟩
  obtain ⟨NB, hNB⟩ := needs_build_stale_of_dep o w g hac hfiles B tB C hfB hC hCc hst
  exact ⟨⟨NB, hNB⟩, needs_build_stale_of_dep o w g hac hfiles A tA B hfA hB
    (count_of_find hfB) ⟨NB, hNB NB (le_refl _)⟩⟩

/-- C6 at the chain `A: B`, `B: C`, `C: c.src` where only `c.src` is newer
than its target and `A` is newer than `B`. -/
theorem needs_build_propagates_staleness_witness :
    Acyclic chain_graph ∧ FilesPresent demo_oracle ["C", "c.src", "B", "A"] chain_graph ∧
    needs_build demo_oracle ["C", "c.src", "B", "A"] 1 chain_graph "C" =
      Check.ret chain_graph true ∧
    demo_oracle.last_write_time ["C", "c.src", "B", "A"] "B" <
      demo_oracle.last_write_time ["C", "c.src", "B", "A"] "A" ∧
    needs_build demo_oracle ["C", "c.src", "B", "A"] 3 chain_graph "A" =
      Check.ret chain_graph true ∧
    ((∀ T tgt D, targets_find chain_graph T = some tgt → D ∈ tgt.dependencies →
      targets_count chain_graph D = true →
      (∃ n, needs_build demo_oracle ["C", "c.src", "B", "A"] n chain_graph D =
        Check.ret chain_graph true) →
      ∃ N, ∀ n, N ≤ n → needs_build demo_oracle ["C", "c.src", "B", "A"] n chain_graph T =
        Check.ret chain_graph true) ∧
    (∀ A B C tA tB, targets_find chain_graph A = some tA → B ∈ tA.dependencies →
      targets_find chain_graph B = some tB → C ∈ tB.dependencies →
      targets_count chain_graph C = true →
      (∃ n, needs_build demo_oracle ["C", "c.src", "B", "A"] n chain_graph C =
        Check.ret chain_graph true) →
      (∃ N, ∀ n, N ≤ n → needs_build demo_oracle ["C", "c.src", "B", "A"] n chain_graph B =
        Check.ret chain_graph true) ∧
      (∃ N, ∀ n, N ≤ n → needs_build demo_oracle ["C", "c.src", "B", "A"] n chain_graph A =
        Check.ret chain_graph true))) :=
  ⟨acyclic_of_rank_ok chain_rank (by decide), files_ok_sound (by decide), by decide,
    by decide, by decide,
    needs_build_propagates_staleness demo_oracle ["C", "c.src", "B", "A"] chain_graph
      (acyclic_of_rank_ok chain_rank (by decide)) (files_ok_sound (by decide))⟩

theorem needs_build_deps_files {σ : Type} (o : Oracle σ) (w : σ)
    (recur : TargetMap → String → Check) (tt : Int) (g : TargetMap) :
    ∀ (deps : List String),
      (∀ d ∈ deps, targets_count g d = false ∧ o.file_exists w d = true) →
      needs_build_deps o w recur tt deps g =
        Check.ret g (deps.any (fun d => decide (tt < o.last_write_time w d))) := by
  intro deps
  induction deps with
  | nil => intro _; rfl
  | cons d rest ih =>
    intro h
    obtain ⟨hc, he⟩ := h d (List.mem_cons_self _ _)
    have ih1 := ih (fun x hx => h x (List.mem_cons_of_mem _ hx))
    simp only [needs_build_deps, hc, Bool.false_eq_true, if_false, he, if_true, List.any_cons]
    by_cases hlt : tt < o.last_write_time w d
    · simp [hlt]
    · simp only [gt_iff_lt, hlt, if_false, decide_False, Bool.false_or]
      exact ih1

/-- C7: for a target `T` that is not phony, whose file exists and whose
dependencies are all existing files that are not graph targets,
`needs_build(T)` returns, and the answer is true exactly when some dependency
has a modification time strictly greater than that of `T`; it is false when
every dependency is older than `T` or exactly as old. -/
theorem needs_build_compares_file_times {σ : Type} (o : Oracle σ) (w : σ) (g : TargetMap)
    (T : String) (tgt : Target) (fuel : Nat) (hf : targets_find g T = some tgt)
    (hph : tgt.is_phony = false) (hex : o.file_exists w T = true)
    (hdeps : ∀ d ∈ tgt.dependencies, targets_count g d = false ∧ o.file_exists w d = true) :
    ∃ b, needs_build o w (fuel + 1) g T = Check.ret g b ∧
      (b = true ↔ ∃ d ∈ tgt.dependencies, o.last_write_time w T < o.last_write_time w d) ∧
      ((∀ d ∈ tgt.dependencies, o.last_write_time w d ≤ o.last_write_time w T) →
        b = false) := by
  refine ⟨tgt.dependencies.any (fun d => decide (o.last_write_time w T <
    o.last_write_time w d)), ?_, ?_, ?_⟩
  · rw [needs_build_succ o w fuel hf]
    simp only [hex, hph, Bool.true_eq_false, Bool.false_eq_true, if_false]
    exact needs_build_deps_files o w _ _ g _ hdeps
  · simp
  · intro hall
    rw [List.any_eq_false]
    intro d hd
    simpa using hall d hd

/-- C7 at `main.o: main.c defs.h`: stale when `main.c` is newer than `main.o`,
up to date when `main.o` is the newest file. -/
theorem needs_build_compares_file_times_witness :
    targets_find object_graph "main.o" = some
      { dependencies := ["main.c", "defs.h"], commands := ["cc -c main.c -o main.o"] } ∧
    demo_oracle.file_exists ["defs.h", "main.o", "main.c"] "main.o" = true ∧
    (∀ d ∈ ["main.c", "defs.h"], targets_count object_graph d = false ∧
      demo_oracle.file_exists ["defs.h", "main.o", "main.c"] d = true) ∧
    needs_build demo_oracle ["defs.h", "main.o", "main.c"] 1 object_graph "main.o" =
      Check.ret object_graph true ∧
    needs_build demo_oracle ["defs.h", "main.c", "main.o"] 1 object_graph "main.o" =
      Check.ret object_graph false ∧
    (∃ b, needs_build demo_oracle ["defs.h", "main.o", "main.c"] 1 object_graph "main.o" =
        Check.ret object_graph b ∧
      (b = true ↔ ∃ d ∈ ["main.c", "defs.h"],
        demo_oracle.last_write_time ["defs.h", "main.o", "main.c"] "main.o" <
          demo_oracle.last_write_time ["defs.h", "main.o", "main.c"] d) ∧
      ((∀ d ∈ ["main.c", "defs.h"],
        demo_oracle.last_write_time ["defs.h", "main.o", "main.c"] d ≤
          demo_oracle.last_write_time ["defs.h", "main.o", "main.c"] "main.o") →
        b = false)) :=
  ⟨by decide, by decide, by decide, by decide, by decide,
    needs_build_compares_file_times demo_oracle ["defs.h", "main.o", "main.c"] object_graph
      "main.o" { dependencies := ["main.c", "defs.h"], commands := ["cc -c main.c -o main.o"] }
      0 (by decide) rfl (by decide) (by decide)⟩

/-- C8: when the path `T` does not exist, `needs_build(T)` returns true on
every graph, whatever the dependencies of `T` are (none is looked at); and a
`build(T)` whose dependency loop has returned with `T` still absent runs the
commands of `T`: the call is the command loop of `T` followed by the
completion of `T`, it returns after all commands of `T`, in order, or exits at
the first one that fails. -/
theorem needs_build_absent_target {σ : Type} (o : Oracle σ) (w : σ) (g : TargetMap)
    (T : String) (fuel : Nat) (hex : o.file_exists w T = false) :
    needs_build o w (fuel + 1) g T = Check.ret g true ∧
    ∀ (s s2 : State σ) (tgt : Target), targets_find s.targets T = some tgt →
      T ∉ s.built_targets →
      build_deps (build o (fuel + 1)) tgt.dependencies s = Run.ret s2 → s2.world = w →
        build o (fuel + 2) T s =
          (run_commands o T tgt.commands
            { s2 with trace := s2.trace ++ [Event.start T] }).andThen
            (fun s3 => Run.ret { s3 with built_targets := s3.built_targets ++ [T] }) ∧
        build o (fuel + 2) T s ≠ Run.loop ∧
        (∀ s4, build o (fuel + 2) T s = Run.ret s4 →
          s4.trace = s2.trace ++ full_batch T tgt) ∧
        (∀ e s4, build o (fuel + 2) T s = Run.exit e s4 →
          ∃ pre c rest st, tgt.commands = pre ++ c :: rest ∧ e = Error.CommandFailed c ∧
            st ≠ 0 ∧ s4.trace = s2.trace ++
              Event.start T :: (pre.map (fun c => Event.exec T c 0) ++ [Event.exec T c st])) := by
  have h1 : ∀ (w1 : σ) (g1 : TargetMap), o.file_exists w1 T = false →
      needs_build o w1 (fuel + 1) g1 T = Check.ret g1 true := by
    intro w1 g1 he
    simp [needs_build, he]
  refine ⟨h1 w g hex, fun s s2 tgt hf hb hl hw => ?_⟩
  have heq : build o (fuel + 2) T s =
      (run_commands o T tgt.commands
        { s2 with trace := s2.trace ++ [Event.start T] }).andThen
        (fun s3 => Run.ret { s3 with built_targets := s3.built_targets ++ [T] }) := by
    rw [build_succ o (fuel + 1) hf hb]
    simp only [build_body, hl, h1 s2.world s2.targets (by rw [hw]; exact hex), Run.andThen]
  refine ⟨heq, ?_, ?_, ?_⟩
  · rw [heq]
    cases hr : run_commands o T tgt.commands
        { s2 with trace := s2.trace ++ [Event.start T] } with
    | loop => exact absurd hr (run_commands_ne_loop o T _ _)
    | ret s3 => simp [Run.andThen]
    | exit e s3 => simp [Run.andThen]
  · intro s4 h4
    rw [heq] at h4
    cases hr : run_commands o T tgt.commands
        { s2 with trace := s2.trace ++ [Event.start T] } with
    | loop => rw [hr] at h4; cases h4
    | exit e s3 => rw [hr] at h4; cases h4
    | ret s3 =>
      rw [hr] at h4
      simp only [Run.andThen, Run.ret.injEq] at h4
      subst h4
      obtain ⟨_, _, r3⟩ := run_commands_ret o T _ _ _ hr
      simp [r3, full_batch]
  · intro e s4 h4
    rw [heq] at h4
    cases hr : run_commands o T tgt.commands
        { s2 with trace := s2.trace ++ [Event.start T] } with
    | loop => rw [hr] at h4; cases h4
    | ret s3 => rw [hr] at h4; cases h4
    | exit e1 s3 =>
      rw [hr] at h4
      simp only [Run.andThen, Run.exit.injEq] at h4
      obtain ⟨rfl, rfl⟩ := h4
      obtain ⟨_, _, pre, c, rest, st, hc, he, hst, r3⟩ := run_commands_exit o T _ _ _ _ hr
      exact ⟨pre, c, rest, st, hc, he, hst, by simp [r3]⟩

/-- C8 at `main.o: main.c` with `main.o` absent. -/
theorem needs_build_absent_target_witness :
    demo_oracle.file_exists ["main.c", "util.c"] "main.o" = false ∧
    (build demo_oracle 2 "main.o" (fresh demo_graph ["main.c", "util.c"])).final.map
      (fun s => s.trace) =
      some [Event.start "main.o", Event.exec "main.o" "g++ -c main.c -o main.o" 0] ∧
    (needs_build demo_oracle ["main.c", "util.c"] 1 demo_graph "main.o" =
      Check.ret demo_graph true ∧
    ∀ (s s2 : State (List String)) (tgt : Target), targets_find s.targets "main.o" = some tgt →
      "main.o" ∉ s.built_targets →
      build_deps (build demo_oracle 1) tgt.dependencies s = Run.ret s2 →
      s2.world = ["main.c", "util.c"] →
        build demo_oracle 2 "main.o" s =
          (run_commands demo_oracle "main.o" tgt.commands
            { s2 with trace := s2.trace ++ [Event.start "main.o"] }).andThen
            (fun s3 => Run.ret { s3 with built_targets := s3.built_targets ++ ["main.o"] }) ∧
        build demo_oracle 2 "main.o" s ≠ Run.loop ∧
        (∀ s4, build demo_oracle 2 "main.o" s = Run.ret s4 →
          s4.trace = s2.trace ++ full_batch "main.o" tgt) ∧
        (∀ e s4, build demo_oracle 2 "main.o" s = Run.exit e s4 →
          ∃ pre c rest st, tgt.commands = pre ++ c :: rest ∧ e = Error.CommandFailed c ∧
            st ≠ 0 ∧ s4.trace = s2.trace ++
              Event.start "main.o" ::
                (pre.map (fun c => Event.exec "main.o" c 0) ++ [Event.exec "main.o" c st]))) :=
  ⟨by decide, by decide,
    needs_build_absent_target demo_oracle ["main.c", "util.c"] demo_graph "main.o" 0
      (by decide)⟩

theorem exec_no_command_failed {σ : Type} {o : Oracle σ} {task : Task} {s : State σ}
    {r : Run σ} (h : Exec o task s r) (hok : ∀ w c, (o.system w c).1 = 0) :
    ∀ c s1, r ≠ Run.exit (Error.CommandFailed c) s1 := by
  induction h with
  | skip t s hb => intro c s1 h; cases h
  | nil s => intro c s1 h; cases h
  | file d rest s r hc _ ih => exact ih
  | dep_ret d rest s s1 r hc _ _ ih1 ih2 => exact ih2
  | dep_exit d rest s s1 e hc _ ih => exact ih
  | deps_exit t s s2 tgt e hb hf _ ih => exact ih
  | missing t s s2 tgt n d hb hf _ hn ih => intro c s1 h; cases h
  | uptodate t s s2 tgt n m2 hb hf hdeps hn ih => intro c s1 h; cases h
  | ran t s s2 s3 tgt n m2 hb hf hdeps hn hr ih => intro c s1 h; cases h
  | failed t s s2 s3 tgt n m2 e hb hf hdeps hn hr ih =>
    obtain ⟨s4, h4⟩ := run_commands_all_ok o t hok tgt.commands
      { s2 with targets := m2, trace := s2.trace ++ [Event.start t] }
    rw [h4] at hr
    cases hr

theorem needs_build_phony {σ : Type} (o : Oracle σ) (w : σ) (g : TargetMap) (T : String)
    (tgt : Target) (fuel : Nat) (hf : targets_find g T = some tgt)
    (hph : tgt.is_phony = true) : needs_build o w (fuel + 1) g T = Check.ret g true := by
  rw [needs_build_succ o w fuel hf]
  simp [hph]

theorem exec_phony_ret {σ : Type} {o : Oracle σ} {g : TargetMap} {task : Task}
    {s : State σ} {r : Run σ} (h : Exec o task s r) :
    ∀ T tgt s1, task = Task.one T → r = Run.ret s1 → Good g s → T ∉ s.built_targets →
      targets_find g T = some tgt → tgt.is_phony = true →
      ∃ pre, s1.trace = pre ++ full_batch T tgt ∧ events_of T pre = [] := by
  cases h with
  | skip t s hb =>
    intro T tgt s1 ht _ _ hnb _ _
    cases ht
    exact absurd hb hnb
  | nil s => intro T tgt s1 ht; cases ht
  | file d rest s r hc h1 => intro T tgt s1 ht; cases ht
  | dep_ret d rest s s1 r hc h1 h2 => intro T tgt s1 ht; cases ht
  | dep_exit d rest s s1 e hc h1 => intro T tgt s1 ht; cases ht
  | deps_exit t s s2 tgt e hb hf h1 => intro T tgt s1 _ hr; cases hr
  | missing t s s2 tgt n d hb hf h1 hn => intro T tgt s1 _ hr; cases hr
  | failed t s s2 s3 tgt n m2 e hb hf hdeps hn hr => intro T tgt s1 _ hr; cases hr
  | uptodate t s s2 tgt0 n m2 hb hf hdeps hn =>
    intro T tgt s1 ht _ hg _ hfT hph
    cases ht
    exfalso
    have a := (exec_basic hdeps s2 rfl).1
    rw [a, hg.targets_eq] at hn
    cases n with
    | zero => simp [needs_build] at hn
    | succ n =>
      rw [needs_build_phony o s2.world g t tgt n hfT hph] at hn
      cases hn
  | ran t s s2 s3 tgt0 n m2 hb hf hdeps hn hr =>
    intro T tgt s1 ht hret hg _ hfT _
    cases ht
    cases hret
    have hf2 : targets_find g t = some tgt0 := hg.targets_eq ▸ hf
    rw [hfT] at hf2
    cases hf2
    obtain ⟨_, _, r3⟩ := run_commands_ret o t _ _ _ hr
    refine ⟨s2.trace, by simp [r3, full_batch], ?_⟩
    exact no_events_of_pending (exec_good hdeps hg) (exec_deps_not_built hb hf hdeps)

/-- C9, as stated, fails: `all` is phony, the graph is acyclic and no command
fails, yet the fresh run of `build(all)` executes nothing: it exits while the
dependency `lib` is checked, because `lib.src` is missing. -/
theorem phony_target_commands_not_run :
    targets_find phony_graph "all" = some
      { dependencies := ["lib"], commands := ["echo all"], is_phony := true } ∧
    rank_ok phony_graph phony_rank = true ∧
    (build ok_oracle 3 "all" (fresh phony_graph ["lib"])).error =
      some (Error.MissingDependency "lib.src") ∧
    (build ok_oracle 3 "all" (fresh phony_graph ["lib"])).final.map (fun s => s.trace) =
      some [] := by
  decide

/-- C9, amended: for a phony target `T`, `needs_build(T)` is true in every
filesystem state; and on an acyclic graph whose commands all succeed, a fresh
run of `build(T)` finishes, and it either returns, the trace ending with the
start of `T` and all commands of `T` in declaration order (the only events of
`T`), or exits for a missing dependency met while a dependency of `T` is
built, with no event of `T` in the trace. -/
theorem phony_target_always_runs {σ : Type} (o : Oracle σ) (w : σ) (g : TargetMap)
    (T : String) (tgt : Target) (hf : targets_find g T = some tgt)
    (hph : tgt.is_phony = true) (hac : Acyclic g) (hok : ∀ w1 c, (o.system w1 c).1 = 0) :
    (∀ fuel w1, needs_build o w1 (fuel + 1) g T = Check.ret g true) ∧
    (∃ fuel s1, (build o fuel T (fresh g w)).final = some s1) ∧
    (∀ fuel s1, build o fuel T (fresh g w) = Run.ret s1 →
      ∃ pre, s1.trace = pre ++ full_batch T tgt ∧ events_of T pre = []) ∧
    (∀ fuel e s1, build o fuel T (fresh g w) = Run.exit e s1 →
      (∃ d, e = Error.MissingDependency d) ∧ events_of T s1.trace = []) := by
  have hT := count_of_find hf
  have hb0 : T ∉ (fresh g w).built_targets := by simp [fresh]
  refine ⟨fun fuel w1 => needs_build_phony o w1 g T tgt fuel hf hph,
    build_finishes o hac hT _ rfl, fun fuel s1 h => ?_, fun fuel e s1 h => ?_⟩
  · have hex := build_exec o fuel T (fresh g w) hT (by rw [h]; exact fun x => Run.noConfusion x)
    rw [h] at hex
    exact exec_phony_ret hex T tgt s1 rfl rfl (fresh_good g w) hb0 hf hph
  · have hex := build_exec o fuel T (fresh g w) hT (by rw [h]; exact fun x => Run.noConfusion x)
    rw [h] at hex
    have hpend : T ∉ s1.built_targets :=
      (exec_trap_exit hex (fun _ => False) (fun _ hv => hv.elim) (fun _ hv => hv.elim)
        e s1 rfl).2
    have hgood : GoodRun g (Run.exit e s1) := exec_good hex (fresh_good g w)
    cases e with
    | CommandFailed c => exact absurd rfl (exec_no_command_failed hex hok c s1)
    | MissingDependency d =>
      exact ⟨⟨d, rfl⟩, no_events_of_pending hgood.failing hpend⟩

/-- C9, amended, at the phony `all: lib` with every file present and `all`
the newest: `echo all` is run all the same. -/
theorem phony_target_always_runs_witness :
    targets_find phony_graph "all" = some
      { dependencies := ["lib"], commands := ["echo all"], is_phony := true } ∧
    Acyclic phony_graph ∧
    (build ok_oracle 3 "all" (fresh phony_graph ["lib.src", "lib", "all"])).final.map
      (fun s => s.trace) = some [Event.start "all", Event.exec "all" "echo all" 0] ∧
    ((∀ fuel w1, needs_build ok_oracle w1 (fuel + 1) phony_graph "all" =
      Check.ret phony_graph true) ∧
    (∃ fuel s1, (build ok_oracle fuel "all"
      (fresh phony_graph ["lib.src", "lib", "all"])).final = some s1) ∧
    (∀ fuel s1, build ok_oracle fuel "all" (fresh phony_graph ["lib.src", "lib", "all"]) =
      Run.ret s1 →
      ∃ pre, s1.trace = pre ++ full_batch "all"
        { dependencies := ["lib"], commands := ["echo all"], is_phony := true } ∧
        events_of "all" pre = []) ∧
    (∀ fuel e s1, build ok_oracle fuel "all" (fresh phony_graph ["lib.src", "lib", "all"]) =
      Run.exit e s1 →
      (∃ d, e = Error.MissingDependency d) ∧ events_of "all" s1.trace = [])) :=
  ⟨by decide, acyclic_of_rank_ok phony_rank (by decide), by decide,
    phony_target_always_runs ok_oracle ["lib.src", "lib", "all"] phony_graph "all"
      { dependencies := ["lib"], commands := ["echo all"], is_phony := true }
      (by decide) rfl (acyclic_of_rank_ok phony_rank (by decide)) (fun _ _ => rfl)⟩

theorem exec_closed {σ : Type} {o : Oracle σ} {task : Task} {s : State σ} {r : Run σ}
    (h : Exec o task s r) :
    DepsClosed s.targets s.built_targets → ∀ s1, r = Run.ret s1 →
      DepsClosed s.targets s1.built_targets := by
  induction h with
  | skip t s hb => intro hc s1 h1; cases h1; exact hc
  | nil s => intro hc s1 h1; cases h1; exact hc
  | file d rest s r hc _ ih => exact ih
  | dep_ret d rest s s1 r hc h1 _ ih1 ih2 =>
    intro hcl s2 h2
    have ht := (exec_basic h1 s1 rfl).1
    have := ih2 (by rw [ht]; exact ih1 hcl s1 rfl) s2 h2
    rw [ht] at this
    exact this
  | dep_exit d rest s s1 e hc _ ih => intro _ s2 h2; cases h2
  | deps_exit t s s2 tgt e hb hf _ ih => intro _ s3 h3; cases h3
  | missing t s s2 tgt n d hb hf _ hn ih => intro _ s3 h3; cases h3
  | failed t s s2 s3 tgt n m2 e hb hf hdeps hn hr ih => intro _ s4 h4; cases h4
  | uptodate t s s2 tgt n m2 hb hf hdeps hn ih =>
    intro hcl s3 h3
    cases h3
    have c2 := ih hcl s2 rfl
    have hd := deps_built_of_done hf ((exec_basic hdeps s2 rfl).2.2 rfl)
    intro x hx d hxd
    simp only [List.mem_append, List.mem_singleton] at hx ⊢
    rcases hx with hx | rfl
    · exact Or.inl (c2 x hx d hxd)
    · exact Or.inl (hd d hxd)
  | ran t s s2 s3 tgt n m2 hb hf hdeps hn hr ih =>
    intro hcl s4 h4
    cases h4
    have c2 := ih hcl s2 rfl
    have hd := deps_built_of_done hf ((exec_basic hdeps s2 rfl).2.2 rfl)
    obtain ⟨_, r2, _⟩ := run_commands_ret o t _ _ _ hr
    intro x hx d hxd
    simp only [r2, List.mem_append, List.mem_singleton] at hx ⊢
    rcases hx with hx | rfl
    · exact Or.inl (c2 x hx d hxd)
    · exact Or.inl (hd d hxd)

/-- C10, as stated, fails: with `app` already in the completed set and its
dependency `main.o` not, `build(app)` returns at once and the completed set
still lacks `main.o`, a graph target reachable from `app`. -/
theorem build_skips_dependencies_of_completed :
    DepEdge demo_graph "app" "main.o" ∧
    ((build demo_oracle 1 "app"
      { targets := demo_graph, built_targets := ["app"], world := ([] : List String),
        trace := [] }).returned.map (fun s => s.built_targets) = some ["app"]) ∧
    "main.o" ∉ ["app"] :=
  ⟨⟨_, (by decide : targets_find demo_graph "app" = some
      { dependencies := ["main.o", "util.o"], commands := ["g++ -o app main.o util.o"] }),
    by decide, by decide⟩, by decide, by decide⟩

theorem exec_new_closed {σ : Type} {o : Oracle σ} {task : Task} {s : State σ} {r : Run σ}
    (h : Exec o task s r) :
    ∀ s1, r = Run.ret s1 → ∀ Y ∈ s1.built_targets, Y ∉ s.built_targets →
      ∀ d, DepEdge s.targets Y d → d ∈ s1.built_targets := by
  induction h with
  | skip t s hb => intro s1 h1 Y hY hn; cases h1; exact absurd hY hn
  | nil s => intro s1 h1 Y hY hn; cases h1; exact absurd hY hn
  | file d rest s r hc _ ih => exact ih
  | dep_ret d rest s s1 r hc h1 h2 ih1 ih2 =>
    intro s2 e2 Y hY hn x hx
    subst e2
    have ht := (exec_basic h1 s1 rfl).1
    by_cases hY1 : Y ∈ s1.built_targets
    · exact (exec_basic h2 s2 rfl).2.1 x (ih1 s1 rfl Y hY1 hn x hx)
    · exact ih2 s2 rfl Y hY hY1 x (by rw [ht]; exact hx)
  | dep_exit d rest s s1 e hc _ ih => intro s2 h2; cases h2
  | deps_exit t s s2 tgt e hb hf _ ih => intro s3 h3; cases h3
  | missing t s s2 tgt n d hb hf _ hn ih => intro s3 h3; cases h3
  | failed t s s2 s3 tgt n m2 e hb hf hdeps hn hr ih => intro s4 h4; cases h4
  | uptodate t s s2 tgt n m2 hb hf hdeps hn ih =>
    intro s3 h3 Y hY hnY x hx
    cases h3
    have hd := deps_built_of_done hf ((exec_basic hdeps s2 rfl).2.2 rfl)
    simp only [List.mem_append, List.mem_singleton] at hY ⊢
    rcases hY with hY | rfl
    · exact Or.inl (ih s2 rfl Y hY hnY x hx)
    · exact Or.inl (hd x hx)
  | ran t s s2 s3 tgt n m2 hb hf hdeps hn hr ih =>
    intro s4 h4 Y hY hnY x hx
    cases h4
    have hd := deps_built_of_done hf ((exec_basic hdeps s2 rfl).2.2 rfl)
    obtain ⟨_, r2, _⟩ := run_commands_ret o t _ _ _ hr
    simp only [r2, List.mem_append, List.mem_singleton] at hY ⊢
    rcases hY with hY | rfl
    · exact Or.inl (ih s2 rfl Y hY hnY x hx)
    · exact Or.inl (hd x hx)

theorem exec_new_reach {σ : Type} {o : Oracle σ} {task : Task} {s : State σ} {r : Run σ}
    (h : Exec o task s r) :
    ∀ s1, r = Run.ret s1 → ∀ X ∈ s1.built_targets, X ∉ s.built_targets →
      ∃ t0, task.heads s.targets t0 ∧ t0 ∉ s.built_targets ∧
        Relation.ReflTransGen (FreshEdge s.targets s.built_targets) t0 X := by
  induction h with
  | skip t s hb => intro s1 h1 X hX hn; cases h1; exact absurd hX hn
  | nil s => intro s1 h1 X hX hn; cases h1; exact absurd hX hn
  | file d rest s r hc _ ih =>
    intro s1 h1 X hX hn
    obtain ⟨t0, ⟨hm, hc0⟩, hb0, hr0⟩ := ih s1 h1 X hX hn
    exact ⟨t0, ⟨List.mem_cons_of_mem _ hm, hc0⟩, hb0, hr0⟩
  | dep_ret d rest s s1 r hc h1 h2 ih1 ih2 =>
    intro s2 e2 X hX hn
    subst e2
    obtain ⟨ht, hmono, _⟩ := exec_basic h1 s1 rfl
    by_cases hX1 : X ∈ s1.built_targets
    · obtain ⟨t0, h0, hb0, hr0⟩ := ih1 s1 rfl X hX1 hn
      have : t0 = d := h0
      subst this
      exact ⟨t0, ⟨List.mem_cons_self _ _, hc⟩, hb0, hr0⟩
    · obtain ⟨t0, ⟨hm, hc0⟩, hb0, hr0⟩ := ih2 s2 rfl X hX hX1
      rw [ht] at hc0 hr0
      refine ⟨t0, ⟨List.mem_cons_of_mem _ hm, hc0⟩, fun hb => hb0 (hmono _ hb), ?_⟩
      exact Relation.ReflTransGen.mono (fun a b hab => ⟨hab.1, fun hb => hab.2 (hmono _ hb)⟩) hr0
  | dep_exit d rest s s1 e hc _ ih => intro s2 h2; cases h2
  | deps_exit t s s2 tgt e hb hf _ ih => intro s3 h3; cases h3
  | missing t s s2 tgt n d hb hf _ hn ih => intro s3 h3; cases h3
  | failed t s s2 s3 tgt n m2 e hb hf hdeps hn hr ih => intro s4 h4; cases h4
  | uptodate t s s2 tgt n m2 hb hf hdeps hn ih =>
    intro s3 h3 X hX hnX
    cases h3
    simp only [List.mem_append, List.mem_singleton] at hX
    rcases hX with hX | rfl
    · obtain ⟨t0, ⟨hm, hc0⟩, hb0, hr0⟩ := ih s2 rfl X hX hnX
      exact ⟨t, rfl, hb, Relation.ReflTransGen.head ⟨⟨tgt, hf, hm, hc0⟩, hb0⟩ hr0⟩
    · exact ⟨X, rfl, hb, Relation.ReflTransGen.refl⟩
  | ran t s s2 s3 tgt n m2 hb hf hdeps hn hr ih =>
    intro s4 h4 X hX hnX
    cases h4
    obtain ⟨_, r2, _⟩ := run_commands_ret o t _ _ _ hr
    simp only [r2, List.mem_append, List.mem_singleton] at hX
    rcases hX with hX | rfl
    · obtain ⟨t0, ⟨hm, hc0⟩, hb0, hr0⟩ := ih s2 rfl X hX hnX
      exact ⟨t, rfl, hb, Relation.ReflTransGen.head ⟨⟨tgt, hf, hm, hc0⟩, hb0⟩ hr0⟩
    · exact ⟨X, rfl, hb, Relation.ReflTransGen.refl⟩

/-- C10, amended: for every initial completed set, when `build(T)` returns
the completed set contains `T` and the completed set from before the call,
and besides the latter exactly the graph targets reached from `T` along
dependency edges through targets that were not completed before. It contains
every graph target reachable from `T` exactly when it contains the
graph-target dependencies of the reachable targets that were completed before
the call: so it does when those dependencies were completed before too, as
with the empty set or any set closed under graph-target dependencies; a closed
set stays closed. On an acyclic graph the call finishes. -/
theorem build_completes_reachable {σ : Type} (o : Oracle σ) (g : TargetMap) (s : State σ)
    (T : String) (hs : s.targets = g) (hT : targets_count g T = true) :
    (∀ fuel s1, build o fuel T s = Run.ret s1 →
      T ∈ s1.built_targets ∧
      (∀ x ∈ s.built_targets, x ∈ s1.built_targets) ∧
      (∀ X, X ∈ s1.built_targets ↔ X ∈ s.built_targets ∨
        (T ∉ s.built_targets ∧
          Relation.ReflTransGen (FreshEdge g s.built_targets) T X)) ∧
      ((∀ X, Relation.ReflTransGen (DepEdge g) T X → X ∈ s1.built_targets) ↔
        ∀ Y ∈ s.built_targets, Relation.ReflTransGen (DepEdge g) T Y →
          ∀ d, DepEdge g Y d → d ∈ s1.built_targets) ∧
      ((∀ Y ∈ s.built_targets, Relation.ReflTransGen (DepEdge g) T Y →
          ∀ d, DepEdge g Y d → d ∈ s.built_targets) →
        ∀ X, Relation.ReflTransGen (DepEdge g) T X → X ∈ s1.built_targets) ∧
      (DepsClosed g s.built_targets → DepsClosed g s1.built_targets)) ∧
    (Acyclic g → ∃ fuel s1, (build o fuel T s).final = some s1) := by
  refine ⟨fun fuel s1 h => ?_, fun hac => build_finishes o hac hT s hs⟩
  subst hs
  have hex := build_exec o fuel T s hT (by rw [h]; exact fun x => Run.noConfusion x)
  rw [h] at hex
  obtain ⟨_, hmono, hdone⟩ := exec_basic hex s1 rfl
  have hT1 : T ∈ s1.built_targets := hdone rfl
  have hnew := exec_new_closed hex s1 rfl
  have hreach : (∀ Y ∈ s.built_targets, Relation.ReflTransGen (DepEdge s.targets) T Y →
      ∀ d, DepEdge s.targets Y d → d ∈ s1.built_targets) →
      ∀ X, Relation.ReflTransGen (DepEdge s.targets) T X → X ∈ s1.built_targets := by
    intro hloc X hX
    induction hX with
    | refl => exact hT1
    | tail hab hbc ih =>
      rename_i b c
      by_cases hb : b ∈ s.built_targets
      · exact hloc b hb hab c hbc
      · exact hnew b ih hb c hbc
  refine ⟨hT1, hmono, fun X => ⟨fun hX => ?_, fun hX => ?_⟩,
    ⟨fun hall Y _ hY d hd => hall d (hY.tail hd), hreach⟩,
    fun hloc => hreach (fun Y hY hr d hd => hmono d (hloc Y hY hr d hd)),
    fun hclosed => exec_closed hex hclosed s1 rfl⟩
  · by_cases hXs : X ∈ s.built_targets
    · exact Or.inl hXs
    · obtain ⟨t0, h0, hb0, hr0⟩ := exec_new_reach hex s1 rfl X hX hXs
      have : t0 = T := h0
      subst this
      exact Or.inr ⟨hb0, hr0⟩
  · rcases hX with hX | ⟨hTn, hX⟩
    · exact hmono X hX
    · have : X ∈ s1.built_targets ∧ X ∉ s.built_targets := by
        induction hX with
        | refl => exact ⟨hT1, hTn⟩
        | tail _ hbc ih => exact ⟨hnew _ ih.1 ih.2 _ hbc.1, hbc.2⟩
      exact this.1

/-- C10, amended, at `app` with `util.o` completed before the call: the call
returns with `util.o`, `main.o` and `app` completed. -/
theorem build_completes_reachable_witness :
    targets_count demo_graph "app" = true ∧ Acyclic demo_graph ∧
    DepsClosed demo_graph ["util.o"] ∧
    (build demo_oracle 3 "app"
      { targets := demo_graph, built_targets := ["util.o"],
        world := ["main.c", "util.c"], trace := [] }).returned.map
      (fun s => s.built_targets) = some ["util.o", "main.o", "app"] ∧
    ((∀ fuel s1, build demo_oracle fuel "app"
      { targets := demo_graph, built_targets := ["util.o"],
        world := ["main.c", "util.c"], trace := [] } = Run.ret s1 →
      "app" ∈ s1.built_targets ∧
      (∀ x ∈ (State.mk demo_graph ["util.o"] ["main.c", "util.c"] []).built_targets,
        x ∈ s1.built_targets) ∧
      (∀ X, X ∈ s1.built_targets ↔
        X ∈ (State.mk demo_graph ["util.o"] ["main.c", "util.c"] []).built_targets ∨
        ("app" ∉ (State.mk demo_graph ["util.o"] ["main.c", "util.c"] []).built_targets ∧
          Relation.ReflTransGen (FreshEdge demo_graph
            (State.mk demo_graph ["util.o"] ["main.c", "util.c"] []).built_targets)
            "app" X)) ∧
      ((∀ X, Relation.ReflTransGen (DepEdge demo_graph) "app" X → X ∈ s1.built_targets) ↔
        ∀ Y ∈ (State.mk demo_graph ["util.o"] ["main.c", "util.c"] []).built_targets,
          Relation.ReflTransGen (DepEdge demo_graph) "app" Y →
          ∀ d, DepEdge demo_graph Y d → d ∈ s1.built_targets) ∧
      ((∀ Y ∈ (State.mk demo_graph ["util.o"] ["main.c", "util.c"] []).built_targets,
          Relation.ReflTransGen (DepEdge demo_graph) "app" Y →
          ∀ d, DepEdge demo_graph Y d →
            d ∈ (State.mk demo_graph ["util.o"] ["main.c", "util.c"] []).built_targets) →
        ∀ X, Relation.ReflTransGen (DepEdge demo_graph) "app" X → X ∈ s1.built_targets) ∧
      (DepsClosed demo_graph
          (State.mk demo_graph ["util.o"] ["main.c", "util.c"] []).built_targets →
        DepsClosed demo_graph s1.built_targets)) ∧
    (Acyclic demo_graph → ∃ fuel s1, (build demo_oracle fuel "app"
      { targets := demo_graph, built_targets := ["util.o"],
        world := ["main.c", "util.c"], trace := [] }).final = some s1)) :=
  have hcl : DepsClosed demo_graph ["util.o"] := by
    rintro t ht d ⟨tgt, hf, hd, hc⟩
    simp only [List.mem_singleton] at ht
    subst ht
    have : tgt = { dependencies := ["util.c"], commands := ["g++ -c util.c -o util.o"] } := by
      have h2 : targets_find demo_graph "util.o" = some
          { dependencies := ["util.c"], commands := ["g++ -c util.c -o util.o"] } := by
        decide
      rw [hf] at h2
      exact Option.some.inj h2
    subst this
    simp only [List.mem_singleton] at hd
    subst hd
    revert hc
    decide
  ⟨by decide, acyclic_of_rank_ok demo_rank (by decide), hcl, by decide,
    build_completes_reachable demo_oracle demo_graph
      { targets := demo_graph, built_targets := ["util.o"],
        world := ["main.c", "util.c"], trace := [] } "app" rfl (by decide)⟩

theorem build_ret_mem {σ : Type} (o : Oracle σ) :
    ∀ (fuel : Nat) (T : String) (s s1 : State σ), build o fuel T s = Run.ret s1 →
      T ∈ s1.built_targets := by
  intro fuel T s s1 h
  cases fuel with
  | zero => simp [build] at h
  | succ n =>
    by_cases hb : T ∈ s.built_targets
    · rw [build_skip o n hb] at h
      cases h
      exact hb
    · simp only [build, hb, if_false] at h
      split at h
      · split at h
        · split at h
          · rename_i s3 hr
            cases h
            simp
          · cases h
          · cases h
        · cases h
          simp
        · cases h
        · cases h
      · cases h
      · cases h

/-- C11: `build` is a no-op on a completed target. When `T` is in the
completed set the call returns the state it was given: same graph, same
completed set, same world, same trace (no command is run); this holds already
with the recursion depth bounded by one, so no recursive call is made. Hence
after a call of `build(T)` that returned, `T` is completed and a second call
returns the state the first one left: the trace is that of the first call. -/
theorem build_completed_is_noop {σ : Type} (o : Oracle σ) (T : String) (s : State σ) :
    (∀ fuel, T ∈ s.built_targets → build o (fuel + 1) T s = Run.ret s) ∧
    (∀ fuel s1, build o fuel T s = Run.ret s1 →
      T ∈ s1.built_targets ∧ ∀ fuel2, build o (fuel2 + 1) T s1 = Run.ret s1) := by
  refine ⟨fun fuel hb => build_skip o fuel hb, fun fuel s1 h => ?_⟩
  have hm := build_ret_mem o fuel T s s1 h
  exact ⟨hm, fun fuel2 => build_skip o fuel2 hm⟩

/-- C11 at `app: main.o util.o`: from the fresh state the first `build(app)`
runs the three commands and a second call on the state it left adds nothing;
on a state where `app` is completed the call returns that state. -/
theorem build_completed_is_noop_witness :
    (build demo_oracle 3 "app" (fresh demo_graph ["main.c", "util.c"])).returned.map
      (fun s => (s.built_targets, s.trace.length)) = some (["main.o", "util.o", "app"], 6) ∧
    ((build demo_oracle 3 "app" (fresh demo_graph ["main.c", "util.c"])).andThen
      (build demo_oracle 1 "app")).returned.map
      (fun s => (s.built_targets, s.trace.length)) = some (["main.o", "util.o", "app"], 6) ∧
    "app" ∈ ["main.o", "util.o", "app"] ∧
    ((∀ fuel, "app" ∈ (State.mk demo_graph ["main.o", "util.o", "app"]
        ["main.c", "util.c"] []).built_targets →
      build demo_oracle (fuel + 1) "app"
        (State.mk demo_graph ["main.o", "util.o", "app"] ["main.c", "util.c"] []) =
        Run.ret (State.mk demo_graph ["main.o", "util.o", "app"] ["main.c", "util.c"] [])) ∧
    (∀ fuel s1, build demo_oracle fuel "app"
        (State.mk demo_graph ["main.o", "util.o", "app"] ["main.c", "util.c"] []) =
        Run.ret s1 →
      "app" ∈ s1.built_targets ∧ ∀ fuel2, build demo_oracle (fuel2 + 1) "app" s1 = Run.ret s1)) :=
  ⟨by decide, by decide, by decide,
    build_completed_is_noop demo_oracle "app"
      (State.mk demo_graph ["main.o", "util.o", "app"] ["main.c", "util.c"] [])⟩

theorem build_deps_mono {σ : Type} (r1 r2 : String → State σ → Run σ)
    (hrec : ∀ d s, r1 d s ≠ Run.loop → r2 d s = r1 d s) :
    ∀ (deps : List String) (s : State σ), build_deps r1 deps s ≠ Run.loop →
      build_deps r2 deps s = build_deps r1 deps s := by
  intro deps
  induction deps with
  | nil => intro s _; rfl
  | cons d rest ih =>
    intro s h
    simp only [build_deps] at h ⊢
    cases hc : targets_count s.targets d with
    | false =>
      simp only [hc, Bool.false_eq_true, if_false] at h ⊢
      exact ih s h
    | true =>
      simp only [hc, if_true] at h ⊢
      have h1 : r1 d s ≠ Run.loop := by
        intro hl; rw [hl] at h; exact h rfl
      rw [hrec d s h1]
      cases hr : r1 d s with
      | ret s1 =>
        rw [hr] at h
        exact ih s1 h
      | exit e s1 => rfl
      | loop => exact absurd hr h1

theorem build_mono_succ {σ : Type} (o : Oracle σ) :
    ∀ (fuel : Nat) (T : String) (s : State σ), build o fuel T s ≠ Run.loop →
      build o (fuel + 1) T s = build o fuel T s := by
  intro fuel
  induction fuel with
  | zero => intro T s h; simp [build] at h
  | succ n ih =>
    intro T s h
    unfold build at h ⊢
    by_cases hb : T ∈ s.built_targets
    · simp [hb]
    · simp only [hb, if_false] at h ⊢
      have hd : build_deps (build o n) (targets_index s.targets T).2.dependencies
          { s with targets := (targets_index s.targets T).1 } ≠ Run.loop := by
        intro hl; rw [hl] at h; exact h rfl
      rw [build_deps_mono (build o n) (build o (n + 1)) (fun d s0 hne => ih d s0 hne) _ _ hd]
      cases hr : build_deps (build o n) (targets_index s.targets T).2.dependencies
          { s with targets := (targets_index s.targets T).1 } with
      | loop => exact absurd hr hd
      | exit e s2 => rfl
      | ret s2 =>
        rw [hr] at h
        simp only at h ⊢
        have hn : needs_build o s2.world n s2.targets T ≠ Check.loop := by
          intro hl; rw [hl] at h; exact h rfl
        rw [needs_build_mono_succ o s2.world n s2.targets T hn]

theorem build_mono_le {σ : Type} (o : Oracle σ) {fuel fuel2 : Nat} (hle : fuel ≤ fuel2)
    (T : String) (s : State σ) (h : build o fuel T s ≠ Run.loop) :
    build o fuel2 T s = build o fuel T s := by
  obtain ⟨k, rfl⟩ := Nat.exists_eq_add_of_le hle
  induction k with
  | zero => rfl
  | succ k ih =>
    rw [← Nat.add_assoc, build_mono_succ o (fuel + k) T s
      (by rw [ih (Nat.le_add_right _ _)]; exact h), ih (Nat.le_add_right _ _)]

/-- C19: on a graph whose dependency relation over graph targets is acyclic,
that relation is well-founded (the graph is finite), and for every graph
target `T` both `needs_build(T)` and `build(T)` end: there is a recursion
depth from which on the outcome is no longer `loop` and no longer depends on
the depth, for every filesystem state, every command oracle and every state
of the run on that graph. -/
theorem acyclic_recursions_terminate {σ : Type} (o : Oracle σ) (g : TargetMap)
    (hac : Acyclic g) :
    WellFounded (fun d t => DepEdge g t d) ∧
    ∀ T, targets_count g T = true →
      (∃ N, ∀ (w : σ) (fuel : Nat), N ≤ fuel →
        needs_build o w fuel g T ≠ Check.loop ∧
        needs_build o w fuel g T = needs_build o w N g T) ∧
      (∃ N, ∀ (fuel : Nat), N ≤ fuel → ∀ s : State σ, s.targets = g →
        build o fuel T s ≠ Run.loop ∧ build o fuel T s = build o N T s) := by
  refine ⟨acyclic_wf hac, fun T hT => ⟨?_, ?_⟩⟩
  · obtain ⟨N, hN⟩ := needs_build_terminates o hac T hT
    exact ⟨N, fun w fuel hle => ⟨hN w fuel hle,
      needs_build_mono_le o w hle g T (hN w N (le_refl N))⟩⟩
  · obtain ⟨N, hN⟩ := build_terminates o hac T hT
    exact ⟨N, fun fuel hle s hs => ⟨hN fuel hle s hs,
      build_mono_le o hle T s (hN N (le_refl N) s hs)⟩⟩

/-- C19 at the diamond `top: left right left`, `left: base`, `right: base`. -/
theorem acyclic_recursions_terminate_witness :
    Acyclic diamond_graph ∧
    (WellFounded (fun d t => DepEdge diamond_graph t d) ∧
    ∀ T, targets_count diamond_graph T = true →
      (∃ N, ∀ (w : List String) (fuel : Nat), N ≤ fuel →
        needs_build demo_oracle w fuel diamond_graph T ≠ Check.loop ∧
        needs_build demo_oracle w fuel diamond_graph T =
          needs_build demo_oracle w N diamond_graph T) ∧
      (∃ N, ∀ (fuel : Nat), N ≤ fuel → ∀ s : State (List String),
        s.targets = diamond_graph →
        build demo_oracle fuel T s ≠ Run.loop ∧
        build demo_oracle fuel T s = build demo_oracle N T s)) :=
  ⟨acyclic_of_rank_ok diamond_rank (by decide),
    acyclic_recursions_terminate demo_oracle diamond_graph
      (acyclic_of_rank_ok diamond_rank (by decide))⟩

theorem quiet_build_deps {σ : Type} (g : TargetMap) (w : σ)
    (recur : String → State σ → Run σ) :
    ∀ (deps : List String) (s : State σ), s.targets = g → s.world = w →
      (∀ d ∈ deps, targets_count g d = true → ∀ s0 : State σ, s0.targets = g → s0.world = w →
        ∃ s1, recur d s0 = Run.ret s1 ∧
          Quiet g w (fun x => Relation.ReflTransGen (DepEdge g) d x) s0 s1) →
      ∃ s2, build_deps recur deps s = Run.ret s2 ∧
        Quiet g w (fun x => ∃ d ∈ deps, targets_count g d = true ∧
          Relation.ReflTransGen (DepEdge g) d x) s s2 := by
  intro deps
  induction deps with
  | nil =>
    intro s hs hw _
    exact ⟨s, rfl, hs, hw, rfl, [], by simp, by simp⟩
  | cons d rest ih =>
    intro s hs hw h
    simp only [build_deps, hs]
    cases hc : targets_count g d with
    | false =>
      simp only [Bool.false_eq_true, if_false]
      obtain ⟨s2, h2, a, b, c, new, e, f⟩ :=
        ih s hs hw (fun x hx => h x (List.mem_cons_of_mem _ hx))
      refine ⟨s2, h2, a, b, c, new, e, fun x hx => ?_⟩
      obtain ⟨d1, hd1, hc1, hr1⟩ := f x hx
      exact ⟨d1, List.mem_cons_of_mem _ hd1, hc1, hr1⟩
    | true =>
      simp only [if_true]
      obtain ⟨s1, h1, a1, b1, c1, new1, e1, f1⟩ := h d (List.mem_cons_self _ _) hc s hs hw
      obtain ⟨s2, h2, a2, b2, c2, new2, e2, f2⟩ :=
        ih s1 a1 b1 (fun x hx => h x (List.mem_cons_of_mem _ hx))
      rw [h1]
      refine ⟨s2, h2, a2, b2, c2.trans c1, new1 ++ new2,
        by rw [e2, e1, List.append_assoc], fun x hx => ?_⟩
      rcases List.mem_append.1 hx with hx | hx
      · exact ⟨d, List.mem_cons_self _ _, hc, f1 x hx⟩
      · obtain ⟨d1, hd1, hc1, hr1⟩ := f2 x hx
        exact ⟨d1, List.mem_cons_of_mem _ hd1, hc1, hr1⟩

theorem quiet_build {σ : Type} (o : Oracle σ) (w : σ) (g : TargetMap) :
    ∀ (n : Nat) (T : String), targets_count g T = true →
      needs_build o w n g T = Check.ret g false →
      ∀ s : State σ, s.targets = g → s.world = w →
        ∃ s1, build o (n + 1) T s = Run.ret s1 ∧
          Quiet g w (fun x => Relation.ReflTransGen (DepEdge g) T x) s s1 := by
  intro n
  induction n with
  | zero => intro T _ h; simp [needs_build] at h
  | succ n ih =>
    intro T hT h s hs hw
    obtain ⟨tgt, hf, _⟩ := targets_index_of_count hT
    by_cases hb : T ∈ s.built_targets
    · exact ⟨s, build_skip o (n + 1) hb, hs, hw, rfl, [], by simp, by simp⟩
    · have h0 := h
      rw [needs_build_succ o w n hf] at h0
      split at h0
      · cases h0
      · split at h0
        · cases h0
        · have hfalse := needs_build_deps_false o w _ _ g
            (fun d m1 b hcd hr => needs_build_targets o w n g d m1 b hcd hr) _ _ h0
          obtain ⟨s2, h2, a2, b2, c2, new2, e2, f2⟩ :=
            quiet_build_deps g w (build o (n + 1)) tgt.dependencies s hs hw
              (fun d hd hcd s0 hs0 hw0 => ih d hcd (hfalse d hd hcd) s0 hs0 hw0)
          refine ⟨{ s2 with built_targets := s2.built_targets ++ [T] }, ?_, a2, b2, c2,
            new2 ++ [T], by simp [e2], fun x hx => ?_⟩
          · rw [build_succ o (n + 1) (hs ▸ hf) hb]
            simp only [build_body, h2, a2, b2, h]
          · rcases List.mem_append.1 hx with hx | hx
            · obtain ⟨d, hd, hcd, hr⟩ := f2 x hx
              exact Relation.ReflTransGen.head ⟨tgt, hf, hd, hcd⟩ hr
            · simp only [List.mem_singleton] at hx
              subst hx
              exact Relation.ReflTransGen.refl

/-- C20: the null build. When `needs_build(T)` returns false for a graph
target `T`, `build(T)` started from any completed set returns (at every
sufficient recursion depth), and the state it returns differs from the one it
started from only by the completed list: the trace is unchanged (no command
of `T` nor of any dependency was run), the world and the graph are unchanged,
and the new entries of the completed list are `T` and targets reachable from
`T`. -/
theorem null_build_runs_nothing {σ : Type} (o : Oracle σ) (w : σ) (g : TargetMap)
    (T : String) (n : Nat) (hT : targets_count g T = true)
    (hfalse : needs_build o w n g T = Check.ret g false) (s : State σ)
    (hs : s.targets = g) (hw : s.world = w) :
    ∃ s1, (∀ fuel, n + 1 ≤ fuel → build o fuel T s = Run.ret s1) ∧
      s1.trace = s.trace ∧ s1.world = w ∧ s1.targets = g ∧ T ∈ s1.built_targets ∧
      ∃ new, s1.built_targets = s.built_targets ++ new ∧
        ∀ x ∈ new, Relation.ReflTransGen (DepEdge g) T x := by
  obtain ⟨s1, h1, a, b, c, new, e, f⟩ := quiet_build o w g n T hT hfalse s hs hw
  refine ⟨s1, fun fuel hle => ?_, c, b, a, build_ret_mem o (n + 1) T s s1 h1, new, e, f⟩
  rw [build_mono_le o hle T s (by rw [h1]; exact fun x => Run.noConfusion x), h1]

/-- C20 at the chain `A: B`, `B: C`, `C: c.src` with every file present and
each target newer than its dependency, `C` already completed. -/
theorem null_build_runs_nothing_witness :
    targets_count chain_graph "A" = true ∧
    needs_build demo_oracle ["c.src", "C", "B", "A"] 3 chain_graph "A" =
      Check.ret chain_graph false ∧
    (build demo_oracle 4 "A"
      (State.mk chain_graph ["C"] ["c.src", "C", "B", "A"] [])).returned.map
      (fun s => (s.built_targets, s.trace)) = some (["C", "B", "A"], []) ∧
    (∃ s1, (∀ fuel, 3 + 1 ≤ fuel → build demo_oracle fuel "A"
        (State.mk chain_graph ["C"] ["c.src", "C", "B", "A"] []) = Run.ret s1) ∧
      s1.trace = (State.mk chain_graph ["C"] ["c.src", "C", "B", "A"] []).trace ∧
      s1.world = ["c.src", "C", "B", "A"] ∧ s1.targets = chain_graph ∧
      "A" ∈ s1.built_targets ∧
      ∃ new, s1.built_targets =
          (State.mk chain_graph ["C"] ["c.src", "C", "B", "A"] []).built_targets ++ new ∧
        ∀ x ∈ new, Relation.ReflTransGen (DepEdge chain_graph) "A" x) :=
  ⟨by decide, by decide, by decide,
    null_build_runs_nothing demo_oracle ["c.src", "C", "B", "A"] chain_graph "A" 3
      (by decide) (by decide) (State.mk chain_graph ["C"] ["c.src", "C", "B", "A"] []) rfl rfl⟩

/-! ## Lemmas on the parser -/

theorem targets_find_append (m : TargetMap) (k x : String) (t : Target) :
    targets_find (m ++ [(k, t)]) x =
      match targets_find m x with
      | some r => some r
      | none => if k = x then some t else none := by
  induction m with
  | nil =>
    by_cases h : k = x
    · simp [targets_find, List.find?, h]
    · have hb : (k == x) = false := by simpa using h
      simp [targets_find, List.find?, h, hb]
  | cons p m ih =>
    by_cases h : p.1 = x
    · simp [targets_find, List.find?, h]
    · have hb : (p.1 == x) = false := by simpa using h
      simp only [targets_find] at ih
      simp only [targets_find, List.cons_append, List.find?, hb]
      exact ih

theorem targets_find_index (m : TargetMap) (k x : String) :
    targets_find (targets_index m k).1 x =
      if x = k then some ((targets_find m k).getD {}) else targets_find m x := by
  unfold targets_index
  cases hk : targets_find m k with
  | some t =>
    by_cases h : x = k
    · subst h; simp [hk]
    · simp [h]
  | none =>
    simp only [targets_find_append, Option.getD_none]
    by_cases h : x = k
    · subst h; simp [hk]
    · have h1 : ¬ k = x := fun e => h e.symm
      cases targets_find m x <;> simp [h, h1]

theorem targets_find_map (l : TargetMap) (k x : String) (f : Target → Target) :
    targets_find (l.map (fun p => if p.1 == k then (p.1, f p.2) else p)) x =
      if x = k then (targets_find l k).map f else targets_find l x := by
  induction l with
  | nil => simp [targets_find]
  | cons p l ih =>
    simp only [targets_find] at ih
    by_cases hpk : p.1 = k
    · by_cases hx : x = k
      · subst hx
        simp [targets_find, List.find?, hpk]
      · subst hpk
        have hb : (p.1 == x) = false := by
          simp only [beq_eq_false_iff_ne, ne_eq]
          intro e; exact hx e.symm
        simp only [hx, if_false] at ih
        simp only [targets_find, List.map_cons, beq_self_eq_true, if_true, List.find?, hb,
          hx, if_false]
        exact ih
    · have hbk : (p.1 == k) = false := by simpa using hpk
      by_cases hpx : p.1 = x
      · have hxk : ¬ x = k := fun e => hpk (hpx ▸ e)
        simp [targets_find, List.find?, hbk, hpx, hxk]
      · have hbx : (p.1 == x) = false := by simpa using hpx
        simp only [targets_find, List.map_cons, hbk, Bool.false_eq_true, if_false,
          List.find?, hbx]
        exact ih

theorem targets_find_modify (m : TargetMap) (k x : String) (f : Target → Target) :
    targets_find (targets_modify m k f) x =
      if x = k then some (f ((targets_find m k).getD {})) else targets_find m x := by
  unfold targets_modify
  rw [targets_find_map]
  by_cases h : x = k
  · simp [h, targets_find_index]
  · simp [h, targets_find_index]

theorem targets_count_eq_isSome (m : TargetMap) (x : String) :
    targets_count m x = (targets_find m x).isSome := by
  cases h : targets_find m x with
  | some t => simpa using (targets_count_iff_find m x).2 ⟨t, h⟩
  | none =>
    cases hc : targets_count m x with
    | false => rfl
    | true =>
      obtain ⟨t, ht⟩ := (targets_count_iff_find m x).1 hc
      rw [h] at ht; cases ht

theorem targets_keys_modify (m : TargetMap) (k : String) (f : Target → Target) :
    (targets_modify m k f).map Prod.fst =
      if targets_count m k = true then m.map Prod.fst else m.map Prod.fst ++ [k] := by
  have hmap : ∀ l : TargetMap,
      (l.map (fun p => if p.1 == k then (p.1, f p.2) else p)).map Prod.fst = l.map Prod.fst := by
    intro l
    rw [List.map_map]
    apply List.map_congr_left
    intro p _
    simp only [Function.comp]
    split <;> rfl
  unfold targets_modify
  rw [hmap]
  unfold targets_index
  cases hk : targets_find m k with
  | some t =>
    have : targets_count m k = true := (targets_count_iff_find m k).2 ⟨t, hk⟩
    simp [this]
  | none =>
    have : targets_count m k = false := by
      rw [targets_count_eq_isSome, hk]; rfl
    simp [this]

theorem targets_count_iff_mem_keys (m : TargetMap) (x : String) :
    targets_count m x = true ↔ x ∈ m.map Prod.fst := by
  simp only [targets_count, List.any_eq_true, beq_iff_eq, List.mem_map]

theorem parse_line_eq (st : ParseState) (l : List Char) :
    parse_line st l =
      if is_header l = true then header_step st l
      else if is_command st.current_target l = true then command_step st l
      else st := by
  unfold parse_line is_header is_command is_skipped
  by_cases h1 : l = [] ∨ l.head? = some '#'
  · simp [h1]
  · by_cases h2 : ':' ∈ l
    · simp [h1, h2]
    · by_cases h3 : st.current_target ≠ "" ∧ (l.head? = some '\t' ∨ l.head? = some ' ')
      · have h3a := h3.1
        have h3b := h3.2
        simp only [h1, h2, if_false, decide_False, Bool.not_false, Bool.and_false,
          Bool.false_eq_true, Bool.true_and, Bool.and_true, h3]
        simp [h3a, h3b]
      · simp only [h1, h2, if_false, h3, decide_False, Bool.not_false, Bool.and_false,
          Bool.false_eq_true, Bool.true_and, Bool.and_true]
        rw [not_and_or] at h3
        rcases h3 with h3 | h3
        · simp [h3]
        · simp [h3]

theorem parse_from_append (st : ParseState) (a b : List String) :
    parse_from st (a ++ b) = parse_from (parse_from st a) b := by
  simp [parse_from, List.foldl_append]

theorem parse_from_cons (st : ParseState) (l : String) (rest : List String) :
    parse_from st (l :: rest) = parse_from (parse_line st l.data) rest := rfl

theorem parse_lines_snoc (lines : List String) (l : String) :
    parse_lines (lines ++ [l]) = parse_line (parse_lines lines) l.data := by
  simp [parse_lines, parse_from, List.foldl_append]

theorem declared_names_cons (l : String) (rest : List String) :
    declared_names (l :: rest) =
      if is_header l.data = true then header_name l.data :: declared_names rest
      else declared_names rest := by
  unfold declared_names declarations
  by_cases h : is_header l.data = true
  · simp [List.filter, h]
  · simp [List.filter, h]

theorem default_target_step (st : ParseState) (l : List Char) :
    (parse_line st l).default_target =
      if is_header l = true ∧ st.default_target = "" then header_name l
      else st.default_target := by
  rw [parse_line_eq]
  by_cases h : is_header l = true
  · by_cases hd : st.default_target = ""
    · simp [h, hd, header_step]
    · simp [h, hd, header_step]
  · by_cases hc : is_command st.current_target l = true
    · simp [h, hc, command_step]
    · simp [h, hc]

theorem default_target_from (lines : List String) :
    ∀ st : ParseState, (parse_from st lines).default_target =
      if st.default_target = "" then
        ((declared_names lines).find? (fun n => decide (n ≠ ""))).getD ""
      else st.default_target := by
  induction lines with
  | nil =>
    intro st
    by_cases hd : st.default_target = ""
    · simp [parse_from, declared_names, declarations, hd]
    · simp [parse_from, hd]
  | cons l rest ih =>
    intro st
    rw [parse_from_cons, ih, default_target_step, declared_names_cons]
    by_cases hd : st.default_target = ""
    · by_cases h : is_header l.data = true
      · by_cases hn : header_name l.data = ""
        · simp [hd, h, hn, List.find?]
        · simp [hd, h, hn, List.find?]
      · simp [hd, h]
    · simp [hd]

/-- C12, as stated, fails: in the script `:` / `foo: a` the first declaration
has the empty name, and the later declaration `foo` sets `default_target`:
after the first line it is empty, after the second it is `foo`. -/
theorem default_target_set_by_later_declaration :
    declared_names [":", "foo: a"] = ["", "foo"] ∧
    (parse [":"]).default_target = "" ∧
    (parse [":", "foo: a"]).default_target = "foo" := by
  decide

/-- C12, amended: after `parse` the default target is the trimmed name of the
first declaration whose trimmed name is not empty (of the first declaration,
when that one has a non-empty name), once it is not empty no later line
changes it, and it is empty when the script has no declaration. -/
theorem default_target_first_named_declaration (lines : List String) :
    (parse lines).default_target =
      ((declared_names lines).find? (fun n => decide (n ≠ ""))).getD "" ∧
    (∀ n rest, declared_names lines = n :: rest → n ≠ "" →
      (parse lines).default_target = n) ∧
    (declared_names lines = [] → (parse lines).default_target = "") ∧
    (∀ more, (parse lines).default_target ≠ "" →
      (parse (lines ++ more)).default_target = (parse lines).default_target) := by
  have key : (parse lines).default_target =
      ((declared_names lines).find? (fun n => decide (n ≠ ""))).getD "" := by
    show (parse_from {} lines).default_target = _
    rw [default_target_from]
    simp
  refine ⟨key, fun n rest hn hne => ?_, fun hnil => ?_, fun more hne => ?_⟩
  · rw [key, hn]
    simp [List.find?, hne]
  · rw [key, hnil]
    rfl
  · show (parse_from {} (lines ++ more)).default_target = (parse_from {} lines).default_target
    rw [parse_from_append, default_target_from]
    have : (parse_from {} lines).default_target ≠ "" := hne
    simp [this]

/-- C12, amended, at a script with a comment, two declarations and commands. -/
theorem default_target_first_named_declaration_witness :
    declared_names ["# build", "app: main.o", "\tg++ -o app main.o", "main.o: main.c"] =
      ["app", "main.o"] ∧
    ((parse ["# build", "app: main.o", "\tg++ -o app main.o", "main.o: main.c"]).default_target
        = ((declared_names ["# build", "app: main.o", "\tg++ -o app main.o",
          "main.o: main.c"]).find? (fun n => decide (n ≠ ""))).getD "" ∧
    (∀ n rest, declared_names ["# build", "app: main.o", "\tg++ -o app main.o",
        "main.o: main.c"] = n :: rest → n ≠ "" →
      (parse ["# build", "app: main.o", "\tg++ -o app main.o", "main.o: main.c"]).default_target
        = n) ∧
    (declared_names ["# build", "app: main.o", "\tg++ -o app main.o", "main.o: main.c"] = [] →
      (parse ["# build", "app: main.o", "\tg++ -o app main.o", "main.o: main.c"]).default_target
        = "") ∧
    (∀ more, (parse ["# build", "app: main.o", "\tg++ -o app main.o",
        "main.o: main.c"]).default_target ≠ "" →
      (parse (["# build", "app: main.o", "\tg++ -o app main.o", "main.o: main.c"] ++
        more)).default_target =
      (parse ["# build", "app: main.o", "\tg++ -o app main.o",
        "main.o: main.c"]).default_target)) :=
  ⟨by decide, default_target_first_named_declaration
    ["# build", "app: main.o", "\tg++ -o app main.o", "main.o: main.c"]⟩

theorem find_header_step (st : ParseState) (l : List Char) (x : String) :
    targets_find (header_step st l).targets x =
      if x = header_name l then
        some { (targets_find st.targets (header_name l)).getD {} with
          dependencies := header_deps l, is_phony := true }
      else targets_find st.targets x := by
  simp only [header_step, targets_find_modify]
  by_cases h : x = header_name l
  · simp [h]
  · simp [h]

theorem find_command_step (st : ParseState) (l : List Char) (x : String) :
    targets_find (command_step st l).targets x =
      if x = st.current_target then
        some { (targets_find st.targets st.current_target).getD {} with
          commands := ((targets_find st.targets st.current_target).getD {}).commands ++
            [String.mk (trim l)],
          is_phony := if has_substr ("-o ".data ++ st.current_target.data) (trim l) = true
            then false
            else ((targets_find st.targets st.current_target).getD {}).is_phony }
      else targets_find st.targets x := by
  simp only [command_step]
  by_cases hs : has_substr ("-o ".data ++ st.current_target.data) (trim l) = true
  · simp only [hs, if_true, targets_find_modify]
    by_cases h : x = st.current_target
    · simp [h]
    · simp [h]
  · simp only [hs, Bool.false_eq_true, if_false, targets_find_modify]

theorem count_modify_self (m : TargetMap) (k : String) (f : Target → Target) :
    targets_count (targets_modify m k f) k = true := by
  rw [targets_count_eq_isSome, targets_find_modify]
  simp

theorem keys_header_step (st : ParseState) (l : List Char) :
    (header_step st l).targets.map Prod.fst =
      if targets_count st.targets (header_name l) = true then st.targets.map Prod.fst
      else st.targets.map Prod.fst ++ [header_name l] := by
  simp only [header_step]
  rw [targets_keys_modify, count_modify_self, if_pos rfl, targets_keys_modify]

theorem keys_command_step (st : ParseState) (l : List Char)
    (h : targets_count st.targets st.current_target = true) :
    (command_step st l).targets.map Prod.fst = st.targets.map Prod.fst := by
  simp only [command_step]
  split
  · rw [targets_keys_modify, count_modify_self, if_pos rfl, targets_keys_modify, if_pos h]
  · rw [targets_keys_modify, if_pos h]

theorem declarations_snoc (lines : List String) (l : String) :
    declarations (lines ++ [l]) =
      declarations lines ++ (if is_header l.data = true then [l.data] else []) := by
  unfold declarations
  by_cases h : is_header l.data = true
  · simp [List.filter_append, List.filter, h]
  · simp [List.filter_append, List.filter, h]

theorem declared_names_snoc (lines : List String) (l : String) :
    declared_names (lines ++ [l]) =
      declared_names lines ++ (if is_header l.data = true then [header_name l.data] else []) := by
  unfold declared_names
  rw [declarations_snoc]
  by_cases h : is_header l.data = true
  · simp [h]
  · simp [h]

theorem is_command_current {cur : String} {l : List Char} (h : is_command cur l = true) :
    cur ≠ "" := by
  simp only [is_command, Bool.and_eq_true, decide_eq_true_eq] at h
  exact h.1.2

/-- What holds of the state of the parser after the lines read so far: the
current target is the name declared last, the keys of the map are the
declared names, each once. -/
theorem parse_lines_keys (lines : List String) :
    (parse_lines lines).current_target = ((declared_names lines).getLast?).getD "" ∧
    ((parse_lines lines).targets.map Prod.fst).Nodup ∧
    ∀ x, x ∈ (parse_lines lines).targets.map Prod.fst ↔ x ∈ declared_names lines := by
  induction lines using List.reverseRecOn with
  | nil =>
    refine ⟨rfl, ?_, ?_⟩
    · simp [parse_lines, parse_from]
    · intro x
      simp [parse_lines, parse_from, declared_names, declarations]
  | append_singleton lines l ih =>
    obtain ⟨hcur, hnd, hkeys⟩ := ih
    rw [parse_lines_snoc, declared_names_snoc, parse_line_eq]
    by_cases hh : is_header l.data = true
    · simp only [hh, if_true]
      refine ⟨by simp [header_step], ?_, ?_⟩
      · rw [keys_header_step]
        split
        · exact hnd
        · rename_i hc
          rw [targets_count_iff_mem_keys] at hc
          refine List.Nodup.append hnd (List.nodup_singleton _) ?_
          intro a ha hb
          simp only [List.mem_singleton] at hb
          subst hb
          exact hc ha
      · intro x
        rw [keys_header_step]
        split
        · rename_i hc
          rw [targets_count_iff_mem_keys] at hc
          simp only [List.mem_append, List.mem_singleton, hkeys]
          constructor
          · exact Or.inl
          · rintro (h | rfl)
            · exact h
            · exact (hkeys _).1 hc
        · simp only [List.mem_append, List.mem_singleton, hkeys]
    · simp only [hh, if_false, Bool.false_eq_true, List.append_nil]
      by_cases hc : is_command (parse_lines lines).current_target l.data = true
      · simp only [hc, if_true]
        have hne := is_command_current hc
        have hin : targets_count (parse_lines lines).targets
            (parse_lines lines).current_target = true := by
          rw [targets_count_iff_mem_keys, hkeys, hcur]
          rw [hcur] at hne
          cases hl : (declared_names lines).getLast? with
          | none => rw [hl] at hne; exact absurd rfl hne
          | some n => exact List.mem_of_getLast?_eq_some hl
        refine ⟨by simpa [command_step] using hcur, ?_, ?_⟩
        · rw [keys_command_step _ _ hin]; exact hnd
        · intro x
          rw [keys_command_step _ _ hin]; exact hkeys x
      · simp only [hc, if_false, Bool.false_eq_true]
        exact ⟨hcur, hnd, hkeys⟩

theorem parse_lines_current_declared (lines : List String)
    (h : (parse_lines lines).current_target ≠ "") :
    ∃ t, targets_find (parse_lines lines).targets (parse_lines lines).current_target = some t := by
  obtain ⟨hcur, _, hkeys⟩ := parse_lines_keys lines
  apply (targets_count_iff_find _ _).1
  rw [targets_count_iff_mem_keys, hkeys, hcur]
  rw [hcur] at h
  cases hl : (declared_names lines).getLast? with
  | none => rw [hl] at h; exact absurd rfl h
  | some n => exact List.mem_of_getLast?_eq_some hl

theorem parse_lines_deps (lines : List String) :
    ∀ x, (targets_find (parse_lines lines).targets x).map (fun t => t.dependencies) =
      ((declarations lines).reverse.find? (fun l => header_name l == x)).map header_deps := by
  induction lines using List.reverseRecOn with
  | nil => intro x; simp [parse_lines, parse_from, declarations, targets_find]
  | append_singleton lines l ih =>
    intro x
    rw [parse_lines_snoc, declarations_snoc, parse_line_eq]
    by_cases hh : is_header l.data = true
    · simp only [hh, if_true, find_header_step, List.reverse_append, List.reverse_singleton,
        List.singleton_append, List.find?]
      by_cases hx : x = header_name l.data
      · subst hx
        simp
      · have hb : (header_name l.data == x) = false := by
          simp only [beq_eq_false_iff_ne, ne_eq]
          exact fun e => hx e.symm
        simp only [hx, if_false, hb]
        exact ih x
    · simp only [hh, Bool.false_eq_true, if_false, List.append_nil]
      by_cases hc : is_command (parse_lines lines).current_target l.data = true
      · simp only [hc, if_true, find_command_step]
        by_cases hx : x = (parse_lines lines).current_target
        · obtain ⟨t, ht⟩ := parse_lines_current_declared lines (is_command_current hc)
          rw [← ih x]
          subst hx
          simp [ht]
        · simp only [hx, if_false]
          exact ih x
      · simp only [hc, Bool.false_eq_true, if_false]
        exact ih x

/-- C13: last declaration wins. The parsed graph holds one record per
declared name (the keys are the declared names, none twice), and the
dependencies of the record of a name are the dependency tokens, in order, of
the last header line that declares the name. -/
theorem parse_last_declaration_wins (lines : List String) :
    ((parse lines).targets.map Prod.fst).Nodup ∧
    (∀ x, targets_count (parse lines).targets x = true ↔ x ∈ declared_names lines) ∧
    (∀ x, (targets_find (parse lines).targets x).map (fun t => t.dependencies) =
      ((declarations lines).reverse.find? (fun l => header_name l == x)).map header_deps) := by
  obtain ⟨_, hnd, hkeys⟩ := parse_lines_keys lines
  refine ⟨hnd, fun x => ?_, parse_lines_deps lines⟩
  rw [targets_count_iff_mem_keys]
  exact hkeys x

/-- A script that declares `app` twice: the record keeps the dependencies of
the second header only. -/
theorem parse_redeclared_dependencies :
    (parse ["app: a b", "lib: c", "app: d"]).targets =
      [("app", { dependencies := ["d"], commands := [], is_phony := true }),
       ("lib", { dependencies := ["c"], commands := [], is_phony := true })] := by
  decide

/-- C14 fails on the code for a target declared twice: in the script
`app: a` / `gcc -o app a` / `app: b` the record of `app` stores the command
`gcc -o app a`, which contains `-o app`, yet `is_phony` is true: the second
header sets the flag at line 58 and leaves the stored commands in place. -/
theorem parse_redeclared_phony_flag :
    (parse ["app: a", "\tgcc -o app a", "app: b"]).targets =
      [("app", { dependencies := ["b"], commands := ["gcc -o app a"], is_phony := true })] ∧
    has_substr "-o app".data "gcc -o app a".data = true ∧
    (parse ["app: a", "\tgcc -o app a"]).targets =
      [("app", { dependencies := ["a"], commands := ["gcc -o app a"], is_phony := false })] := by
  decide

theorem parse_snoc (lines : List String) (l : String) :
    parse (lines ++ [l]) =
      { targets := (parse_line (parse_lines lines) l.data).targets,
        default_target := (parse_line (parse_lines lines) l.data).default_target } := by
  simp only [parse, parse_lines_snoc]

theorem dropWhile_head_not (p : Char → Bool) (l : List Char) (c : Char)
    (h : (l.dropWhile p).head? = some c) : p c = false := by
  have := List.head?_dropWhile_not p l
  rw [h] at this
  exact this

/-- What `trim` returns: the string is `a ++ trim s ++ b` with `a` and `b`
made of whitespace, and `trim s` neither begins nor ends with whitespace. -/
theorem trim_spec (s : List Char) :
    ∃ a b, s = a ++ trim s ++ b ∧ (∀ c ∈ a, isspace c = true) ∧ (∀ c ∈ b, isspace c = true) ∧
      (∀ c, (trim s).head? = some c → isspace c = false) ∧
      (∀ c, (trim s).getLast? = some c → isspace c = false) := by
  have hd : s.dropWhile isspace = trim s ++
      (((s.dropWhile isspace).reverse).takeWhile isspace).reverse := by
    have := List.takeWhile_append_dropWhile isspace (s.dropWhile isspace).reverse
    have h2 := congrArg List.reverse this
    simp only [List.reverse_append, List.reverse_reverse] at h2
    rw [trim]
    exact h2.symm
  refine ⟨s.takeWhile isspace, (((s.dropWhile isspace).reverse).takeWhile isspace).reverse,
    ?_, ?_, ?_, ?_, ?_⟩
  · rw [List.append_assoc, ← hd, List.takeWhile_append_dropWhile]
  · intro c hc
    exact List.mem_takeWhile_imp hc
  · intro c hc
    exact List.mem_takeWhile_imp (List.mem_reverse.1 hc)
  · intro c hc
    apply dropWhile_head_not isspace s c
    rw [hd, List.head?_append, hc]
    rfl
  · intro c hc
    rw [trim, List.getLast?_reverse] at hc
    exact dropWhile_head_not isspace _ c hc

theorem split_loop_nil (n : Nat) : split_loop n [] = [] := by
  cases n <;> simp [split_loop]

theorem split_rest_length (s : List Char) (h : s ≠ []) :
    ((s.dropWhile (fun c => c != ' ')).drop 1).length < s.length := by
  have h1 : (s.dropWhile (fun c => c != ' ')).length ≤ s.length :=
    (List.dropWhile_sublist _).length_le
  have h2 : 0 < s.length := List.length_pos.2 h
  rw [List.length_drop]
  omega

theorem split_loop_fuel :
    ∀ (n m : Nat) (s : List Char), s.length ≤ n → s.length ≤ m →
      split_loop n s = split_loop m s := by
  intro n
  induction n with
  | zero =>
    intro m s hn _
    have : s = [] := List.length_eq_zero.1 (Nat.le_zero.1 hn)
    subst this
    rw [split_loop_nil, split_loop_nil]
  | succ n ih =>
    intro m s hn hm
    by_cases hs : s = []
    · subst hs
      rw [split_loop_nil, split_loop_nil]
    · have hlt := split_rest_length s hs
      obtain ⟨k, rfl⟩ : ∃ k, m = k + 1 := ⟨m - 1, by
        have : 0 < s.length := List.length_pos.2 hs
        omega⟩
      simp only [split_loop, hs, if_false]
      rw [ih k _ (by omega) (by omega)]

theorem split_tokens (s : List Char) :
    ∀ tok ∈ split s, tok ≠ [] ∧ ' ' ∉ tok := by
  have key : ∀ (n : Nat) (s : List Char), ∀ tok ∈ split_loop n s, tok ≠ [] ∧ ' ' ∉ tok := by
    intro n
    induction n with
    | zero => intro s tok h; simp [split_loop] at h
    | succ n ih =>
      intro s tok h
      simp only [split_loop] at h
      split at h
      · simp at h
      · split at h
        · exact ih _ tok h
        · rename_i hne
          rcases List.mem_cons.1 h with rfl | h
          · refine ⟨hne, fun hmem => ?_⟩
            have := List.mem_takeWhile_imp hmem
            simp at this
          · exact ih _ tok h
  exact key _ s

theorem split_space (s : List Char) : split (' ' :: s) = split s := by
  simp [split, split_loop]

theorem split_spaces (k : Nat) (s : List Char) :
    split (List.replicate k ' ' ++ s) = split s := by
  induction k with
  | zero => simp
  | succ k ih =>
    rw [List.replicate_succ, List.cons_append, split_space, ih]

theorem split_token_space (tok s : List Char) (hne : tok ≠ []) (hsp : ' ' ∉ tok) :
    split (tok ++ ' ' :: s) = tok :: split s := by
  have hall : ∀ a ∈ tok, (fun c : Char => c != ' ') a = true := by
    intro a ha
    simp only [bne_iff_ne, ne_eq]
    rintro rfl
    exact hsp ha
  have htw : (tok ++ ' ' :: s).takeWhile (fun c => c != ' ') = tok := by
    rw [List.takeWhile_append_of_pos hall]
    simp [List.takeWhile]
  have hdw : (tok ++ ' ' :: s).dropWhile (fun c => c != ' ') = ' ' :: s := by
    rw [List.dropWhile_append_of_pos hall]
    simp [List.dropWhile]
  have hlen : (tok ++ ' ' :: s).length = (tok.length + s.length) + 1 := by
    simp [List.length_append]; omega
  have hnn : tok ++ ' ' :: s ≠ [] := by simp
  rw [split, hlen]
  simp only [split_loop, hnn, if_false, htw, hdw, hne, List.drop_one, List.tail_cons]
  rw [split, split_loop_fuel (tok.length + s.length) s.length s (by omega) (le_refl _)]

theorem split_token (tok : List Char) (hne : tok ≠ []) (hsp : ' ' ∉ tok) :
    split tok = [tok] := by
  have hall : ∀ a ∈ tok, (fun c : Char => c != ' ') a = true := by
    intro a ha
    simp only [bne_iff_ne, ne_eq]
    rintro rfl
    exact hsp ha
  have htw : tok.takeWhile (fun c => c != ' ') = tok := by
    have := @List.takeWhile_append_of_pos _ _ tok [] hall
    simpa using this
  have hdw : tok.dropWhile (fun c => c != ' ') = [] := by
    have := @List.dropWhile_append_of_pos _ _ tok [] hall
    simpa using this
  obtain ⟨k, hk⟩ : ∃ k, tok.length = k + 1 :=
    ⟨tok.length - 1, by have := List.length_pos.2 hne; omega⟩
  rw [split, hk]
  simp only [split_loop, hne, if_false, htw, hdw, List.drop_nil, split_loop_nil]

theorem split_spaced_tokens (k0 : Nat) (ts : List (List Char × Nat)) (last : List Char)
    (hts : ∀ p ∈ ts, p.1 ≠ [] ∧ ' ' ∉ p.1) (hlast : ' ' ∉ last) :
    split (List.replicate k0 ' ' ++ (spaced_tokens ts ++ last)) =
      ts.map Prod.fst ++ (if last = [] then [] else [last]) := by
  rw [split_spaces]
  induction ts with
  | nil =>
    by_cases hl : last = []
    · subst hl
      simp [spaced_tokens, split, split_loop]
    · simp [spaced_tokens, hl, split_token last hl hlast]
  | cons p rest ih =>
    obtain ⟨h1, h2⟩ := hts p (List.mem_cons_self _ _)
    have e : spaced_tokens (p :: rest) ++ last =
        p.1 ++ ' ' :: (List.replicate p.2 ' ' ++ (spaced_tokens rest ++ last)) := by
      simp [spaced_tokens, List.replicate_succ, List.append_assoc]
    rw [e, split_token_space _ _ h1 h2, split_spaces,
      ih (fun q hq => hts q (List.mem_cons_of_mem _ hq))]
    simp

theorem header_line_split (l : List Char) (hh : is_header l = true) :
    ∃ before after, l = before ++ ':' :: after ∧ ':' ∉ before ∧
      l.takeWhile (fun c => c != ':') = before ∧
      (l.dropWhile (fun c => c != ':')).drop 1 = after := by
  have hmem : ':' ∈ l := by
    simp only [is_header, Bool.and_eq_true, decide_eq_true_eq] at hh
    exact hh.2
  have hsplit := List.takeWhile_append_dropWhile (fun c => c != ':') l
  have hbefore : ':' ∉ l.takeWhile (fun c => c != ':') := by
    intro hm
    have := List.mem_takeWhile_imp hm
    simp at this
  cases hd : l.dropWhile (fun c => c != ':') with
  | nil =>
    rw [hd, List.append_nil] at hsplit
    rw [← hsplit] at hmem
    exact absurd hmem hbefore
  | cons c after =>
    have hc : (fun c : Char => c != ':') c = false :=
      dropWhile_head_not _ l c (by rw [hd]; rfl)
    have hc2 : c = ':' := by simpa using hc
    subst hc2
    refine ⟨l.takeWhile (fun c => c != ':'), after, ?_, hbefore, rfl, by simp⟩
    rw [← hd, hsplit]

/-- C17, as stated, fails: in the header `app: a<tab>b c` the tab does not
separate tokens: the dependencies are `a<tab>b` and `c`, and the first one
contains whitespace. -/
theorem tab_does_not_separate_dependencies :
    header_deps "app: a\tb c".data = ["a\tb", "c"] ∧ isspace '\t' = true ∧
    (parse ["app: a\tb c"]).targets =
      [("app", { dependencies := ["a\tb", "c"], commands := [], is_phony := true })] := by
  decide

/-- C17, amended: for a header line, the target name is the text before the
first colon with leading and trailing whitespace removed, and the dependency
list stored for that name is the sequence of maximal space-free tokens of the
text after that colon, in order, duplicates kept: tokens are separated by the
space character only, no dependency is empty or contains a space (a tab or
another whitespace character stays inside a token). -/
theorem header_line_parsed (pre : List String) (l : String)
    (hh : is_header l.data = true) :
    (∃ before after, l.data = before ++ ':' :: after ∧ ':' ∉ before ∧
      header_name l.data = String.mk (trim before) ∧
      header_deps l.data = (split after).map String.mk ∧
      ∃ t, targets_find (parse (pre ++ [l])).targets (header_name l.data) = some t ∧
        t.dependencies = header_deps l.data) ∧
    (∀ s : List Char, ∃ a b, s = a ++ trim s ++ b ∧ (∀ c ∈ a, isspace c = true) ∧
      (∀ c ∈ b, isspace c = true) ∧ (∀ c, (trim s).head? = some c → isspace c = false) ∧
      (∀ c, (trim s).getLast? = some c → isspace c = false)) ∧
    (∀ (s : List Char), ∀ tok ∈ split s, tok ≠ [] ∧ ' ' ∉ tok) ∧
    (∀ (k0 : Nat) (ts : List (List Char × Nat)) (last : List Char),
      (∀ p ∈ ts, p.1 ≠ [] ∧ ' ' ∉ p.1) → ' ' ∉ last →
      split (List.replicate k0 ' ' ++ (spaced_tokens ts ++ last)) =
        ts.map Prod.fst ++ (if last = [] then [] else [last])) := by
  refine ⟨?_, trim_spec, split_tokens, split_spaced_tokens⟩
  obtain ⟨before, after, h1, h2, h3, h4⟩ := header_line_split l.data hh
  refine ⟨before, after, h1, h2, by rw [header_name, h3], by rw [header_deps, h4], ?_⟩
  rw [parse_snoc, parse_line_eq, if_pos hh, find_header_step, if_pos rfl]
  exact ⟨_, rfl, rfl⟩

/-- C17, amended, at the header `app : main.o  util.o main.o`: the name is
`app`, the three tokens are kept in order, the repeated one included. -/
theorem header_line_parsed_witness :
    is_header " app : main.o  util.o main.o ".data = true ∧
    header_name " app : main.o  util.o main.o ".data = "app" ∧
    header_deps " app : main.o  util.o main.o ".data = ["main.o", "util.o", "main.o"] ∧
    ((∃ before after, " app : main.o  util.o main.o ".data = before ++ ':' :: after ∧
      ':' ∉ before ∧
      header_name " app : main.o  util.o main.o ".data = String.mk (trim before) ∧
      header_deps " app : main.o  util.o main.o ".data = (split after).map String.mk ∧
      ∃ t, targets_find (parse ([] ++ [" app : main.o  util.o main.o "])).targets
          (header_name " app : main.o  util.o main.o ".data) = some t ∧
        t.dependencies = header_deps " app : main.o  util.o main.o ".data) ∧
    (∀ s : List Char, ∃ a b, s = a ++ trim s ++ b ∧ (∀ c ∈ a, isspace c = true) ∧
      (∀ c ∈ b, isspace c = true) ∧ (∀ c, (trim s).head? = some c → isspace c = false) ∧
      (∀ c, (trim s).getLast? = some c → isspace c = false)) ∧
    (∀ (s : List Char), ∀ tok ∈ split s, tok ≠ [] ∧ ' ' ∉ tok) ∧
    (∀ (k0 : Nat) (ts : List (List Char × Nat)) (last : List Char),
      (∀ p ∈ ts, p.1 ≠ [] ∧ ' ' ∉ p.1) → ' ' ∉ last →
      split (List.replicate k0 ' ' ++ (spaced_tokens ts ++ last)) =
        ts.map Prod.fst ++ (if last = [] then [] else [last]))) :=
  ⟨by decide, by decide, by decide,
    header_line_parsed [] " app : main.o  util.o main.o " (by decide)⟩

end Builder
